import Mathlib

/-!
# TokenPay transaction memory pool: a verification development

A shallow embedding of `txmempool.h`, `txmempool.cpp` and the in-memory key
types of `addressindex.h`, followed by theorems about the mempool operations.

Conventions of the embedding

* `std::map<K, V>` is a list of key/value pairs kept strictly ascending in the
  key order (`SMap`): `m[k] = v` is `assign`, `insert` is `insert` (it keeps an
  entry already stored under the key), `erase` is `erase`, `find` is `find?`,
  `count` is `contains`, `size` is `size` and `clear` gives `empty`.
* `unsigned int` counters are natural numbers reduced modulo `2 ^ 32` at every
  update.
* A `CInPoint` holds a pointer `ptx` to a node of `mapTx`.  Nodes of a
  `std::map` never move, so a pointer is modelled by the key of the node it
  points at and dereferencing it is a lookup in `mapTx` while the node is there.
* `remove` takes `const CTransaction &tx`.  What the reference names is explicit
  (`TxRef`): an object of the caller, or a node of `mapTx`, as in the recursive
  call of `remove` and in `removeConflicts`.  A read through a pointer or
  reference to a node that has been erased yields what `Env.staleRead` gives for
  the key of the node, `none` when the run has no defined result at that read.
* Functions that are declared outside the three source files (the transaction
  hash, the anon-input helpers, `Hash160`, the transaction database) are
  fields of `Env`.
* `remove` recurses through the spender graph and need not terminate on a
  cyclic graph; it takes a fuel argument and returns `none` when the fuel runs
  out or when a read of an erased node has no defined result.
-/

namespace TokenPay

/-! ## Ordered maps -/

/-- Insert-or-assign into an ascending association list. -/
def insertL {K V : Type} [LinearOrder K] (k : K) (v : V) : List (K × V) → List (K × V)
  | [] => [(k, v)]
  | (k1, v1) :: r =>
    if k < k1 then (k, v) :: (k1, v1) :: r
    else if k1 < k then (k1, v1) :: insertL k v r
    else (k, v) :: r

/-- Remove the entry of key `k` from an association list. -/
def eraseL {K V : Type} [DecidableEq K] (k : K) : List (K × V) → List (K × V)
  | [] => []
  | (k1, v1) :: r => if k1 = k then r else (k1, v1) :: eraseL k r

/-- Look a key up in an association list. -/
def findL {K V : Type} [DecidableEq K] (k : K) : List (K × V) → Option V
  | [] => none
  | (k1, v1) :: r => if k1 = k then some v1 else findL k r

/-- Keys strictly ascending. -/
def AscKeys {K V : Type} [LinearOrder K] (l : List (K × V)) : Prop :=
  (l.map Prod.fst).Pairwise (· < ·)

theorem ascKeys_nil {K V : Type} [LinearOrder K] : AscKeys ([] : List (K × V)) := by
  simp [AscKeys]

theorem ascKeys_cons {K V : Type} [LinearOrder K] {k : K} {v : V} {r : List (K × V)} :
    AscKeys ((k, v) :: r) ↔ (∀ p ∈ r, k < p.1) ∧ AscKeys r := by
  simp [AscKeys, List.pairwise_cons]

theorem mem_insertL {K V : Type} [LinearOrder K] (k : K) (v : V) (l : List (K × V))
    (p : K × V) (hp : p ∈ insertL k v l) : p = (k, v) ∨ p ∈ l := by
  induction l with
  | nil => simp [insertL] at hp; exact Or.inl hp
  | cons a r ih =>
    obtain ⟨k1, v1⟩ := a
    unfold insertL at hp
    split_ifs at hp with h1 h2
    · rcases List.mem_cons.1 hp with h | h
      · exact Or.inl h
      · exact Or.inr h
    · rcases List.mem_cons.1 hp with h | h
      · exact Or.inr (h ▸ List.mem_cons_self _ _)
      · rcases ih h with h3 | h3
        · exact Or.inl h3
        · exact Or.inr (List.mem_cons_of_mem _ h3)
    · rcases List.mem_cons.1 hp with h | h
      · exact Or.inl h
      · exact Or.inr (List.mem_cons_of_mem _ h)

theorem ascKeys_insertL {K V : Type} [LinearOrder K] (k : K) (v : V) (l : List (K × V))
    (h : AscKeys l) : AscKeys (insertL k v l) := by
  induction l with
  | nil => simp [insertL, AscKeys]
  | cons a r ih =>
    obtain ⟨k1, v1⟩ := a
    obtain ⟨h1, h2⟩ := ascKeys_cons.1 h
    unfold insertL
    split_ifs with h3 h4
    · refine ascKeys_cons.2 ⟨?_, h⟩
      intro p hp
      rcases List.mem_cons.1 hp with h5 | h5
      · rw [h5]; exact h3
      · exact lt_trans h3 (h1 p h5)
    · refine ascKeys_cons.2 ⟨?_, ih h2⟩
      intro p hp
      rcases mem_insertL k v r p hp with h5 | h5
      · rw [h5]; exact h4
      · exact h1 p h5
    · have hk : k = k1 := le_antisymm (not_lt.1 h4) (not_lt.1 h3)
      refine ascKeys_cons.2 ⟨?_, h2⟩
      intro p hp
      rw [hk]; exact h1 p hp

theorem mem_eraseL {K V : Type} [DecidableEq K] (k : K) (l : List (K × V))
    (p : K × V) (hp : p ∈ eraseL k l) : p ∈ l := by
  induction l with
  | nil => simp [eraseL] at hp
  | cons a r ih =>
    obtain ⟨k1, v1⟩ := a
    unfold eraseL at hp
    split_ifs at hp with h1
    · exact List.mem_cons_of_mem _ hp
    · rcases List.mem_cons.1 hp with h | h
      · exact h ▸ List.mem_cons_self _ _
      · exact List.mem_cons_of_mem _ (ih h)

theorem ascKeys_eraseL {K V : Type} [LinearOrder K] (k : K) (l : List (K × V))
    (h : AscKeys l) : AscKeys (eraseL k l) := by
  induction l with
  | nil => simp [eraseL, AscKeys]
  | cons a r ih =>
    obtain ⟨k1, v1⟩ := a
    obtain ⟨h1, h2⟩ := ascKeys_cons.1 h
    unfold eraseL
    split_ifs with h3
    · exact h2
    · exact ascKeys_cons.2 ⟨fun p hp => h1 p (mem_eraseL k r p hp), ih h2⟩

theorem findL_eq_none {K V : Type} [DecidableEq K] (k : K) (l : List (K × V))
    (h : ∀ p ∈ l, p.1 ≠ k) : findL k l = none := by
  induction l with
  | nil => rfl
  | cons a r ih =>
    obtain ⟨k1, v1⟩ := a
    have h1 : k1 ≠ k := h (k1, v1) (List.mem_cons_self _ _)
    simp only [findL, h1, if_false]
    exact ih (fun p hp => h p (List.mem_cons_of_mem _ hp))

theorem findL_mem {K V : Type} [DecidableEq K] (k : K) (v : V) (l : List (K × V))
    (h : findL k l = some v) : (k, v) ∈ l := by
  induction l with
  | nil => simp [findL] at h
  | cons a r ih =>
    obtain ⟨k1, v1⟩ := a
    unfold findL at h
    split_ifs at h with h1
    · simp only [Option.some.injEq] at h
      rw [h1, h]; exact List.mem_cons_self _ _
    · exact List.mem_cons_of_mem _ (ih h)

theorem findL_insertL {K V : Type} [LinearOrder K] (k k2 : K) (v : V) (l : List (K × V)) :
    findL k2 (insertL k v l) = if k = k2 then some v else findL k2 l := by
  induction l with
  | nil => simp [insertL, findL]
  | cons a r ih =>
    obtain ⟨k1, v1⟩ := a
    unfold insertL
    by_cases h1 : k < k1
    · rw [if_pos h1]
      by_cases h3 : k = k2
      · simp [findL, h3]
      · simp [findL, h3]
    · rw [if_neg h1]
      by_cases h2 : k1 < k
      · rw [if_pos h2]
        by_cases h3 : k = k2
        · subst h3
          have : k1 ≠ k := ne_of_lt h2
          simp [findL, this, ih]
        · simp [findL, ih, h3]
      · rw [if_neg h2]
        have hk : k = k1 := le_antisymm (not_lt.1 h2) (not_lt.1 h1)
        subst hk
        by_cases h3 : k = k2
        · simp [findL, h3]
        · simp [findL, h3]

theorem findL_eraseL {K V : Type} [LinearOrder K] (k k2 : K) (l : List (K × V))
    (h : AscKeys l) : findL k2 (eraseL k l) = if k = k2 then none else findL k2 l := by
  induction l with
  | nil => simp [eraseL, findL]
  | cons a r ih =>
    obtain ⟨k1, v1⟩ := a
    obtain ⟨h1, h2⟩ := ascKeys_cons.1 h
    unfold eraseL
    by_cases h3 : k1 = k
    · rw [if_pos h3]
      subst h3
      by_cases h4 : k1 = k2
      · subst h4
        rw [if_pos rfl]
        exact findL_eq_none _ _ (fun p hp => ne_of_gt (h1 p hp))
      · simp [findL, h4]
    · rw [if_neg h3]
      by_cases h4 : k = k2
      · subst h4
        simp [findL, h3, ih h2]
      · simp [findL, ih h2, h4]

theorem ascKeys_ext {K V : Type} [LinearOrder K] (l1 l2 : List (K × V))
    (h1 : AscKeys l1) (h2 : AscKeys l2) (h : ∀ k, findL k l1 = findL k l2) : l1 = l2 := by
  induction l1 generalizing l2 with
  | nil =>
    cases l2 with
    | nil => rfl
    | cons b r2 =>
      obtain ⟨k2, v2⟩ := b
      have := h k2
      simp [findL] at this
  | cons a r1 ih =>
    obtain ⟨k1, v1⟩ := a
    cases l2 with
    | nil =>
      have := h k1
      simp [findL] at this
    | cons b r2 =>
      obtain ⟨k2, v2⟩ := b
      obtain ⟨ha, hr1⟩ := ascKeys_cons.1 h1
      obtain ⟨hb, hr2⟩ := ascKeys_cons.1 h2
      have n1 : findL k1 r1 = none := findL_eq_none _ _ (fun p hp => ne_of_gt (ha p hp))
      have n2 : findL k2 r2 = none := findL_eq_none _ _ (fun p hp => ne_of_gt (hb p hp))
      have hk : k1 = k2 := by
        by_contra hne
        have e1 := h k1
        have e2 := h k2
        simp only [findL, if_true, if_neg (Ne.symm hne), if_neg hne, n1, n2] at e1 e2
        have m1 := findL_mem _ _ _ e1.symm
        have m2 := findL_mem _ _ _ e2
        exact lt_asymm (hb _ m1) (ha _ m2)
      subst hk
      have hv : v1 = v2 := by
        have e1 := h k1
        simpa [findL] using e1
      subst hv
      have hr : r1 = r2 := by
        apply ih r2 hr1 hr2
        intro k
        by_cases hk : k1 = k
        · subst hk; rw [n1, n2]
        · have e := h k
          simpa [findL, hk] using e
      rw [hr]

/-- The embedding of `std::map<K, V>`: entries strictly ascending by key. -/
structure SMap (K V : Type) [LinearOrder K] where
  /-- The entries in iteration order. -/
  entries : List (K × V)
  /-- The keys ascend strictly. -/
  asc : AscKeys entries

namespace SMap

variable {K V : Type} [LinearOrder K]

theorem eq_of_entries {a b : SMap K V} (h : a.entries = b.entries) : a = b := by
  cases a; cases b; cases h; rfl

instance [DecidableEq V] : DecidableEq (SMap K V) := fun a b =>
  if h : a.entries = b.entries then isTrue (eq_of_entries h)
  else isFalse (fun e => h (congrArg SMap.entries e))

/-- The empty map, and the result of `clear()`. -/
def empty : SMap K V := ⟨[], ascKeys_nil⟩

/-- Lookup: `find(k)`, `none` standing for `end()`. -/
def find? (m : SMap K V) (k : K) : Option V := findL k m.entries

/-- Membership test: `count(k) != 0`. -/
def contains (m : SMap K V) (k : K) : Bool := (m.find? k).isSome

/-- Insert-or-assign: `m[k] = v`. -/
def assign (m : SMap K V) (k : K) (v : V) : SMap K V :=
  ⟨insertL k v m.entries, ascKeys_insertL k v m.entries m.asc⟩

/-- Insert without overwriting: `m.insert(std::make_pair(k, v))`. -/
def insert (m : SMap K V) (k : K) (v : V) : SMap K V :=
  if m.contains k then m else m.assign k v

/-- Erase by key: `m.erase(k)`. -/
def erase (m : SMap K V) (k : K) : SMap K V :=
  ⟨eraseL k m.entries, ascKeys_eraseL k m.entries m.asc⟩

/-- Number of entries: `m.size()`. -/
def size (m : SMap K V) : Nat := m.entries.length

theorem find?_empty (k : K) : (empty : SMap K V).find? k = none := rfl

theorem find?_assign (m : SMap K V) (k k2 : K) (v : V) :
    (m.assign k v).find? k2 = if k = k2 then some v else m.find? k2 :=
  findL_insertL k k2 v m.entries

theorem find?_assign_self (m : SMap K V) (k : K) (v : V) :
    (m.assign k v).find? k = some v := by
  rw [find?_assign, if_pos rfl]

theorem find?_assign_ne (m : SMap K V) {k k2 : K} (v : V) (h : k ≠ k2) :
    (m.assign k v).find? k2 = m.find? k2 := by
  rw [find?_assign, if_neg h]

theorem find?_erase (m : SMap K V) (k k2 : K) :
    (m.erase k).find? k2 = if k = k2 then none else m.find? k2 :=
  findL_eraseL k k2 m.entries m.asc

theorem find?_erase_self (m : SMap K V) (k : K) : (m.erase k).find? k = none := by
  rw [find?_erase, if_pos rfl]

theorem find?_erase_ne (m : SMap K V) {k k2 : K} (h : k ≠ k2) :
    (m.erase k).find? k2 = m.find? k2 := by
  rw [find?_erase, if_neg h]

theorem find?_insert (m : SMap K V) (k k2 : K) (v : V) :
    (m.insert k v).find? k2 =
      if k = k2 then (if m.contains k then m.find? k else some v) else m.find? k2 := by
  unfold insert
  by_cases hc : m.contains k = true
  · by_cases hk : k = k2
    · subst hk; simp [hc]
    · simp [hc, hk]
  · by_cases hk : k = k2
    · subst hk; simp [hc, find?_assign_self]
    · simp [hc, hk, find?_assign_ne]

/-- Maps with the same lookups are equal. -/
theorem ext_find {a b : SMap K V} (h : ∀ k, a.find? k = b.find? k) : a = b :=
  eq_of_entries (ascKeys_ext a.entries b.entries a.asc b.asc h)

theorem size_empty : (empty : SMap K V).size = 0 := rfl

theorem mem_of_find (m : SMap K V) (k : K) (v : V) (h : m.find? k = some v) :
    (k, v) ∈ m.entries :=
  findL_mem k v m.entries h

theorem contains_iff (m : SMap K V) (k : K) : m.contains k = true ↔ ∃ v, m.find? k = some v := by
  simp [contains, Option.isSome_iff_exists]

theorem contains_eq_false (m : SMap K V) (k : K) : m.contains k = false ↔ m.find? k = none := by
  simp [contains]

end SMap

/-! ## Transactions (`core.h`, `main.h`) -/

/-- A 256-bit hash, as the number it denotes. -/
abbrev uint256 := Nat

/-- A 160-bit hash, as the number it denotes. -/
abbrev uint160 := Nat

/-- A script or byte vector: its bytes in order. -/
abbrev CScript := List Nat

/-- Reference to output `n` of the transaction with hash `hash`. -/
structure COutPoint where
  hash : uint256
  n : Nat
deriving DecidableEq

/-- Outpoints are ordered by hash, then by output number. -/
instance : LinearOrder COutPoint :=
  LinearOrder.lift' (fun o => toLex (o.hash, o.n))
    (by intro a b h; cases a; cases b; simpa using h)

/-- A transaction input. -/
structure CTxIn where
  prevout : COutPoint
  scriptSig : CScript
  nSequence : Nat
deriving DecidableEq

/-- A transaction output. -/
structure CTxOut where
  nValue : Int
  scriptPubKey : CScript
deriving DecidableEq

/-- A transaction; `operator==` compares all five fields. -/
structure CTransaction where
  nVersion : Int
  nTime : Nat
  vin : List CTxIn
  vout : List CTxOut
  nLockTime : Nat
deriving DecidableEq

/-- An in-point: the spending transaction (pointer `ptx` into `mapTx`, held as
the key of the node pointed at) and the number of the spending input. -/
structure CInPoint where
  ptx : uint256
  n : Nat
deriving DecidableEq

/-- The record kept per key image; the mempool only stores and returns it. -/
structure CKeyImageSpent where
  txnHash : uint256
  inputNo : Nat
  nValue : Int
deriving DecidableEq

/-- What the mempool uses from the rest of the node. -/
structure Env where
  /-- The hash of a transaction: `CTransaction::GetHash`. -/
  GetHash : CTransaction → uint256
  /-- The version number of anonymous transactions. -/
  ANON_TXN_VERSION : Int
  /-- The predicate `CTxIn::IsAnonInput`. -/
  IsAnonInput : CTxIn → Bool
  /-- The key image read by `CTxIn::ExtractKeyImage`. -/
  ExtractKeyImage : CTxIn → List Nat
  /-- The function `Hash160` on a byte range. -/
  Hash160 : List Nat → uint160
  /-- The read `CTxDB("r").ReadDiskTx(out, tx)`: the transaction when it succeeds. -/
  ReadDiskTx : COutPoint → Option CTransaction
  /-- What a read through a pointer or reference to a node of `mapTx` yields once
  the node has been erased, by the key the node was stored under: the transaction
  the freed memory reads as, `none` when the run has no defined result at that
  read. -/
  staleRead : uint256 → Option CTransaction

/-! ## In-memory index keys (`addressindex.h`, `spentindex.h`) -/

/-- The value of an address-index entry: `CMempoolAddressDelta`. -/
structure CMempoolAddressDelta where
  time : Int
  amount : Int
  prevhash : uint256
  prevout : Nat
deriving DecidableEq

/-- The four-argument constructor of `CMempoolAddressDelta`. -/
def CMempoolAddressDelta.mk4 (t a : Int) (hash : uint256) (out : Nat) : CMempoolAddressDelta :=
  { time := t, amount := a, prevhash := hash, prevout := out }

/-- The two-argument constructor of `CMempoolAddressDelta`. -/
def CMempoolAddressDelta.mk2 (t a : Int) : CMempoolAddressDelta :=
  { time := t, amount := a, prevhash := 0, prevout := 0 }

/-- The key of an address-index entry: `CMempoolAddressDeltaKey`. -/
structure CMempoolAddressDeltaKey where
  type : Int
  addressBytes : uint160
  txhash : uint256
  index : Nat
  spending : Int
deriving DecidableEq

/-- The two-argument constructor of `CMempoolAddressDeltaKey`. -/
def CMempoolAddressDeltaKey.mk2 (addressType : Int) (addressHash : uint160) :
    CMempoolAddressDeltaKey :=
  { type := addressType, addressBytes := addressHash, txhash := 0, index := 0, spending := 0 }

/-- The comparator `CMempoolAddressDeltaKeyCompare::operator()`. -/
def CMempoolAddressDeltaKeyCompare (a b : CMempoolAddressDeltaKey) : Bool :=
  if a.type = b.type then
    if a.addressBytes = b.addressBytes then
      if a.txhash = b.txhash then
        if a.index = b.index then
          decide (a.spending < b.spending)
        else
          decide (a.index < b.index)
      else
        decide (a.txhash < b.txhash)
    else
      decide (a.addressBytes < b.addressBytes)
  else
    decide (a.type < b.type)

/-- The tuple whose lexicographic order the comparator follows. -/
def CMempoolAddressDeltaKey.toTuple (a : CMempoolAddressDeltaKey) :
    Int ×ₗ (Nat ×ₗ (Nat ×ₗ (Nat ×ₗ Int))) :=
  toLex (a.type, toLex (a.addressBytes, toLex (a.txhash, toLex (a.index, a.spending))))

/-- The order of `mapAddress`; `ltKey_iff_compare` shows it is the comparator's. -/
instance : LinearOrder CMempoolAddressDeltaKey :=
  LinearOrder.lift' CMempoolAddressDeltaKey.toTuple
    (by intro a b h; cases a; cases b; simpa [CMempoolAddressDeltaKey.toTuple] using h)

/-- Modelled from the spec: `spentindex.h` is not among the sources; section 3
gives `SpentIndexKey` as `(TxId prev_tx, u32 index)`. -/
structure CSpentIndexKey where
  txid : uint256
  outputIndex : Nat
deriving DecidableEq

/-- Modelled from the spec: the order of `CSpentIndexKeyCompare`, by transaction
id and then by output index. -/
instance : LinearOrder CSpentIndexKey :=
  LinearOrder.lift' (fun k => toLex (k.txid, k.outputIndex))
    (by intro a b h; cases a; cases b; simpa using h)

/-- Modelled from the spec: `spentindex.h` is not among the sources; section 3
gives `SpentIndexValue` as `(TxId spender_tx, u32 input_index, i32 block_height,
i64 satoshis, AddressType, u160 address)`. -/
structure CSpentIndexValue where
  txid : uint256
  inputIndex : Nat
  blockHeight : Int
  satoshis : Int
  addressType : Int
  addressHash : uint160
deriving DecidableEq

/-! ## Persistent keys (`addressindex.h`, `serialize.h`, `uint256.h`) -/

/-- The `n` low bytes of `v`, least significant first. -/
def leBytes : Nat → Nat → List Nat
  | 0, _ => []
  | n + 1, v => v % 256 :: leBytes n (v / 256)

/-- The number whose little-endian bytes are given. -/
def leValue : List Nat → Nat
  | [] => 0
  | b :: r => b + 256 * leValue r

/-- The conversion of an `int` to `uint32_t`. -/
def toUint32 (x : Int) : Nat := (x % 2 ^ 32).toNat

/-- The conversion of a `uint32_t` to `int`. -/
def toInt32 (v : Nat) : Int :=
  if v % 2 ^ 32 < 2 ^ 31 then ((v % 2 ^ 32 : Nat) : Int) else ((v % 2 ^ 32 : Nat) : Int) - 2 ^ 32

/-- Modelled from the spec: `serialize.h` is not among the sources.  Section 4.1:
a `u8` is written as one byte. -/
def ser_writedata8 (x : Nat) : List Nat := [x % 256]

/-- Modelled from the spec: `serialize.h` is not among the sources.  Section 4.1:
a `u32` size field is written little-endian. -/
def ser_writedata32 (x : Nat) : List Nat := leBytes 4 x

/-- Modelled from the spec: `serialize.h` is not among the sources.  Section 4.1:
block height and transaction index are written big-endian. -/
def ser_writedata32be (x : Nat) : List Nat := (leBytes 4 x).reverse

/-- Modelled from the spec: `uint256.h` is not among the sources.  Section 4.1:
a `u160` is written as its 20 bytes, little-endian. -/
def uint160_Serialize (v : uint160) : List Nat := leBytes 20 v

/-- Modelled from the spec: `uint256.h` is not among the sources.  Section 4.1:
a `TxId` is written as its 32 bytes, little-endian. -/
def uint256_Serialize (v : uint256) : List Nat := leBytes 32 v

/-- The next `n` bytes of a stream and the rest of it; `none` when the stream is
too short, where the read throws. -/
def readBytes (n : Nat) (s : List Nat) : Option (List Nat × List Nat) :=
  if n ≤ s.length then some (s.take n, s.drop n) else none

/-- Modelled from the spec: the read that mirrors `ser_writedata8`. -/
def ser_readdata8 (s : List Nat) : Option (Nat × List Nat) :=
  (readBytes 1 s).map (fun p => (leValue p.1, p.2))

/-- Modelled from the spec: the read that mirrors `ser_writedata32`. -/
def ser_readdata32 (s : List Nat) : Option (Nat × List Nat) :=
  (readBytes 4 s).map (fun p => (leValue p.1, p.2))

/-- Modelled from the spec: the read that mirrors `ser_writedata32be`. -/
def ser_readdata32be (s : List Nat) : Option (Nat × List Nat) :=
  (readBytes 4 s).map (fun p => (leValue p.1.reverse, p.2))

/-- Modelled from the spec: the read that mirrors `uint160_Serialize`. -/
def uint160_Unserialize (s : List Nat) : Option (uint160 × List Nat) :=
  (readBytes 20 s).map (fun p => (leValue p.1, p.2))

/-- Modelled from the spec: the read that mirrors `uint256_Serialize`. -/
def uint256_Unserialize (s : List Nat) : Option (uint256 × List Nat) :=
  (readBytes 32 s).map (fun p => (leValue p.1, p.2))

/-- The key `CAddressUnspentKey`. -/
structure CAddressUnspentKey where
  type : Nat
  hashBytes : uint160
  txhash : uint256
  index : Nat
deriving DecidableEq

/-- The constant of `CAddressUnspentKey::GetSerializeSize`. -/
def CAddressUnspentKey.GetSerializeSize (_ : CAddressUnspentKey) : Nat := 57

/-- The bytes written by `CAddressUnspentKey::Serialize`. -/
def CAddressUnspentKey.Serialize (k : CAddressUnspentKey) : List Nat :=
  ser_writedata8 k.type ++ (uint160_Serialize k.hashBytes ++
    (uint256_Serialize k.txhash ++ ser_writedata32 k.index))

/-- The read `CAddressUnspentKey::Unserialize`: the key and the rest of the stream. -/
def CAddressUnspentKey.Unserialize (s : List Nat) : Option (CAddressUnspentKey × List Nat) :=
  (ser_readdata8 s).bind fun (type, s1) =>
  (uint160_Unserialize s1).bind fun (hashBytes, s2) =>
  (uint256_Unserialize s2).bind fun (txhash, s3) =>
  (ser_readdata32 s3).bind fun (index, s4) =>
  some (⟨type, hashBytes, txhash, index⟩, s4)

/-- The key `CAddressIndexKey`. -/
structure CAddressIndexKey where
  type : Nat
  hashBytes : uint160
  blockHeight : Int
  txindex : Nat
  txhash : uint256
  index : Nat
  spending : Bool
deriving DecidableEq

/-- The constant of `CAddressIndexKey::GetSerializeSize`. -/
def CAddressIndexKey.GetSerializeSize (_ : CAddressIndexKey) : Nat := 66

/-- The bytes written by `CAddressIndexKey::Serialize`. -/
def CAddressIndexKey.Serialize (k : CAddressIndexKey) : List Nat :=
  ser_writedata8 k.type ++ (uint160_Serialize k.hashBytes ++
    (ser_writedata32be (toUint32 k.blockHeight) ++ (ser_writedata32be k.txindex ++
      (uint256_Serialize k.txhash ++ (ser_writedata32 k.index ++
        ser_writedata8 (if k.spending then 1 else 0))))))

/-- The read `CAddressIndexKey::Unserialize`: the key and the rest of the stream. -/
def CAddressIndexKey.Unserialize (s : List Nat) : Option (CAddressIndexKey × List Nat) :=
  (ser_readdata8 s).bind fun (type, s1) =>
  (uint160_Unserialize s1).bind fun (hashBytes, s2) =>
  (ser_readdata32be s2).bind fun (blockHeight, s3) =>
  (ser_readdata32be s3).bind fun (txindex, s4) =>
  (uint256_Unserialize s4).bind fun (txhash, s5) =>
  (ser_readdata32 s5).bind fun (index, s6) =>
  (ser_readdata8 s6).bind fun (f, s7) =>
  some (⟨type, hashBytes, toInt32 blockHeight, txindex, txhash, index, decide (f ≠ 0)⟩, s7)

/-- The key `CAddressIndexIteratorKey`. -/
structure CAddressIndexIteratorKey where
  type : Nat
  hashBytes : uint160
deriving DecidableEq

/-- The constant of `CAddressIndexIteratorKey::GetSerializeSize`. -/
def CAddressIndexIteratorKey.GetSerializeSize (_ : CAddressIndexIteratorKey) : Nat := 21

/-- The bytes written by `CAddressIndexIteratorKey::Serialize`. -/
def CAddressIndexIteratorKey.Serialize (k : CAddressIndexIteratorKey) : List Nat :=
  ser_writedata8 k.type ++ uint160_Serialize k.hashBytes

/-- The read `CAddressIndexIteratorKey::Unserialize`. -/
def CAddressIndexIteratorKey.Unserialize (s : List Nat) :
    Option (CAddressIndexIteratorKey × List Nat) :=
  (ser_readdata8 s).bind fun (type, s1) =>
  (uint160_Unserialize s1).bind fun (hashBytes, s2) =>
  some (⟨type, hashBytes⟩, s2)

/-- The key `CAddressIndexIteratorHeightKey`. -/
structure CAddressIndexIteratorHeightKey where
  type : Nat
  hashBytes : uint160
  blockHeight : Int
deriving DecidableEq

/-- The constant of `CAddressIndexIteratorHeightKey::GetSerializeSize`. -/
def CAddressIndexIteratorHeightKey.GetSerializeSize (_ : CAddressIndexIteratorHeightKey) :
    Nat := 25

/-- The bytes written by `CAddressIndexIteratorHeightKey::Serialize`. -/
def CAddressIndexIteratorHeightKey.Serialize (k : CAddressIndexIteratorHeightKey) : List Nat :=
  ser_writedata8 k.type ++ (uint160_Serialize k.hashBytes ++
    ser_writedata32be (toUint32 k.blockHeight))

/-- The read `CAddressIndexIteratorHeightKey::Unserialize`. -/
def CAddressIndexIteratorHeightKey.Unserialize (s : List Nat) :
    Option (CAddressIndexIteratorHeightKey × List Nat) :=
  (ser_readdata8 s).bind fun (type, s1) =>
  (uint160_Unserialize s1).bind fun (hashBytes, s2) =>
  (ser_readdata32be s2).bind fun (blockHeight, s3) =>
  some (⟨type, hashBytes, toInt32 blockHeight⟩, s3)

/-- The order of a byte-keyed store: byte-wise lexicographic, a proper prefix
first. -/
def bytesLt : List Nat → List Nat → Bool
  | [], [] => false
  | [], _ :: _ => true
  | _ :: _, [] => false
  | a :: as, b :: bs => decide (a < b) || (decide (a = b) && bytesLt as bs)

/-! ## The pool (`txmempool.h`) -/

/-- The fields of `CTxMemPool`. -/
structure CTxMemPool where
  nTransactionsUpdated : Nat
  mapTx : SMap uint256 CTransaction
  mapNextTx : SMap COutPoint CInPoint
  mapKeyImage : SMap (List Nat) CKeyImageSpent
  mapAddress : SMap CMempoolAddressDeltaKey CMempoolAddressDelta
  mapAddressInserted : SMap uint256 (List CMempoolAddressDeltaKey)
  mapSpent : SMap CSpentIndexKey CSpentIndexValue
  mapSpentInserted : SMap uint256 (List CSpentIndexKey)
deriving DecidableEq

/-- The constructor `CTxMemPool()`. -/
def CTxMemPool.init : CTxMemPool :=
  { nTransactionsUpdated := 0, mapTx := SMap.empty, mapNextTx := SMap.empty,
    mapKeyImage := SMap.empty, mapAddress := SMap.empty, mapAddressInserted := SMap.empty,
    mapSpent := SMap.empty, mapSpentInserted := SMap.empty }

/-- Increment of an `unsigned int`. -/
def incr32 (c : Nat) : Nat := (c + 1) % 2 ^ 32

/-- The reader `GetTransactionsUpdated`. -/
def GetTransactionsUpdated (pool : CTxMemPool) : Nat := pool.nTransactionsUpdated

/-- The update `AddTransactionsUpdated(n)`. -/
def AddTransactionsUpdated (pool : CTxMemPool) (n : Nat) : CTxMemPool :=
  { pool with nTransactionsUpdated := (pool.nTransactionsUpdated + n) % 2 ^ 32 }

/-- The query `size()`. -/
def size (pool : CTxMemPool) : Nat := pool.mapTx.size

/-- The query `exists(hash)`; the name `exists` is taken in Lean. -/
def existsTx (pool : CTxMemPool) (hash : uint256) : Bool := pool.mapTx.contains hash

/-- The query `lookup(hash, result)`: the transaction found, `none` for `false`. -/
def lookup (pool : CTxMemPool) (hash : uint256) : Option CTransaction := pool.mapTx.find? hash

/-- The query `queryHashes(vtxid)`: the hashes in map order. -/
def queryHashes (pool : CTxMemPool) : List uint256 := pool.mapTx.entries.map Prod.fst

/-- The update `insertKeyImage(vchImage, kis)`; it returns `true`. -/
def insertKeyImage (pool : CTxMemPool) (vchImage : List Nat) (kis : CKeyImageSpent) :
    Bool × CTxMemPool :=
  (true, { pool with mapKeyImage := pool.mapKeyImage.assign vchImage kis })

/-- The query `lookupKeyImage(vchImage, result)`: the record found, `none` for `false`. -/
def lookupKeyImage (pool : CTxMemPool) (vchImage : List Nat) : Option CKeyImageSpent :=
  pool.mapKeyImage.find? vchImage

/-! ## The core operations (`txmempool.cpp`) -/

/-- The loop of `addUnchecked`: `mapNextTx[tx.vin[i].prevout] = CInPoint(&mapTx[hash], i)`
for the inputs from number `i` on. -/
def recordInputs (hash : uint256) :
    List CTxIn → Nat → SMap COutPoint CInPoint → SMap COutPoint CInPoint
  | [], _, m => m
  | txin :: r, i, m => recordInputs hash r (i + 1) (m.assign txin.prevout ⟨hash, i⟩)

/-- The operation `addUnchecked(hash, tx)`. -/
def addUnchecked (pool : CTxMemPool) (hash : uint256) (tx : CTransaction) : Bool × CTxMemPool :=
  (true,
    { pool with
      mapTx := pool.mapTx.assign hash tx
      mapNextTx := recordInputs hash tx.vin 0 pool.mapNextTx
      nTransactionsUpdated := incr32 pool.nTransactionsUpdated })

/-- The loop `BOOST_FOREACH(txin, tx.vin) mapNextTx.erase(txin.prevout)`. -/
def eraseInputs (vin : List CTxIn) (m : SMap COutPoint CInPoint) : SMap COutPoint CInPoint :=
  vin.foldl (fun m txin => m.erase txin.prevout) m

/-- The key-image loop of `remove`. -/
def eraseKeyImages (env : Env) (vin : List CTxIn) (m : SMap (List Nat) CKeyImageSpent) :
    SMap (List Nat) CKeyImageSpent :=
  vin.foldl (fun m txin => if env.IsAnonInput txin then m.erase (env.ExtractKeyImage txin) else m) m

/-- What `remove` is handed for its parameter `const CTransaction &tx`: an object
of the caller, which no step of the call destroys, or the node of `mapTx` stored
under a key, as in `remove(*it->second.ptx, true)`. -/
inductive TxRef where
  | object (tx : CTransaction)
  | node (key : uint256)
deriving DecidableEq

/-- A read of `tx` through the reference when the pool is `pool`: the object of
the caller; the transaction of the node while the node is in `mapTx`; what the
erased node reads as afterwards. -/
def TxRef.read (env : Env) (pool : CTxMemPool) : TxRef → Option CTransaction
  | .object tx => some tx
  | .node key =>
    match pool.mapTx.find? key with
    | some tx => some tx
    | none => env.staleRead key

/-- Lines 46 to 48 of `remove`: the entries under the input prevouts of `tx` and
the node under `hash` are erased. -/
def eraseNode (pool : CTxMemPool) (hash : uint256) (tx : CTransaction) : CTxMemPool :=
  { pool with
    mapNextTx := eraseInputs tx.vin pool.mapNextTx
    mapTx := pool.mapTx.erase hash }

/-- Lines 50 to 67 of `remove`: the key images of the anon inputs of `tx` are
erased when `tx` has the anonymous version, and the counter is incremented. -/
def eraseImages (env : Env) (pool : CTxMemPool) (tx : CTransaction) : CTxMemPool :=
  { pool with
    mapKeyImage :=
      if tx.nVersion = env.ANON_TXN_VERSION then eraseKeyImages env tx.vin pool.mapKeyImage
      else pool.mapKeyImage
    nTransactionsUpdated := incr32 pool.nTransactionsUpdated }

/-- The part of `remove` after the recursive loop, lines 46 to 67, when every
read of `tx` yields `tx`. -/
def removeEntry (env : Env) (pool : CTxMemPool) (tx : CTransaction) : CTxMemPool :=
  { pool with
    mapNextTx := eraseInputs tx.vin pool.mapNextTx
    mapTx := pool.mapTx.erase (env.GetHash tx)
    mapKeyImage :=
      if tx.nVersion = env.ANON_TXN_VERSION then eraseKeyImages env tx.vin pool.mapKeyImage
      else pool.mapKeyImage
    nTransactionsUpdated := incr32 pool.nTransactionsUpdated }

/-- The part of `remove` after the recursive loop, lines 46 to 67: `tx` is read
for line 46 and, after `mapTx.erase(hash)` of line 48, again for lines 50 to 63.
When `tx` is the node that line 48 erased, the second read is of a destroyed
object. -/
def closeRemove (env : Env) (ref : TxRef) (hash : uint256) (pool : CTxMemPool) :
    Option CTxMemPool :=
  match ref.read env pool with
  | none => none
  | some tx1 =>
    match ref.read env (eraseNode pool hash tx1) with
    | none => none
    | some tx2 => some (eraseImages env (eraseNode pool hash tx1) tx2)

/-- One round of the recursive loop of `remove`: the test `i < tx.vout.size()`
reads `tx`; when it holds and a spender of output `i` is recorded, `rec` removes
it, handed the node that the in-point points at. -/
def removeSpender (env : Env) (rec : CTxMemPool → TxRef → Option CTxMemPool) (ref : TxRef)
    (hash : uint256) (pool : CTxMemPool) (i : Nat) : Option CTxMemPool :=
  match ref.read env pool with
  | none => none
  | some tx =>
    if i < tx.vout.length then
      match pool.mapNextTx.find? ⟨hash, i⟩ with
      | none => some pool
      | some ip => rec pool (.node ip.ptx)
    else some pool

/-- A number of rounds that covers the recursive loop of `remove`: the test of
the loop reads the number of outputs of `tx` at every round, and that number
changes at most once, from that of the node to that of the erased node. -/
def loopBound (env : Env) (pool : CTxMemPool) : TxRef → Nat
  | .object tx => tx.vout.length
  | .node key =>
    max (match pool.mapTx.find? key with
          | some tx => tx.vout.length
          | none => 0)
        (match env.staleRead key with
          | some tx => tx.vout.length
          | none => 0)

/-- The recursive loop of `remove`, lines 39 to 44: rounds past the end of the
loop do nothing. -/
def spenderLoop (env : Env) (rec : CTxMemPool → TxRef → Option CTxMemPool) (ref : TxRef)
    (hash : uint256) (pool : CTxMemPool) : Option CTxMemPool :=
  (List.range (loopBound env pool ref)).foldlM (removeSpender env rec ref hash) pool

/-- The body of `remove(const CTransaction &tx, bool fRecursive)`, with what
`tx` refers to made explicit; its return value is always `true`.  The hash is
read once, at line 33. -/
def removeRef (env : Env) : Nat → CTxMemPool → TxRef → Bool → Option CTxMemPool
  | 0, _, _, _ => none
  | fuel + 1, pool, ref, fRecursive =>
    match ref.read env pool with
    | none => none
    | some tx =>
      if pool.mapTx.contains (env.GetHash tx) then
        (if fRecursive then
          spenderLoop env (fun p r => removeRef env fuel p r true) ref (env.GetHash tx) pool
        else some pool).bind (closeRemove env ref (env.GetHash tx))
      else some pool

/-- The operation `remove(tx, fRecursive)` called on a transaction object of the
caller; the recursive calls are handed nodes of `mapTx`. -/
def remove (env : Env) (fuel : Nat) (pool : CTxMemPool) (tx : CTransaction)
    (fRecursive : Bool) : Option CTxMemPool :=
  removeRef env fuel pool (.object tx) fRecursive

/-- One round of the loop of `removeConflicts`: `txConflict` is a reference to
the node that the in-point points at, read for the comparison with `tx` and
handed to `remove`. -/
def removeConflict (env : Env) (fuel : Nat) (tx : CTransaction) (pool : CTxMemPool)
    (txin : CTxIn) : Option CTxMemPool :=
  match pool.mapNextTx.find? txin.prevout with
  | none => some pool
  | some ip =>
    match (TxRef.node ip.ptx).read env pool with
    | none => none
    | some txConflict =>
      if txConflict ≠ tx then removeRef env fuel pool (.node ip.ptx) true else some pool

/-- The operation `removeConflicts(tx)`, called on a transaction object of the
caller; its return value is always `true`. -/
def removeConflicts (env : Env) (fuel : Nat) (pool : CTxMemPool) (tx : CTransaction) :
    Option CTxMemPool :=
  tx.vin.foldlM (removeConflict env fuel tx) pool

/-- The operation `clear()`. -/
def clear (pool : CTxMemPool) : CTxMemPool :=
  { pool with
    mapTx := SMap.empty
    mapNextTx := SMap.empty
    mapKeyImage := SMap.empty
    nTransactionsUpdated := incr32 pool.nTransactionsUpdated }

/-! ## The address index (`txmempool.cpp`, `script.h`, `uint256.h`) -/

/-- Modelled from the spec: `script.h` is not among the sources.  Section 4.2
gives pay-to-script-hash as `OP_HASH160 <20-byte push> OP_EQUAL`. -/
def IsPayToScriptHash (s : CScript) : Bool :=
  s.length == 23 && s[0]? == some 0xa9 && s[1]? == some 0x14 && s[22]? == some 0x87

/-- Modelled from the spec: `script.h` is not among the sources.  Section 4.2
gives pay-to-public-key-hash as
`OP_DUP OP_HASH160 <20-byte push> OP_EQUALVERIFY OP_CHECKSIG`. -/
def IsPayToPublicKeyHash (s : CScript) : Bool :=
  s.length == 25 && s[0]? == some 0x76 && s[1]? == some 0xa9 && s[2]? == some 0x14
    && s[23]? == some 0x88 && s[24]? == some 0xac

/-- Modelled from the spec: `script.h` is not among the sources.  Section 4.2
gives pay-to-public-key as the push of a compressed (33-byte) or uncompressed
(65-byte) public key followed by `OP_CHECKSIG`. -/
def IsPayToPublicKey (s : CScript) : Bool :=
  (s.length == 35 && s[0]? == some 33 && s[34]? == some 0xac)
    || (s.length == 67 && s[0]? == some 65 && s[66]? == some 0xac)

/-- Modelled from the spec: `uint256.h` is not among the sources.  The
constructor `uint160(const std::vector<unsigned char>&)` takes the 20 bytes as
the little-endian layout of the value and gives zero for another length. -/
def uint160_of (vch : List Nat) : uint160 :=
  if vch.length = 20 then leValue vch else 0

/-- The bytes `[from, to)` of a script: `std::vector(begin() + from, begin() + to)`. -/
def bytesRange (s : CScript) (lo hi : Nat) : List Nat := (s.drop lo).take (hi - lo)

/-- The three-way test that both loops of `addAddressIndex` apply to a script:
the address type and the address hash, `none` when no branch is taken. -/
def scriptAddress (env : Env) (s : CScript) : Option (Int × uint160) :=
  if IsPayToScriptHash s then some (2, uint160_of (bytesRange s 2 22))
  else if IsPayToPublicKeyHash s then some (1, uint160_of (bytesRange s 3 23))
  else if IsPayToPublicKey s then some (1, env.Hash160 (bytesRange s 1 (s.length - 1)))
  else none

/-- The conversion to `int64_t`: the value modulo `2 ^ 64`, taken from `-2 ^ 63`
to `2 ^ 63 - 1`.  The product `prevout.nValue * -1` of line 143 is an `int64_t`. -/
def toInt64 (x : Int) : Int := (x + 2 ^ 63) % 2 ^ 64 - 2 ^ 63

/-- The input loop of `addAddressIndex` from input `j` on.  It returns the
message of the exception thrown, if any, with `mapAddress` and the local vector
`inserted` as they are when the loop ends or throws. -/
def indexInputs (env : Env) (txhash : uint256) (nTime : Int) :
    List CTxIn → Nat → SMap CMempoolAddressDeltaKey CMempoolAddressDelta →
      List CMempoolAddressDeltaKey →
      Option String × SMap CMempoolAddressDeltaKey CMempoolAddressDelta
        × List CMempoolAddressDeltaKey
  | [], _, m, inserted => (none, m, inserted)
  | input :: r, j, m, inserted =>
    match env.ReadDiskTx input.prevout with
    | none => indexInputs env txhash nTime r (j + 1) m inserted
    | some tx =>
      match tx.vout[input.prevout.n]? with
      | none => (some "addAddressIndex() : n out of range", m, inserted)
      | some prevout =>
        match scriptAddress env prevout.scriptPubKey with
        | some (type, addr) =>
          indexInputs env txhash nTime r (j + 1)
            (m.insert ⟨type, addr, txhash, j, 1⟩
              (CMempoolAddressDelta.mk4 nTime (toInt64 (prevout.nValue * -1))
                input.prevout.hash input.prevout.n))
            (inserted ++ [⟨type, addr, txhash, j, 1⟩])
        | none => indexInputs env txhash nTime r (j + 1) m inserted

/-- The output loop of `addAddressIndex` from output `k` on. -/
def indexOutputs (env : Env) (txhash : uint256) (nTime : Int) :
    List CTxOut → Nat → SMap CMempoolAddressDeltaKey CMempoolAddressDelta →
      List CMempoolAddressDeltaKey →
      SMap CMempoolAddressDeltaKey CMempoolAddressDelta × List CMempoolAddressDeltaKey
  | [], _, m, inserted => (m, inserted)
  | out :: r, k, m, inserted =>
    match scriptAddress env out.scriptPubKey with
    | some (type, addr) =>
      indexOutputs env txhash nTime r (k + 1)
        (m.insert ⟨type, addr, txhash, k, 0⟩ (CMempoolAddressDelta.mk2 nTime out.nValue))
        (inserted ++ [⟨type, addr, txhash, k, 0⟩])
    | none => indexOutputs env txhash nTime r (k + 1) m inserted

/-- The operation `addAddressIndex(tx, nTime)`: the message of the exception
thrown, if any, and the pool it leaves. -/
def addAddressIndex (env : Env) (pool : CTxMemPool) (tx : CTransaction) (nTime : Int) :
    Option String × CTxMemPool :=
  match indexInputs env (env.GetHash tx) nTime tx.vin 0 pool.mapAddress [] with
  | (some msg, m, _) => (some msg, { pool with mapAddress := m })
  | (none, m, inserted) =>
    (none,
      { pool with
        mapAddress := (indexOutputs env (env.GetHash tx) nTime tx.vout 0 m inserted).1
        mapAddressInserted :=
          pool.mapAddressInserted.insert (env.GetHash tx)
            (indexOutputs env (env.GetHash tx) nTime tx.vout 0 m inserted).2 })

/-- After the call, key `K` of the address index holds `δ` when the map had no
entry under `K` before, and the entry it had before otherwise: `std::map::insert`
does not overwrite. -/
def indexedAs (pool q : CTxMemPool) (K : CMempoolAddressDeltaKey) (δ : CMempoolAddressDelta) :
    Prop :=
  (pool.mapAddress.find? K = none → q.mapAddress.find? K = some δ) ∧
    (∀ old, pool.mapAddress.find? K = some old → q.mapAddress.find? K = some old)

/-- The entries from `lower_bound(k)` to the end: those from the first key that
is not less than `k`. -/
def SMap.lowerBound {K V : Type} [LinearOrder K] (m : SMap K V) (k : K) : List (K × V) :=
  m.entries.dropWhile (fun e => decide (e.1 < k))

/-- One round of the loop of `getAddressIndex` for the pair `(address, type)`:
the entries pushed while the iterator, started at
`lower_bound(CMempoolAddressDeltaKey(type, address))`, is on a key of that
address and type. -/
def scanAddress (pool : CTxMemPool) (it : uint160 × Int) :
    List (CMempoolAddressDeltaKey × CMempoolAddressDelta) :=
  (pool.mapAddress.lowerBound (CMempoolAddressDeltaKey.mk2 it.2 it.1)).takeWhile
    (fun e => decide (e.1.addressBytes = it.1) && decide (e.1.type = it.2))

/-- The operation `getAddressIndex(addresses, results)`: the value returned and
`results` after the call. -/
def getAddressIndex (pool : CTxMemPool) (addresses : List (uint160 × Int))
    (results : List (CMempoolAddressDeltaKey × CMempoolAddressDelta)) :
    Bool × List (CMempoolAddressDeltaKey × CMempoolAddressDelta) :=
  (true, addresses.foldl (fun res it => res ++ scanAddress pool it) results)

/-- The loop of `removeAddressIndex`: `mapAddress.erase(*mit)` for every key. -/
def eraseKeys (keys : List CMempoolAddressDeltaKey)
    (m : SMap CMempoolAddressDeltaKey CMempoolAddressDelta) :
    SMap CMempoolAddressDeltaKey CMempoolAddressDelta :=
  keys.foldl (fun m k => m.erase k) m

/-- The operation `removeAddressIndex(txhash)`; it returns `true`. -/
def removeAddressIndex (pool : CTxMemPool) (txhash : uint256) : Bool × CTxMemPool :=
  match pool.mapAddressInserted.find? txhash with
  | some keys =>
    (true,
      { pool with
        mapAddress := eraseKeys keys pool.mapAddress
        mapAddressInserted := pool.mapAddressInserted.erase txhash })
  | none => (true, pool)

/-- The rollback invariant of section 3 for the address index: every key of a
list of `mapAddressInserted` is in `mapAddress`, and every entry of `mapAddress`
is listed under the hash of its key. -/
def addressRollbackInvariant (pool : CTxMemPool) : Prop :=
  (∀ h keys, pool.mapAddressInserted.find? h = some keys →
    ∀ K ∈ keys, pool.mapAddress.contains K = true) ∧
  (∀ K δ, pool.mapAddress.find? K = some δ →
    ∃ keys, pool.mapAddressInserted.find? K.txhash = some keys ∧ K ∈ keys)

/-- The rollback invariant checked entry by entry. -/
def addressRollbackInvariantB (pool : CTxMemPool) : Bool :=
  pool.mapAddressInserted.entries.all (fun e => e.2.all (fun K => pool.mapAddress.contains K))
    && pool.mapAddress.entries.all (fun e =>
      match pool.mapAddressInserted.find? e.1.txhash with
      | some keys => decide (e.1 ∈ keys)
      | none => false)

/-! ## The spent index (`txmempool.cpp`) -/

/-- The address type and hash that `addSpentIndex` gives the script of the
previous output: those of the three recognised shapes, and type 0 with hash 0
for any other script. -/
def spentAddress (env : Env) (s : CScript) : Int × uint160 :=
  if IsPayToScriptHash s then (2, uint160_of (bytesRange s 2 22))
  else if IsPayToPublicKeyHash s then (1, uint160_of (bytesRange s 3 23))
  else if IsPayToPublicKey s then (1, env.Hash160 (bytesRange s 1 (s.length - 1)))
  else (0, 0)

/-- The loop of `addSpentIndex` from input `j` on, with `nullTx` the local
`CTransaction tx` as it is when `ReadDiskTx` has failed.  The body is entered
when the read fails.  It returns the message of the exception thrown, if any,
with `mapSpent` and the local vector `inserted` as they are when the loop ends
or throws. -/
def spentInputs (env : Env) (nullTx : CTransaction) (txhash : uint256) :
    List CTxIn → Nat → SMap CSpentIndexKey CSpentIndexValue → List CSpentIndexKey →
      Option String × SMap CSpentIndexKey CSpentIndexValue × List CSpentIndexKey
  | [], _, m, inserted => (none, m, inserted)
  | input :: r, j, m, inserted =>
    match env.ReadDiskTx input.prevout with
    | some _ => spentInputs env nullTx txhash r (j + 1) m inserted
    | none =>
      match nullTx.vout[input.prevout.n]? with
      | none => (some "addSpentIndex() : n out of range", m, inserted)
      | some prevout =>
        spentInputs env nullTx txhash r (j + 1)
          (m.insert ⟨input.prevout.hash, input.prevout.n⟩
            ⟨txhash, j, -1, prevout.nValue, (spentAddress env prevout.scriptPubKey).1,
              (spentAddress env prevout.scriptPubKey).2⟩)
          (inserted ++ [⟨input.prevout.hash, input.prevout.n⟩])

/-- The operation `addSpentIndex(tx)`: the message of the exception thrown, if
any, and the pool it leaves. -/
def addSpentIndex (env : Env) (nullTx : CTransaction) (pool : CTxMemPool) (tx : CTransaction) :
    Option String × CTxMemPool :=
  match spentInputs env nullTx (env.GetHash tx) tx.vin 0 pool.mapSpent [] with
  | (some msg, m, _) => (some msg, { pool with mapSpent := m })
  | (none, m, inserted) =>
    (none,
      { pool with
        mapSpent := m
        mapSpentInserted := pool.mapSpentInserted.insert (env.GetHash tx) inserted })

/-- The operation `getSpentIndex(key, value)`: the value found, `none` when it
returns `false`. -/
def getSpentIndex (pool : CTxMemPool) (key : CSpentIndexKey) : Option CSpentIndexValue :=
  pool.mapSpent.find? key

/-- The previous transaction of the input is read from the store. -/
def readable (env : Env) (input : CTxIn) : Prop := (env.ReadDiskTx input.prevout).isSome = true

instance (env : Env) (input : CTxIn) : Decidable (readable env input) :=
  inferInstanceAs (Decidable ((env.ReadDiskTx input.prevout).isSome = true))

/-! ## Invariants of section 3 and the spender graph -/

/-- The transaction `tx` is in the pool: it is stored under its own hash. -/
def present (env : Env) (pool : CTxMemPool) (tx : CTransaction) : Prop :=
  pool.mapTx.find? (env.GetHash tx) = some tx

instance (env : Env) (pool : CTxMemPool) (tx : CTransaction) : Decidable (present env pool tx) := by
  unfold present
  infer_instance

/-- The outpoint→spender invariant of section 3: every entry `out → (tx, i)` of
`mapNextTx` points at a transaction that is in `mapTx` and whose input `i` has
prevout `out`. -/
def nextTxInvariant (_ : Env) (pool : CTxMemPool) : Prop :=
  ∀ out ip, pool.mapNextTx.find? out = some ip →
    ∃ tx, pool.mapTx.find? ip.ptx = some tx ∧
      ∃ txin, tx.vin[ip.n]? = some txin ∧ txin.prevout = out

/-- Every recorded spender is stored under its own hash: the node that an
in-point points at holds a transaction whose hash is the key of the node. -/
def spenderUnderOwnHash (env : Env) (pool : CTxMemPool) : Prop :=
  ∀ out ip tx, pool.mapNextTx.find? out = some ip → pool.mapTx.find? ip.ptx = some tx →
    env.GetHash tx = ip.ptx

/-- The invariant of section 3 together with every recorded spender being
stored under its own hash. -/
def spenderInvariant (env : Env) (pool : CTxMemPool) : Prop :=
  ∀ out ip, pool.mapNextTx.find? out = some ip →
    ∃ tx, pool.mapTx.find? ip.ptx = some tx ∧ env.GetHash tx = ip.ptx ∧
      ∃ txin, tx.vin[ip.n]? = some txin ∧ txin.prevout = out

/-- The reference names the transaction `tx`: the object is `tx`, or the node is
the one under the hash of `tx`. -/
def refersTo (env : Env) (tx : CTransaction) : TxRef → Prop
  | .object t => t = tx
  | .node key => key = env.GetHash tx

/-- Every read of an erased node yields a transaction: the run survives the
reads of lines 50 to 63 through a reference to the node that line 48 erased. -/
def staleDefined (env : Env) : Prop := ∀ key, (env.staleRead key).isSome = true

/-- Spender uniqueness: no two stored transactions share an input outpoint. -/
def uniqueSpenders (pool : CTxMemPool) : Prop :=
  ∀ k1 k2 t1 t2, pool.mapTx.find? k1 = some t1 → pool.mapTx.find? k2 = some t2 →
    ∀ i1 ∈ t1.vin, ∀ i2 ∈ t2.vin, i1.prevout = i2.prevout → k1 = k2

/-- The edge of the spender graph: `c` is the recorded spender of an output of `p`. -/
def child (env : Env) (pool : CTxMemPool) (p c : CTransaction) : Prop :=
  ∃ i ip, i < p.vout.length ∧ pool.mapNextTx.find? ⟨env.GetHash p, i⟩ = some ip ∧
    pool.mapTx.find? ip.ptx = some c

/-- The transaction `d` is reachable from `tx` along one edge or more. -/
def descendant (env : Env) (pool : CTxMemPool) (tx d : CTransaction) : Prop :=
  Relation.TransGen (child env pool) tx d

/-- No transaction is reachable from itself. -/
def acyclic (env : Env) (pool : CTxMemPool) : Prop :=
  ∀ tx, ¬ descendant env pool tx tx

/-- The pool `q` holds nothing that `p` does not hold: both the transaction map
and the outpoint→spender map of `q` are sub-maps of those of `p`. -/
def subPool (p q : CTxMemPool) : Prop :=
  (∀ k t, q.mapTx.find? k = some t → p.mapTx.find? k = some t) ∧
  (∀ o ip, q.mapNextTx.find? o = some ip → p.mapNextTx.find? o = some ip)

/-- An entry of `mapNextTx` that `p` has and `q` lacks names a spender that `q` lacks. -/
def frameNext (p q : CTxMemPool) : Prop :=
  ∀ o ip, p.mapNextTx.find? o = some ip → q.mapNextTx.find? o = none →
    q.mapTx.find? ip.ptx = none

/-- The transactions of `p` that `q` lacks are closed under the edges of `p`. -/
def closedRemoval (env : Env) (p q : CTxMemPool) : Prop :=
  ∀ a c, present env p a → child env p a c → q.mapTx.find? (env.GetHash a) = none →
    q.mapTx.find? (env.GetHash c) = none

/-- Every transaction of `p` that `q` lacks satisfies `R`. -/
def removedOnly (p q : CTxMemPool) (R : CTransaction → Prop) : Prop :=
  ∀ k t, p.mapTx.find? k = some t → q.mapTx.find? k = none → R t

/-! ## Decidable checks and sample data -/

/-- The invariant of section 3 checked entry by entry. -/
def nextTxInvariantB (_ : Env) (pool : CTxMemPool) : Bool :=
  pool.mapNextTx.entries.all (fun e =>
    match pool.mapTx.find? e.2.ptx with
    | none => false
    | some tx => decide ((tx.vin[e.2.n]?).map CTxIn.prevout = some e.1))

/-- The invariant with spenders under their own hash, checked entry by entry. -/
def spenderInvariantB (env : Env) (pool : CTxMemPool) : Bool :=
  pool.mapNextTx.entries.all (fun e =>
    match pool.mapTx.find? e.2.ptx with
    | none => false
    | some tx =>
      decide (env.GetHash tx = e.2.ptx) &&
        decide ((tx.vin[e.2.n]?).map CTxIn.prevout = some e.1))

/-- Spender uniqueness checked on every pair of stored transactions. -/
def uniqueSpendersB (pool : CTxMemPool) : Bool :=
  pool.mapTx.entries.all (fun e1 => pool.mapTx.entries.all (fun e2 =>
    e1.2.vin.all (fun i1 => e2.2.vin.all (fun i2 =>
      decide (i1.prevout ≠ i2.prevout) || decide (e1.1 = e2.1)))))

/-- Every recorded spender has a larger hash than the transaction it spends:
a sufficient check for acyclicity. -/
def ascendingB (pool : CTxMemPool) : Bool :=
  pool.mapNextTx.entries.all (fun e => decide (e.1.hash < e.2.ptx))

/-- A default-constructed transaction: no inputs and no outputs. -/
def txNull : CTransaction :=
  { nVersion := 1, nTime := 0, vin := [], vout := [], nLockTime := 0 }

/-- Every recorded spender that is in `mapTx` has a larger hash than the
transaction it spends: a sufficient check for acyclicity that does not rest on
the invariant. -/
def ascendingHashB (env : Env) (pool : CTxMemPool) : Bool :=
  pool.mapNextTx.entries.all (fun e =>
    match pool.mapTx.find? e.2.ptx with
    | none => true
    | some c => decide (e.1.hash < env.GetHash c))

/-- A sample environment: the hash of a transaction is read off its lock time,
an anon input is marked by the two leading bytes of its signature script and
carries its key image behind them, the store holds nothing, and an erased node
reads as an empty transaction. -/
def sampleEnv : Env :=
  { GetHash := fun tx => tx.nLockTime
    ANON_TXN_VERSION := 1000
    IsAnonInput := fun txin => txin.scriptSig.take 2 == [0x6a, 0xb9]
    ExtractKeyImage := fun txin => (txin.scriptSig.drop 2).take 33
    Hash160 := fun bytes => leValue bytes % 2 ^ 160
    ReadDiskTx := fun _ => none
    staleRead := fun _ => some txNull }

/-- A sample transaction with the given hash, prevouts and number of outputs. -/
def sampleTx (hash : Nat) (prevouts : List COutPoint) (nOut : Nat) : CTransaction :=
  { nVersion := 1
    nTime := 0
    vin := prevouts.map (fun o => { prevout := o, scriptSig := [], nSequence := 0 })
    vout := List.replicate nOut { nValue := 5000, scriptPubKey := [] }
    nLockTime := hash }

/-- Transaction `A`: hash 1, one input spending `(0, 0)`, two outputs. -/
def txA : CTransaction := sampleTx 1 [⟨0, 0⟩] 2

/-- Transaction `B`: hash 2, spends output 0 of `A`. -/
def txB : CTransaction := sampleTx 2 [⟨1, 0⟩] 1

/-- Transaction `D`: hash 2, spends both outputs of `A`. -/
def txD : CTransaction := sampleTx 2 [⟨1, 0⟩, ⟨1, 1⟩] 0

/-- Transaction `C`: hash 3, spends output 1 of `A`. -/
def txC : CTransaction := sampleTx 3 [⟨1, 1⟩] 0

/-- A transaction whose two inputs spend the same outpoint. -/
def txTwice : CTransaction := sampleTx 4 [⟨9, 0⟩, ⟨9, 0⟩] 0

/-- The pool after `A` and then `B` were added. -/
def poolAB : CTxMemPool :=
  (addUnchecked (addUnchecked CTxMemPool.init 1 txA).2 2 txB).2

/-- The pool after `A`, `D` and then `C` were added: `C` conflicts with `D` on
output 1 of `A` and is its recorded spender. -/
def poolADC : CTxMemPool :=
  (addUnchecked (addUnchecked (addUnchecked CTxMemPool.init 1 txA).2 2 txD).2 3 txC).2

/-- The pool with its counter set to `c`. -/
def withCounter (pool : CTxMemPool) (c : Nat) : CTxMemPool :=
  { pool with nTransactionsUpdated := c }

/-- The script `76 a9 14 <20 bytes 07> 88 ac`. -/
def scriptP2PKH : CScript := [0x76, 0xa9, 0x14] ++ List.replicate 20 7 ++ [0x88, 0xac]

/-- Transaction `T`: hash 5, no input, one output of value 5000 paying to
`scriptP2PKH`. -/
def txPay : CTransaction :=
  { nVersion := 1, nTime := 0, vin := [],
    vout := [{ nValue := 5000, scriptPubKey := scriptP2PKH }], nLockTime := 5 }

/-- The pool after `addAddressIndex(T, 1000)` on the empty pool. -/
def poolIndexed : CTxMemPool := (addAddressIndex sampleEnv CTxMemPool.init txPay 1000).2

/-- The empty pool with its counter at the largest 32-bit value. -/
def poolFull : CTxMemPool := withCounter CTxMemPool.init 4294967295

/-- An anonymous-version transaction, hash 6, whose one input is an anon input
with the key image of 33 bytes `01`. -/
def txAnon : CTransaction :=
  { nVersion := 1000, nTime := 0,
    vin := [{ prevout := ⟨0, 3⟩, scriptSig := [0x6a, 0xb9] ++ List.replicate 33 1,
              nSequence := 0 }],
    vout := [], nLockTime := 6 }

/-- The pool that holds `txAnon` and its key image. -/
def poolAnon : CTxMemPool :=
  (insertKeyImage (addUnchecked CTxMemPool.init 6 txAnon).2 (List.replicate 33 1)
    { txnHash := 6, inputNo := 0, nValue := 100 }).2

/-- An environment whose store holds `T` under every outpoint of hash 50. -/
def diskEnv : Env :=
  { sampleEnv with ReadDiskTx := fun o => if o.hash = 50 then some txPay else none }

/-- A transaction, hash 8, whose input names output 7 of a stored transaction
that has one output, and whose output pays to `scriptP2PKH`. -/
def txBadInput : CTransaction :=
  { nVersion := 1, nTime := 0,
    vin := [{ prevout := ⟨50, 7⟩, scriptSig := [], nSequence := 0 }],
    vout := [{ nValue := 5000, scriptPubKey := scriptP2PKH }], nLockTime := 8 }

/-- The pool after `A`, whose hash is 1, was added under the hash 7. -/
def poolForeign : CTxMemPool := (addUnchecked CTxMemPool.init 7 txA).2

/-- A transaction, hash 2, that spends `(0, 0)` as `A` does. -/
def txRival : CTransaction := sampleTx 2 [⟨0, 0⟩] 0

/-- Transaction `P`: hash 5, no input, one output. -/
def txP : CTransaction := sampleTx 5 [] 1

/-- A transaction, hash 8, that spends output 0 of `P`. -/
def txChild : CTransaction := sampleTx 8 [⟨5, 0⟩] 0

/-- The pool after `P` was added under its hash and its spender, whose hash is
8, under the hash 7. -/
def poolPA : CTxMemPool :=
  (addUnchecked (addUnchecked CTxMemPool.init 5 txP).2 7 txChild).2

/-- An anonymous-version transaction, hash 6, whose one input spends output 0
of `P` and is an anon input with the key image of 33 bytes `01`. -/
def txAnonChild : CTransaction :=
  { nVersion := 1000, nTime := 0,
    vin := [{ prevout := ⟨5, 0⟩, scriptSig := [0x6a, 0xb9] ++ List.replicate 33 1,
              nSequence := 0 }],
    vout := [], nLockTime := 6 }

/-- The pool that holds `P`, its anonymous-version spender and the key image of
that spender. -/
def poolParentAnon : CTxMemPool :=
  (insertKeyImage (addUnchecked (addUnchecked CTxMemPool.init 5 txP).2 6 txAnonChild).2
    (List.replicate 33 1) { txnHash := 6, inputNo := 0, nValue := 100 }).2

/-- A transaction, hash 2, that spends output 0 of `P` as `txAnonChild` does. -/
def txRivalOfChild : CTransaction := sampleTx 2 [⟨5, 0⟩] 0

/-- The sample environment with reads of erased nodes that have no defined
result. -/
def undefinedEnv : Env := { sampleEnv with staleRead := fun _ => none }

/-- The sample environment in which every erased node reads as `A`. -/
def loopEnv : Env := { sampleEnv with staleRead := fun _ => some txA }

/-- A transaction, hash 9, that spends `(20, 0)`. -/
def txOther : CTransaction := sampleTx 9 [⟨20, 0⟩] 0

/-- The pool `poolPA` after the transaction of hash 9 was added under the hash
8, the hash of the spender of `P`. -/
def poolPAT : CTxMemPool := (addUnchecked poolPA 8 txOther).2

/-- A pool that holds `A` and an entry for output 0 of `A` whose pointer names
no node of `mapTx`. -/
def poolDangling : CTxMemPool :=
  { CTxMemPool.init with
    mapTx := SMap.empty.assign 1 txA
    mapNextTx := SMap.empty.assign ⟨1, 0⟩ ⟨99, 0⟩ }

/-- Transaction `W`: hash 5, no input, two outputs. -/
def txWide : CTransaction := sampleTx 5 [] 2

/-- A transaction, hash 9, that spends output 1 of `W`. -/
def txSecond : CTransaction := sampleTx 9 [⟨5, 1⟩] 0

/-- The pool after `W` was added under its hash, the spender of its output 0,
whose hash is 8, under the hash 7, and the spender of its output 1, whose hash
is 9, under the hash 8. -/
def poolCross : CTxMemPool :=
  (addUnchecked (addUnchecked (addUnchecked CTxMemPool.init 5 txWide).2 7 txChild).2 8 txSecond).2

/-- The pool `poolCross` after `remove` was called on the node of key 7: the
entry of `(5, 0)` and the node under the hash 8 are erased. -/
def poolCrossLeft : CTxMemPool :=
  eraseImages sampleEnv (eraseNode poolCross 8 txChild) txChild

/-- The sample environment in which every erased node reads as `W`. -/
def crossEnv : Env := { sampleEnv with staleRead := fun _ => some txWide }

/-- A transaction, hash 5, whose one output pays the least `int64_t` value to
`scriptP2PKH`. -/
def txPayMin : CTransaction :=
  { nVersion := 1, nTime := 0, vin := [],
    vout := [{ nValue := -9223372036854775808, scriptPubKey := scriptP2PKH }], nLockTime := 5 }

/-- An environment whose store holds `txPayMin` under every outpoint of hash 50. -/
def minEnv : Env :=
  { sampleEnv with ReadDiskTx := fun o => if o.hash = 50 then some txPayMin else none }

/-- A transaction, hash 9, whose one input spends output 0 of the stored
transaction `T`. -/
def txSpend : CTransaction :=
  { nVersion := 1, nTime := 0,
    vin := [{ prevout := ⟨50, 0⟩, scriptSig := [], nSequence := 0 }],
    vout := [], nLockTime := 9 }

/-- The pool after `addAddressIndex(txSpend, 1000)` on the empty pool, with the
store of `diskEnv`. -/
def poolSpend : CTxMemPool := (addAddressIndex diskEnv CTxMemPool.init txSpend 1000).2

/-- A transaction, hash 10, whose input 0 names output 7 of `T`, out of range,
and whose input 1 spends output 0 of `T`. -/
def txBadFirst : CTransaction :=
  { nVersion := 1, nTime := 0,
    vin := [{ prevout := ⟨50, 7⟩, scriptSig := [], nSequence := 0 },
            { prevout := ⟨50, 0⟩, scriptSig := [], nSequence := 0 }],
    vout := [], nLockTime := 10 }

/-- A transaction, hash 11, whose input 0 spends output 0 of `T` and whose
input 1 names output 7 of `T`, out of range. -/
def txBadSecond : CTransaction :=
  { nVersion := 1, nTime := 0,
    vin := [{ prevout := ⟨50, 0⟩, scriptSig := [], nSequence := 0 },
            { prevout := ⟨50, 7⟩, scriptSig := [], nSequence := 0 }],
    vout := [], nLockTime := 11 }

/-- The test of the loop of `getAddressIndex`: the key has the address and the
type of the pair. -/
def matchesAddress (it : uint160 × Int) (e : CMempoolAddressDeltaKey × CMempoolAddressDelta) :
    Bool :=
  decide (e.1.addressBytes = it.1) && decide (e.1.type = it.2)

/-- A pool whose address index holds one entry, of address 5 and type 1, with
hash 0, index 0 and the spending flag -1. -/
def poolNegative : CTxMemPool :=
  { CTxMemPool.init with
    mapAddress := SMap.empty.assign ⟨1, 5, 0, 0, -1⟩ ⟨1000, 5000, 0, 0⟩ }

/-- The tuple order on `(type, address, block_height, tx_index, tx_hash,
output_index, spending)` with every field compared by value. -/
def tupleLt (a b : CAddressIndexKey) : Prop :=
  a.type < b.type ∨ (a.type = b.type ∧ (a.hashBytes < b.hashBytes ∨
    (a.hashBytes = b.hashBytes ∧ (a.blockHeight < b.blockHeight ∨
      (a.blockHeight = b.blockHeight ∧ (a.txindex < b.txindex ∨
        (a.txindex = b.txindex ∧ (a.txhash < b.txhash ∨
          (a.txhash = b.txhash ∧ (a.index < b.index ∨
            (a.index = b.index ∧ a.spending = false ∧ b.spending = true)))))))))))

instance (a b : CAddressIndexKey) : Decidable (tupleLt a b) := by
  unfold tupleLt
  infer_instance

/-- The tuple order that the serialized bytes follow: the type, the transaction
index and the spending flag by value, the block height by its unsigned 32-bit
value, and the address, transaction hash and output index by the
lexicographic order of the bytes written, least significant byte first. -/
def serializedLt (a b : CAddressIndexKey) : Prop :=
  a.type < b.type ∨ (a.type = b.type ∧
    (bytesLt (uint160_Serialize a.hashBytes) (uint160_Serialize b.hashBytes) = true ∨
    (uint160_Serialize a.hashBytes = uint160_Serialize b.hashBytes ∧
      (toUint32 a.blockHeight < toUint32 b.blockHeight ∨
      (toUint32 a.blockHeight = toUint32 b.blockHeight ∧ (a.txindex < b.txindex ∨
        (a.txindex = b.txindex ∧
          (bytesLt (uint256_Serialize a.txhash) (uint256_Serialize b.txhash) = true ∨
          (uint256_Serialize a.txhash = uint256_Serialize b.txhash ∧
            (bytesLt (ser_writedata32 a.index) (ser_writedata32 b.index) = true ∨
            (ser_writedata32 a.index = ser_writedata32 b.index ∧
              a.spending = false ∧ b.spending = true)))))))))))

/-- A sample `CAddressIndexKey` with the given address, height, transaction
hash and output index. -/
def sampleKey (addr : uint160) (height : Int) (txhash : uint256) (index : Nat) :
    CAddressIndexKey :=
  { type := 1, hashBytes := addr, blockHeight := height, txindex := 0, txhash := txhash,
    index := index, spending := false }

/-- A stream of exactly `n` bytes. -/
def byteString (n : Nat) (b : List Nat) : Prop := b.length = n ∧ ∀ x ∈ b, x < 256

instance (n : Nat) (b : List Nat) : Decidable (byteString n b) :=
  inferInstanceAs (Decidable (b.length = n ∧ ∀ x ∈ b, x < 256))

/-- The 66 bytes `00 … 00 02`. -/
def bytesLastTwo : List Nat := List.replicate 65 0 ++ [2]

/-- The 66 bytes `07 … 07 01`. -/
def bytesLastOne : List Nat := List.replicate 65 7 ++ [1]

/-- The values of a `CAddressIndexIteratorKey` whose type fits the byte written
for it; the address is a 160-bit number. -/
def CAddressIndexIteratorKey.inRange (k : CAddressIndexIteratorKey) : Prop :=
  k.type < 256 ∧ k.hashBytes < 2 ^ 160

instance (k : CAddressIndexIteratorKey) : Decidable k.inRange :=
  inferInstanceAs (Decidable (k.type < 256 ∧ k.hashBytes < 2 ^ 160))

/-- The values of a `CAddressIndexIteratorHeightKey` whose type fits the byte
written for it; the address is a 160-bit number and the height an `int`. -/
def CAddressIndexIteratorHeightKey.inRange (k : CAddressIndexIteratorHeightKey) : Prop :=
  k.type < 256 ∧ k.hashBytes < 2 ^ 160 ∧ -(2 ^ 31) ≤ k.blockHeight ∧ k.blockHeight < 2 ^ 31

instance (k : CAddressIndexIteratorHeightKey) : Decidable k.inRange :=
  inferInstanceAs (Decidable (k.type < 256 ∧ k.hashBytes < 2 ^ 160 ∧
    -(2 ^ 31) ≤ k.blockHeight ∧ k.blockHeight < 2 ^ 31))

/-- The values of a `CAddressUnspentKey` whose type fits the byte and whose
index fits the four bytes written for them; the address is a 160-bit number and
the transaction hash a 256-bit number. -/
def CAddressUnspentKey.inRange (k : CAddressUnspentKey) : Prop :=
  k.type < 256 ∧ k.hashBytes < 2 ^ 160 ∧ k.txhash < 2 ^ 256 ∧ k.index < 2 ^ 32

instance (k : CAddressUnspentKey) : Decidable k.inRange :=
  inferInstanceAs (Decidable (k.type < 256 ∧ k.hashBytes < 2 ^ 160 ∧ k.txhash < 2 ^ 256 ∧
    k.index < 2 ^ 32))

/-- The values of a `CAddressIndexKey` whose type fits the byte and whose index
fits the four bytes written for them; the address is a 160-bit number, the
height an `int`, the transaction index an `unsigned int` and the transaction
hash a 256-bit number. -/
def CAddressIndexKey.inRange (k : CAddressIndexKey) : Prop :=
  k.type < 256 ∧ k.hashBytes < 2 ^ 160 ∧ -(2 ^ 31) ≤ k.blockHeight ∧ k.blockHeight < 2 ^ 31 ∧
    k.txindex < 2 ^ 32 ∧ k.txhash < 2 ^ 256 ∧ k.index < 2 ^ 32

instance (k : CAddressIndexKey) : Decidable k.inRange :=
  inferInstanceAs (Decidable (k.type < 256 ∧ k.hashBytes < 2 ^ 160 ∧
    -(2 ^ 31) ≤ k.blockHeight ∧ k.blockHeight < 2 ^ 31 ∧
    k.txindex < 2 ^ 32 ∧ k.txhash < 2 ^ 256 ∧ k.index < 2 ^ 32))

/-- A sample `CAddressIndexKey` with a negative height and the spending flag set. -/
def sampleSpendKey : CAddressIndexKey :=
  { type := 2, hashBytes := 2 ^ 160 - 1, blockHeight := -1, txindex := 2 ^ 32 - 1,
    txhash := 2 ^ 256 - 1, index := 2 ^ 32 - 1, spending := true }

/-- A pool whose spent index holds one entry, for the outpoint `(50, 0)` spent by
the transaction of hash 9, listed under that hash. -/
def poolSpentListed : CTxMemPool :=
  { CTxMemPool.init with
    mapSpent := SMap.empty.insert ⟨50, 0⟩ ⟨9, 0, -1, 5000, 1, 7⟩
    mapSpentInserted := SMap.empty.insert 9 [⟨50, 0⟩] }

/-- A transaction, hash 12, whose input 0 spends output 0 of `T`, which the store
of `diskEnv` holds, and whose inputs 1 and 2 name transactions it does not hold. -/
def txUnreadable : CTransaction :=
  { nVersion := 1, nTime := 0,
    vin := [{ prevout := ⟨50, 0⟩, scriptSig := [], nSequence := 0 },
            { prevout := ⟨51, 0⟩, scriptSig := [], nSequence := 0 },
            { prevout := ⟨52, 0⟩, scriptSig := [], nSequence := 0 }],
    vout := [], nLockTime := 12 }

/-! ## The key order -/

/-- The order of `mapAddress` is the one of the comparator. -/
theorem ltKey_iff_compare (a b : CMempoolAddressDeltaKey) :
    a < b ↔ CMempoolAddressDeltaKeyCompare a b = true := by
  show a.toTuple < b.toTuple ↔ _
  simp only [CMempoolAddressDeltaKey.toTuple, Prod.Lex.lt_iff, CMempoolAddressDeltaKeyCompare,
    ofLex_toLex]
  by_cases h1 : a.type = b.type
  · by_cases h2 : a.addressBytes = b.addressBytes
    · by_cases h3 : a.txhash = b.txhash
      · by_cases h4 : a.index = b.index
        · simp [h1, h2, h3, h4]
        · simp [h1, h2, h3, h4]
      · simp [h1, h2, h3]
    · simp [h1, h2]
  · simp [h1]

/-! ## Lemmas on the input loops -/

theorem find_recordInputs_of_not_mem (hash : uint256) (l : List CTxIn) (i : Nat)
    (m : SMap COutPoint CInPoint) (o : COutPoint) (h : ∀ t ∈ l, t.prevout ≠ o) :
    (recordInputs hash l i m).find? o = m.find? o := by
  induction l generalizing i m with
  | nil => rfl
  | cons a r ih =>
    simp only [recordInputs]
    rw [ih _ _ (fun t ht => h t (List.mem_cons_of_mem _ ht))]
    exact SMap.find?_assign_ne _ _ (h a (List.mem_cons_self _ _))

theorem recordInputs_append (hash : uint256) (l1 l2 : List CTxIn) (i : Nat)
    (m : SMap COutPoint CInPoint) :
    recordInputs hash (l1 ++ l2) i m
      = recordInputs hash l2 (i + l1.length) (recordInputs hash l1 i m) := by
  induction l1 generalizing i m with
  | nil => rfl
  | cons a r ih =>
    show recordInputs hash (r ++ l2) (i + 1) (m.assign a.prevout ⟨hash, i⟩)
      = recordInputs hash l2 (i + (r.length + 1))
          (recordInputs hash r (i + 1) (m.assign a.prevout ⟨hash, i⟩))
    rw [ih]
    congr 1
    omega

theorem find_recordInputs_last (hash : uint256) (l1 l2 : List CTxIn) (t : CTxIn) (i : Nat)
    (m : SMap COutPoint CInPoint) (h : ∀ u ∈ l2, u.prevout ≠ t.prevout) :
    (recordInputs hash (l1 ++ t :: l2) i m).find? t.prevout = some ⟨hash, i + l1.length⟩ := by
  rw [recordInputs_append]
  simp only [recordInputs]
  rw [find_recordInputs_of_not_mem _ _ _ _ _ h]
  exact SMap.find?_assign_self _ _ _

/-- Every entry written by the loop of `addUnchecked` names `hash` and an input
of the list with the entry's key as prevout. -/
theorem find_recordInputs_cases (hash : uint256) (l : List CTxIn) (i : Nat)
    (m : SMap COutPoint CInPoint) (o : COutPoint) :
    (recordInputs hash l i m).find? o = m.find? o ∨
      ∃ j t, l[j]? = some t ∧ t.prevout = o ∧
        (recordInputs hash l i m).find? o = some ⟨hash, i + j⟩ := by
  induction l generalizing i m with
  | nil => exact Or.inl rfl
  | cons a r ih =>
    simp only [recordInputs]
    rcases ih (i + 1) (m.assign a.prevout ⟨hash, i⟩) with h | ⟨j, t, h1, h2, h3⟩
    · by_cases hk : a.prevout = o
      · refine Or.inr ⟨0, a, by simp, hk, ?_⟩
        rw [h, ← hk, SMap.find?_assign_self]
        rfl
      · left
        rw [h, SMap.find?_assign_ne _ _ hk]
    · refine Or.inr ⟨j + 1, t, by simpa using h1, h2, ?_⟩
      rw [h3]
      congr 2
      omega

theorem exists_last_prevout (l : List CTxIn) (o : COutPoint) (h : ∃ t ∈ l, t.prevout = o) :
    ∃ l1 t l2, l = l1 ++ t :: l2 ∧ t.prevout = o ∧ ∀ u ∈ l2, u.prevout ≠ o := by
  induction l with
  | nil => simp at h
  | cons a r ih =>
    by_cases hr : ∃ t ∈ r, t.prevout = o
    · obtain ⟨l1, t, l2, h1, h2, h3⟩ := ih hr
      exact ⟨a :: l1, t, l2, by rw [h1]; rfl, h2, h3⟩
    · refine ⟨[], a, r, rfl, ?_, ?_⟩
      · obtain ⟨t, ht, hto⟩ := h
        rcases List.mem_cons.1 ht with h1 | h1
        · rw [← h1]; exact hto
        · exact absurd ⟨t, h1, hto⟩ hr
      · intro u hu hu2
        exact hr ⟨u, hu, hu2⟩

theorem find_eraseInputs (vin : List CTxIn) (m : SMap COutPoint CInPoint) (o : COutPoint) :
    (eraseInputs vin m).find? o
      = if ∃ t ∈ vin, t.prevout = o then none else m.find? o := by
  induction vin generalizing m with
  | nil => simp [eraseInputs]
  | cons a r ih =>
    have e : eraseInputs (a :: r) m = eraseInputs r (m.erase a.prevout) := rfl
    rw [e, ih]
    by_cases h1 : ∃ t ∈ r, t.prevout = o
    · have h2 : ∃ t ∈ a :: r, t.prevout = o := by
        obtain ⟨t, ht, hto⟩ := h1
        exact ⟨t, List.mem_cons_of_mem _ ht, hto⟩
      rw [if_pos h1, if_pos h2]
    · rw [if_neg h1]
      by_cases h3 : a.prevout = o
      · have h2 : ∃ t ∈ a :: r, t.prevout = o := ⟨a, List.mem_cons_self _ _, h3⟩
        rw [if_pos h2, ← h3, SMap.find?_erase_self]
      · have h2 : ¬ ∃ t ∈ a :: r, t.prevout = o := by
          rintro ⟨t, ht, hto⟩
          rcases List.mem_cons.1 ht with h4 | h4
          · exact h3 (h4 ▸ hto)
          · exact h1 ⟨t, h4, hto⟩
        rw [if_neg h2, SMap.find?_erase_ne _ h3]

theorem find_eraseKeyImages (env : Env) (vin : List CTxIn) (m : SMap (List Nat) CKeyImageSpent)
    (K : List Nat) :
    (eraseKeyImages env vin m).find? K
      = if ∃ t ∈ vin, env.IsAnonInput t = true ∧ env.ExtractKeyImage t = K then none
        else m.find? K := by
  induction vin generalizing m with
  | nil => simp [eraseKeyImages]
  | cons a r ih =>
    have e : eraseKeyImages env (a :: r) m
        = eraseKeyImages env r
            (if env.IsAnonInput a then m.erase (env.ExtractKeyImage a) else m) := rfl
    rw [e, ih]
    by_cases h1 : ∃ t ∈ r, env.IsAnonInput t = true ∧ env.ExtractKeyImage t = K
    · have h2 : ∃ t ∈ a :: r, env.IsAnonInput t = true ∧ env.ExtractKeyImage t = K := by
        obtain ⟨t, ht, hto⟩ := h1
        exact ⟨t, List.mem_cons_of_mem _ ht, hto⟩
      rw [if_pos h1, if_pos h2]
    · rw [if_neg h1]
      by_cases h3 : env.IsAnonInput a = true ∧ env.ExtractKeyImage a = K
      · have h2 : ∃ t ∈ a :: r, env.IsAnonInput t = true ∧ env.ExtractKeyImage t = K :=
          ⟨a, List.mem_cons_self _ _, h3⟩
        rw [if_pos h2, if_pos h3.1, ← h3.2, SMap.find?_erase_self]
      · have h2 : ¬ ∃ t ∈ a :: r, env.IsAnonInput t = true ∧ env.ExtractKeyImage t = K := by
          rintro ⟨t, ht, hto⟩
          rcases List.mem_cons.1 ht with h4 | h4
          · exact h3 (h4 ▸ hto)
          · exact h1 ⟨t, h4, hto⟩
        rw [if_neg h2]
        by_cases h5 : env.IsAnonInput a = true
        · have h6 : env.ExtractKeyImage a ≠ K := fun h => h3 ⟨h5, h⟩
          rw [if_pos h5, SMap.find?_erase_ne _ h6]
        · rw [if_neg h5]

/-! ## Loops in the option monad -/

theorem foldlM_option_cons {σ α : Type} (f : σ → α → Option σ) (p : σ) (a : α) (l : List α) :
    (a :: l).foldlM f p = (f p a).bind (fun q => l.foldlM f q) := by
  simp only [List.foldlM_cons]
  rfl

/-- A property kept by every round of a loop holds when the loop ends. -/
theorem foldlM_invariant {σ α : Type} (f : σ → α → Option σ) (J : σ → Prop) (l : List α)
    (hstep : ∀ p a q, a ∈ l → J p → f p a = some q → J q) :
    ∀ p q, J p → l.foldlM f p = some q → J q := by
  induction l with
  | nil =>
    intro p q hp h
    simp only [List.foldlM_nil] at h
    cases h
    exact hp
  | cons a r ih =>
    intro p q hp h
    rw [foldlM_option_cons] at h
    cases hfa : f p a with
    | none => rw [hfa] at h; cases h
    | some p1 =>
      rw [hfa] at h
      exact ih (fun p a q ha => hstep p a q (List.mem_cons_of_mem _ ha)) p1 q
        (hstep p a p1 (List.mem_cons_self _ _) hp hfa) h

/-- A property that each round establishes for its element, and that later
rounds keep, holds for every element when the loop ends. -/
theorem foldlM_post {σ α : Type} (f : σ → α → Option σ) (J : σ → Prop) (Q : α → σ → Prop)
    (l : List α)
    (hstep : ∀ p a q, a ∈ l → J p → f p a = some q → J q)
    (hest : ∀ p a q, a ∈ l → J p → f p a = some q → Q a q)
    (hkeep : ∀ p a q b, a ∈ l → J p → f p a = some q → Q b p → Q b q) :
    ∀ p q, J p → l.foldlM f p = some q → ∀ a ∈ l, Q a q := by
  induction l with
  | nil => intro p q _ _ a ha; cases ha
  | cons a r ih =>
    intro p q hp h b hb
    rw [foldlM_option_cons] at h
    cases hfa : f p a with
    | none => rw [hfa] at h; cases h
    | some p1 =>
      rw [hfa] at h
      have hJ1 : J p1 := hstep p a p1 (List.mem_cons_self _ _) hp hfa
      have hstep2 : ∀ p a q, a ∈ r → J p → f p a = some q → J q :=
        fun p a q ha => hstep p a q (List.mem_cons_of_mem _ ha)
      rcases List.mem_cons.1 hb with hba | hbr
      · subst hba
        have hQ1 : Q b p1 := hest p b p1 (List.mem_cons_self _ _) hp hfa
        have key : ∀ p q, (J p ∧ Q b p) → r.foldlM f p = some q → (J q ∧ Q b q) :=
          foldlM_invariant f (fun s => J s ∧ Q b s) r
            (fun p a q ha hJQ hf =>
              ⟨hstep2 p a q ha hJQ.1 hf,
                hkeep p a q b (List.mem_cons_of_mem _ ha) hJQ.1 hf hJQ.2⟩)
        exact (key p1 q ⟨hJ1, hQ1⟩ h).2
      · exact ih hstep2
          (fun p a q ha => hest p a q (List.mem_cons_of_mem _ ha))
          (fun p a q b ha => hkeep p a q b (List.mem_cons_of_mem _ ha)) p1 q hJ1 h b hbr

/-- A loop whose rounds agree with those of another loop ends as that one does. -/
theorem foldlM_mono {σ α : Type} (f g : σ → α → Option σ) (l : List α)
    (hfg : ∀ p a q, f p a = some q → g p a = some q) :
    ∀ p q, l.foldlM f p = some q → l.foldlM g p = some q := by
  induction l with
  | nil => intro p q h; exact h
  | cons a r ih =>
    intro p q h
    rw [foldlM_option_cons] at h ⊢
    cases hfa : f p a with
    | none => rw [hfa] at h; cases h
    | some p1 =>
      rw [hfa] at h
      rw [hfg p a p1 hfa]
      exact ih p1 q h

/-- A loop of fuelled rounds ends for some fuel when every round does. -/
theorem foldlM_exists_fuel {σ α : Type} (F : Nat → σ → α → Option σ) (J : σ → Prop)
    (l : List α)
    (hmono : ∀ n m p a q, n ≤ m → F n p a = some q → F m p a = some q)
    (hstep : ∀ n p a q, a ∈ l → J p → F n p a = some q → J q)
    (hprog : ∀ p a, a ∈ l → J p → ∃ n q, F n p a = some q) :
    ∀ p, J p → ∃ n q, l.foldlM (F n) p = some q := by
  induction l with
  | nil => intro p _; exact ⟨0, p, rfl⟩
  | cons a r ih =>
    intro p hp
    obtain ⟨n1, p1, h1⟩ := hprog p a (List.mem_cons_self _ _) hp
    have hJ1 : J p1 := hstep n1 p a p1 (List.mem_cons_self _ _) hp h1
    obtain ⟨n2, q, h2⟩ := ih
      (fun n p a q ha => hstep n p a q (List.mem_cons_of_mem _ ha))
      (fun p a ha => hprog p a (List.mem_cons_of_mem _ ha)) p1 hJ1
    refine ⟨max n1 n2, q, ?_⟩
    rw [foldlM_option_cons, hmono n1 (max n1 n2) p a p1 (le_max_left _ _) h1]
    exact foldlM_mono (F n2) (F (max n1 n2)) r
      (fun p a q h => hmono n2 (max n1 n2) p a q (le_max_right _ _) h) p1 q h2

/-! ## Fuel -/

theorem read_node_live (env : Env) (p : CTxMemPool) (k : uint256) (t : CTransaction)
    (h : p.mapTx.find? k = some t) : (TxRef.node k).read env p = some t := by
  simp only [TxRef.read, h]

theorem read_node_dead (env : Env) (p : CTxMemPool) (k : uint256)
    (h : p.mapTx.find? k = none) : (TxRef.node k).read env p = env.staleRead k := by
  simp only [TxRef.read, h]

/-- A read depends on the pool through `mapTx` only. -/
theorem read_congr (env : Env) (p q : CTxMemPool) (ref : TxRef) (h : p.mapTx = q.mapTx) :
    ref.read env p = ref.read env q := by
  cases ref with
  | object t => rfl
  | node k => simp only [TxRef.read, h]

theorem loopBound_congr (env : Env) (p q : CTxMemPool) (ref : TxRef) (h : p.mapTx = q.mapTx) :
    loopBound env p ref = loopBound env q ref := by
  cases ref with
  | object t => rfl
  | node k => simp only [loopBound, h]

theorem removeSpender_undefined (env : Env) (f : CTxMemPool → TxRef → Option CTxMemPool)
    (ref : TxRef) (hash : uint256) (p : CTxMemPool) (i : Nat) (hr : ref.read env p = none) :
    removeSpender env f ref hash p i = none := by
  simp only [removeSpender, hr]

theorem removeSpender_past (env : Env) (f : CTxMemPool → TxRef → Option CTxMemPool)
    (ref : TxRef) (hash : uint256) (p : CTxMemPool) (i : Nat) (t : CTransaction)
    (hr : ref.read env p = some t) (hi : ¬ i < t.vout.length) :
    removeSpender env f ref hash p i = some p := by
  simp only [removeSpender, hr, if_neg hi]

theorem removeSpender_none (env : Env) (f : CTxMemPool → TxRef → Option CTxMemPool)
    (ref : TxRef) (hash : uint256) (p : CTxMemPool) (i : Nat) (t : CTransaction)
    (hr : ref.read env p = some t) (h1 : p.mapNextTx.find? ⟨hash, i⟩ = none) :
    removeSpender env f ref hash p i = some p := by
  simp only [removeSpender, hr, h1, ite_self]

theorem removeSpender_some (env : Env) (f : CTxMemPool → TxRef → Option CTxMemPool)
    (ref : TxRef) (hash : uint256) (p : CTxMemPool) (i : Nat) (t : CTransaction) (ip : CInPoint)
    (hr : ref.read env p = some t) (hi : i < t.vout.length)
    (h1 : p.mapNextTx.find? ⟨hash, i⟩ = some ip) :
    removeSpender env f ref hash p i = f p (.node ip.ptx) := by
  simp only [removeSpender, hr, if_pos hi, h1]

/-- What a round of the loop that returns has done: nothing, or the removal of
the recorded spender of an output below the number of outputs read. -/
theorem removeSpender_cases (env : Env) (f : CTxMemPool → TxRef → Option CTxMemPool)
    (ref : TxRef) (hash : uint256) (p : CTxMemPool) (i : Nat) (q : CTxMemPool)
    (h : removeSpender env f ref hash p i = some q) :
    ∃ t, ref.read env p = some t ∧
      (q = p ∨ (i < t.vout.length ∧
        ∃ ip, p.mapNextTx.find? ⟨hash, i⟩ = some ip ∧ f p (.node ip.ptx) = some q)) := by
  cases hr : ref.read env p with
  | none => rw [removeSpender_undefined env f ref hash p i hr] at h; cases h
  | some t =>
    refine ⟨t, rfl, ?_⟩
    by_cases hi : i < t.vout.length
    · cases h1 : p.mapNextTx.find? ⟨hash, i⟩ with
      | none =>
        rw [removeSpender_none env f ref hash p i t hr h1] at h
        exact Or.inl (Option.some.inj h).symm
      | some ip =>
        rw [removeSpender_some env f ref hash p i t ip hr hi h1] at h
        exact Or.inr ⟨hi, ip, rfl, h⟩
    · rw [removeSpender_past env f ref hash p i t hr hi] at h
      exact Or.inl (Option.some.inj h).symm

theorem removeSpender_mono (env : Env) (f g : CTxMemPool → TxRef → Option CTxMemPool)
    (hfg : ∀ p r q, f p r = some q → g p r = some q) (ref : TxRef) (hash : uint256)
    (p : CTxMemPool) (i : Nat) (q : CTxMemPool)
    (h : removeSpender env f ref hash p i = some q) :
    removeSpender env g ref hash p i = some q := by
  cases hr : ref.read env p with
  | none => rw [removeSpender_undefined env f ref hash p i hr] at h; cases h
  | some t =>
    by_cases hi : i < t.vout.length
    · cases h1 : p.mapNextTx.find? ⟨hash, i⟩ with
      | none =>
        rw [removeSpender_none env f ref hash p i t hr h1] at h
        rw [removeSpender_none env g ref hash p i t hr h1]
        exact h
      | some ip =>
        rw [removeSpender_some env f ref hash p i t ip hr hi h1] at h
        rw [removeSpender_some env g ref hash p i t ip hr hi h1]
        exact hfg _ _ _ h
    · rw [removeSpender_past env f ref hash p i t hr hi] at h
      rw [removeSpender_past env g ref hash p i t hr hi]
      exact h

theorem spenderLoop_mono (env : Env) (f g : CTxMemPool → TxRef → Option CTxMemPool)
    (hfg : ∀ p r q, f p r = some q → g p r = some q) (ref : TxRef) (hash : uint256)
    (p q : CTxMemPool) (h : spenderLoop env f ref hash p = some q) :
    spenderLoop env g ref hash p = some q :=
  foldlM_mono _ _ _ (fun p a q hpa => removeSpender_mono env f g hfg ref hash p a q hpa) p q h

theorem closeRemove_cases (env : Env) (ref : TxRef) (hash : uint256) (p q : CTxMemPool)
    (h : closeRemove env ref hash p = some q) :
    ∃ tx1 tx2, ref.read env p = some tx1 ∧
      ref.read env (eraseNode p hash tx1) = some tx2 ∧
      q = eraseImages env (eraseNode p hash tx1) tx2 := by
  cases h1 : ref.read env p with
  | none => simp only [closeRemove, h1] at h; cases h
  | some tx1 =>
    cases h2 : ref.read env (eraseNode p hash tx1) with
    | none => simp only [closeRemove, h1, h2] at h; cases h
    | some tx2 =>
      simp only [closeRemove, h1, h2, Option.some.injEq] at h
      exact ⟨tx1, tx2, rfl, h2, h.symm⟩

theorem closeRemove_eq (env : Env) (ref : TxRef) (hash : uint256) (p : CTxMemPool)
    (tx1 tx2 : CTransaction) (h1 : ref.read env p = some tx1)
    (h2 : ref.read env (eraseNode p hash tx1) = some tx2) :
    closeRemove env ref hash p = some (eraseImages env (eraseNode p hash tx1) tx2) := by
  simp only [closeRemove, h1, h2]

theorem removeRef_undefined (env : Env) (fuel : Nat) (pool : CTxMemPool) (ref : TxRef) (b : Bool)
    (hr : ref.read env pool = none) : removeRef env (fuel + 1) pool ref b = none := by
  simp only [removeRef, hr]

theorem removeRef_absent (env : Env) (fuel : Nat) (pool : CTxMemPool) (ref : TxRef) (b : Bool)
    (tx : CTransaction) (hr : ref.read env pool = some tx)
    (hc : pool.mapTx.contains (env.GetHash tx) = false) :
    removeRef env (fuel + 1) pool ref b = some pool := by
  simp only [removeRef, hr, hc]
  rfl

theorem removeRef_false (env : Env) (fuel : Nat) (pool : CTxMemPool) (ref : TxRef)
    (tx : CTransaction) (hr : ref.read env pool = some tx)
    (hc : pool.mapTx.contains (env.GetHash tx) = true) :
    removeRef env (fuel + 1) pool ref false = closeRemove env ref (env.GetHash tx) pool := by
  simp only [removeRef, hr, hc]
  rfl

theorem removeRef_true (env : Env) (fuel : Nat) (pool : CTxMemPool) (ref : TxRef)
    (tx : CTransaction) (hr : ref.read env pool = some tx)
    (hc : pool.mapTx.contains (env.GetHash tx) = true) :
    removeRef env (fuel + 1) pool ref true
      = (spenderLoop env (fun p r => removeRef env fuel p r true) ref (env.GetHash tx) pool).bind
          (closeRemove env ref (env.GetHash tx)) := by
  simp only [removeRef, hr, hc]
  rfl

/-- What a returning call has done. -/
theorem removeRef_cases (env : Env) (fuel : Nat) (pool : CTxMemPool) (ref : TxRef) (b : Bool)
    (q : CTxMemPool) (h : removeRef env fuel pool ref b = some q) :
    ∃ n tx, fuel = n + 1 ∧ ref.read env pool = some tx ∧
      ((pool.mapTx.contains (env.GetHash tx) = false ∧ q = pool) ∨
        (pool.mapTx.contains (env.GetHash tx) = true ∧
          ∃ p1, (if b then spenderLoop env (fun p r => removeRef env n p r true) ref
                  (env.GetHash tx) pool else some pool) = some p1 ∧
            closeRemove env ref (env.GetHash tx) p1 = some q)) := by
  cases fuel with
  | zero => cases h
  | succ n =>
    cases hr : ref.read env pool with
    | none => rw [removeRef_undefined env n pool ref b hr] at h; cases h
    | some tx =>
      refine ⟨n, tx, rfl, rfl, ?_⟩
      by_cases hc : pool.mapTx.contains (env.GetHash tx) = true
      · right
        refine ⟨hc, ?_⟩
        cases b with
        | false =>
          rw [removeRef_false env n pool ref tx hr hc] at h
          exact ⟨pool, rfl, h⟩
        | true =>
          rw [removeRef_true env n pool ref tx hr hc] at h
          cases hl : spenderLoop env (fun p r => removeRef env n p r true) ref
              (env.GetHash tx) pool with
          | none => rw [hl] at h; cases h
          | some p1 =>
            rw [hl] at h
            exact ⟨p1, rfl, h⟩
      · left
        have hc1 : pool.mapTx.contains (env.GetHash tx) = false := by simpa using hc
        rw [removeRef_absent env n pool ref b tx hr hc1] at h
        exact ⟨hc1, (Option.some.inj h).symm⟩

theorem removeRef_succ (env : Env) (fuel : Nat) :
    ∀ pool ref b q, removeRef env fuel pool ref b = some q →
      removeRef env (fuel + 1) pool ref b = some q := by
  induction fuel with
  | zero => intro pool ref b q h; cases h
  | succ n ih =>
    intro pool ref b q h
    obtain ⟨m, tx, hm, hr, hcase⟩ := removeRef_cases env (n + 1) pool ref b q h
    have e : n = m := by omega
    subst e
    rcases hcase with ⟨hc, hq⟩ | ⟨hc, p1, hl, hcl⟩
    · rw [hq]
      exact removeRef_absent env _ pool ref b tx hr hc
    · cases b with
      | false =>
        rw [removeRef_false env _ pool ref tx hr hc]
        simp only [Bool.false_eq_true, if_false, Option.some.injEq] at hl
        rw [hl]
        exact hcl
      | true =>
        rw [removeRef_true env _ pool ref tx hr hc]
        simp only [if_true] at hl
        rw [spenderLoop_mono env _ _ (fun p r q hq => ih p r true q hq) ref _ pool p1 hl]
        exact hcl

theorem removeRef_mono (env : Env) (n m : Nat) (hnm : n ≤ m) (pool : CTxMemPool) (ref : TxRef)
    (b : Bool) (q : CTxMemPool) (h : removeRef env n pool ref b = some q) :
    removeRef env m pool ref b = some q := by
  induction hnm with
  | refl => exact h
  | step _ ih => exact removeRef_succ env _ pool ref b q ih

theorem remove_mono (env : Env) (n m : Nat) (hnm : n ≤ m) (pool : CTxMemPool) (tx : CTransaction)
    (b : Bool) (q : CTxMemPool) (h : remove env n pool tx b = some q) :
    remove env m pool tx b = some q :=
  removeRef_mono env n m hnm pool (.object tx) b q h

theorem removeConflict_none (env : Env) (n : Nat) (tx : CTransaction) (p : CTxMemPool)
    (txin : CTxIn) (h1 : p.mapNextTx.find? txin.prevout = none) :
    removeConflict env n tx p txin = some p := by
  simp only [removeConflict, h1]

theorem removeConflict_some (env : Env) (n : Nat) (tx : CTransaction) (p : CTxMemPool)
    (txin : CTxIn) (ip : CInPoint) (c : CTransaction)
    (h1 : p.mapNextTx.find? txin.prevout = some ip)
    (h2 : (TxRef.node ip.ptx).read env p = some c) :
    removeConflict env n tx p txin
      = if c ≠ tx then removeRef env n p (.node ip.ptx) true else some p := by
  simp only [removeConflict, h1, h2]

theorem removeConflict_undefined (env : Env) (n : Nat) (tx : CTransaction) (p : CTxMemPool)
    (txin : CTxIn) (ip : CInPoint)
    (h1 : p.mapNextTx.find? txin.prevout = some ip)
    (h2 : (TxRef.node ip.ptx).read env p = none) :
    removeConflict env n tx p txin = none := by
  simp only [removeConflict, h1, h2]

theorem removeConflict_mono (env : Env) (n m : Nat) (hnm : n ≤ m) (tx : CTransaction)
    (p : CTxMemPool) (txin : CTxIn) (q : CTxMemPool)
    (h : removeConflict env n tx p txin = some q) : removeConflict env m tx p txin = some q := by
  cases h1 : p.mapNextTx.find? txin.prevout with
  | none =>
    rw [removeConflict_none _ _ _ _ _ h1] at h ⊢
    exact h
  | some ip =>
    cases h2 : (TxRef.node ip.ptx).read env p with
    | none => rw [removeConflict_undefined _ _ _ _ _ _ h1 h2] at h; cases h
    | some c =>
      rw [removeConflict_some _ _ _ _ _ _ _ h1 h2] at h ⊢
      by_cases hne : c ≠ tx
      · rw [if_pos hne] at h ⊢
        exact removeRef_mono env n m hnm p _ true q h
      · rw [if_neg hne] at h ⊢
        exact h

/-! ## What `remove` keeps -/

theorem remove_succ_absent (env : Env) (fuel : Nat) (pool : CTxMemPool) (tx : CTransaction)
    (b : Bool) (h : pool.mapTx.contains (env.GetHash tx) = false) :
    remove env (fuel + 1) pool tx b = some pool :=
  removeRef_absent env fuel pool (.object tx) b tx rfl h

theorem closeRemove_object (env : Env) (pool : CTxMemPool) (tx : CTransaction) :
    closeRemove env (.object tx) (env.GetHash tx) pool = some (removeEntry env pool tx) :=
  rfl

theorem remove_succ_false (env : Env) (fuel : Nat) (pool : CTxMemPool) (tx : CTransaction)
    (h : pool.mapTx.contains (env.GetHash tx) = true) :
    remove env (fuel + 1) pool tx false = some (removeEntry env pool tx) := by
  unfold remove
  rw [removeRef_false env fuel pool (.object tx) tx rfl h]
  rfl

theorem remove_succ_true (env : Env) (fuel : Nat) (pool : CTxMemPool) (tx : CTransaction)
    (h : pool.mapTx.contains (env.GetHash tx) = true) :
    remove env (fuel + 1) pool tx true
      = (spenderLoop env (fun p r => removeRef env fuel p r true) (.object tx)
          (env.GetHash tx) pool).bind (fun p => some (removeEntry env p tx)) := by
  unfold remove
  rw [removeRef_true env fuel pool (.object tx) tx rfl h]
  rfl

theorem present_contains (env : Env) (pool : CTxMemPool) (tx : CTransaction)
    (h : present env pool tx) : pool.mapTx.contains (env.GetHash tx) = true :=
  (SMap.contains_iff _ _).2 ⟨tx, h⟩

theorem spenderInvariant_iff (env : Env) (pool : CTxMemPool) :
    spenderInvariant env pool ↔ nextTxInvariant env pool ∧ spenderUnderOwnHash env pool := by
  constructor
  · intro h
    refine ⟨fun out ip ho => ?_, fun out ip tx ho ht => ?_⟩
    · obtain ⟨t, a, _, b⟩ := h out ip ho
      exact ⟨t, a, b⟩
    · obtain ⟨t, a, b, _⟩ := h out ip ho
      rw [ht] at a
      rw [Option.some.inj a]
      exact b
  · rintro ⟨h1, h2⟩ out ip ho
    obtain ⟨t, a, b⟩ := h1 out ip ho
    exact ⟨t, a, h2 out ip t ho a, b⟩

/-- A reference that names a transaction of the pool reads as that transaction. -/
theorem read_of_refersTo (env : Env) (p : CTxMemPool) (ref : TxRef) (tx : CTransaction)
    (hr : refersTo env tx ref) (hp : present env p tx) : ref.read env p = some tx := by
  cases ref with
  | object t =>
    simp only [refersTo] at hr
    subst hr
    rfl
  | node k =>
    simp only [refersTo] at hr
    subst hr
    exact read_node_live env p _ tx hp

theorem subPool_refl (p : CTxMemPool) : subPool p p :=
  ⟨fun _ _ h => h, fun _ _ h => h⟩

theorem subPool_trans {p q r : CTxMemPool} (h1 : subPool p q) (h2 : subPool q r) : subPool p r :=
  ⟨fun k t h => h1.1 k t (h2.1 k t h), fun o ip h => h1.2 o ip (h2.2 o ip h)⟩

theorem subPool_tx_none {p q : CTxMemPool} (h : subPool p q) (k : uint256)
    (hk : p.mapTx.find? k = none) : q.mapTx.find? k = none := by
  cases hq : q.mapTx.find? k with
  | none => rfl
  | some t => rw [h.1 k t hq] at hk; cases hk

theorem subPool_next_none {p q : CTxMemPool} (h : subPool p q) (o : COutPoint)
    (ho : p.mapNextTx.find? o = none) : q.mapNextTx.find? o = none := by
  cases hq : q.mapNextTx.find? o with
  | none => rfl
  | some ip => rw [h.2 o ip hq] at ho; cases ho

theorem subPool_eraseNode (p : CTxMemPool) (hash : uint256) (tx : CTransaction) :
    subPool p (eraseNode p hash tx) := by
  constructor
  · intro k t h
    simp only [eraseNode] at h
    rw [SMap.find?_erase] at h
    by_cases hk : hash = k
    · rw [if_pos hk] at h; cases h
    · rw [if_neg hk] at h; exact h
  · intro o ip h
    simp only [eraseNode] at h
    rw [find_eraseInputs] at h
    by_cases ho : ∃ t ∈ tx.vin, t.prevout = o
    · rw [if_pos ho] at h; cases h
    · rw [if_neg ho] at h; exact h

theorem subPool_removeEntry (env : Env) (p : CTxMemPool) (tx : CTransaction) :
    subPool p (removeEntry env p tx) :=
  subPool_eraseNode p (env.GetHash tx) tx

/-- While the node under the hash of a transaction of the starting pool is in
`mapTx`, a reference that names the transaction reads as the transaction. -/
theorem read_live (env : Env) (s p : CTxMemPool) (ref : TxRef) (tx tx1 : CTransaction)
    (hsub : subPool s p) (hp : present env s tx) (hr : refersTo env tx ref)
    (h1 : ref.read env p = some tx1) :
    ∀ t, p.mapTx.find? (env.GetHash tx) = some t → tx1 = tx := by
  intro t ht
  have e : t = tx := by
    have := hsub.1 _ _ ht
    rw [hp] at this
    exact (Option.some.inj this).symm
  subst e
  rw [read_of_refersTo env p ref t hr ht] at h1
  exact (Option.some.inj h1).symm

/-- Lines 46 to 48 keep the invariant when the transaction was in the pool the
call started from and is read as itself while its node is there. -/
theorem eraseNode_sound (env : Env) (s p : CTxMemPool) (tx tx1 : CTransaction)
    (hsub : subPool s p) (hI : spenderInvariant env p) (hp : present env s tx)
    (h1 : ∀ t, p.mapTx.find? (env.GetHash tx) = some t → tx1 = tx) :
    subPool s (eraseNode p (env.GetHash tx) tx1) ∧
      spenderInvariant env (eraseNode p (env.GetHash tx) tx1) ∧
      (eraseNode p (env.GetHash tx) tx1).mapTx.find? (env.GetHash tx) = none := by
  refine ⟨subPool_trans hsub (subPool_eraseNode p _ tx1), ?_, ?_⟩
  · intro out ip h
    simp only [eraseNode] at h
    rw [find_eraseInputs] at h
    by_cases ho : ∃ t ∈ tx1.vin, t.prevout = out
    · rw [if_pos ho] at h; cases h
    · rw [if_neg ho] at h
      obtain ⟨t, ht, hh, txin, hin, hout⟩ := hI out ip h
      refine ⟨t, ?_, hh, txin, hin, hout⟩
      simp only [eraseNode]
      rw [SMap.find?_erase]
      by_cases hk : env.GetHash tx = ip.ptx
      · exfalso
        rw [← hk] at ht
        have e1 := h1 t ht
        have e : some t = some tx := by rw [← hsub.1 _ _ ht, hp]
        simp only [Option.some.injEq] at e
        subst e
        subst e1
        exact ho ⟨txin, List.getElem?_mem hin, hout⟩
      · rw [if_neg hk]; exact ht
  · simp only [eraseNode]
    exact SMap.find?_erase_self _ _

theorem removeEntry_sound (env : Env) (s p : CTxMemPool) (tx : CTransaction)
    (hsub : subPool s p) (hI : spenderInvariant env p) (hp : present env s tx) :
    subPool s (removeEntry env p tx) ∧ spenderInvariant env (removeEntry env p tx) ∧
      (removeEntry env p tx).mapTx.find? (env.GetHash tx) = none ∧
      ∀ t ∈ tx.vin, (removeEntry env p tx).mapNextTx.find? t.prevout = none := by
  obtain ⟨a, b, c⟩ := eraseNode_sound env s p tx tx hsub hI hp (fun _ _ => rfl)
  refine ⟨a, b, c, ?_⟩
  intro t ht
  simp only [removeEntry]
  rw [find_eraseInputs, if_pos ⟨t, ht, rfl⟩]

theorem present_of_entry (env : Env) (p : CTxMemPool) (hI : spenderInvariant env p)
    (o : COutPoint) (ip : CInPoint) (c : CTransaction)
    (h1 : p.mapNextTx.find? o = some ip) (h2 : p.mapTx.find? ip.ptx = some c) :
    present env p c ∧ env.GetHash c = ip.ptx ∧ ∃ txin, c.vin[ip.n]? = some txin ∧ txin.prevout = o := by
  obtain ⟨t, ht, hh, hin⟩ := hI o ip h1
  rw [h2] at ht
  simp only [Option.some.injEq] at ht
  subst ht
  refine ⟨?_, hh, hin⟩
  unfold present
  rw [hh]; exact h2

/-- Under the invariant the node of a recorded spender is in `mapTx`, holds a
transaction of the pool, and the in-point's pointer names it. -/
theorem spender_of_entry (env : Env) (p : CTxMemPool) (hI : spenderInvariant env p)
    (o : COutPoint) (ip : CInPoint) (h1 : p.mapNextTx.find? o = some ip) :
    ∃ c, p.mapTx.find? ip.ptx = some c ∧ present env p c ∧ refersTo env c (.node ip.ptx) ∧
      ∃ txin, c.vin[ip.n]? = some txin ∧ txin.prevout = o := by
  obtain ⟨c, hc, hh, hin⟩ := hI o ip h1
  refine ⟨c, hc, ?_, hh.symm, hin⟩
  unfold present
  rw [hh]; exact hc

/-- What a returning `remove` of a transaction of the pool guarantees, whatever
the reads of erased nodes yield and without assuming spender uniqueness: nothing
is added, the invariant is kept and the transaction is gone. -/
theorem removeRef_sound (env : Env) (fuel : Nat) :
    ∀ (s : CTxMemPool) (ref : TxRef) (tx : CTransaction) (b : Bool) (q : CTxMemPool),
      removeRef env fuel s ref b = some q → spenderInvariant env s → present env s tx →
      refersTo env tx ref →
      subPool s q ∧ spenderInvariant env q ∧ q.mapTx.find? (env.GetHash tx) = none := by
  induction fuel with
  | zero => intro s ref tx b q h; cases h
  | succ n ih =>
    intro s ref tx b q h hI hp hr
    obtain ⟨m, tx0, hm, hread, hcase⟩ := removeRef_cases env (n + 1) s ref b q h
    have e : n = m := by omega
    subst e
    have e0 : tx0 = tx := by
      rw [read_of_refersTo env s ref tx hr hp] at hread
      exact (Option.some.inj hread).symm
    subst e0
    rcases hcase with ⟨hc, _⟩ | ⟨_, p1, hl, hcl⟩
    · rw [present_contains env s tx0 hp] at hc; cases hc
    · have hJ : subPool s p1 ∧ spenderInvariant env p1 := by
        cases b with
        | false =>
          simp only [Bool.false_eq_true, if_false, Option.some.injEq] at hl
          subst hl
          exact ⟨subPool_refl s, hI⟩
        | true =>
          simp only [if_true] at hl
          refine foldlM_invariant _ (fun p => subPool s p ∧ spenderInvariant env p) _ ?_ s p1
            ⟨subPool_refl s, hI⟩ hl
          intro p i r _ hJp hstep
          obtain ⟨t, _, hq | ⟨_, ip, h1, hrec⟩⟩ := removeSpender_cases env _ ref _ p i r hstep
          · rw [hq]; exact hJp
          · obtain ⟨c, _, hpc, hrc, _⟩ := spender_of_entry env p hJp.2 _ ip h1
            obtain ⟨a1, a2, _⟩ := ih p (.node ip.ptx) c true r hrec hJp.2 hpc hrc
            exact ⟨subPool_trans hJp.1 a1, a2⟩
      obtain ⟨tx1, tx2, r1, _, hq⟩ := closeRemove_cases env ref _ p1 q hcl
      subst hq
      exact eraseNode_sound env s p1 tx0 tx1 hJ.1 hJ.2 hp
        (read_live env s p1 ref tx0 tx1 hJ.1 hp hr r1)

theorem removeSpender_sound (env : Env) (n : Nat) (ref : TxRef) (hash : uint256)
    (p : CTxMemPool) (i : Nat) (q : CTxMemPool) (hI : spenderInvariant env p)
    (h : removeSpender env (fun p r => removeRef env n p r true) ref hash p i = some q) :
    subPool p q ∧ spenderInvariant env q := by
  obtain ⟨t, _, hq | ⟨_, ip, h1, hrec⟩⟩ := removeSpender_cases env _ ref _ p i q h
  · rw [hq]; exact ⟨subPool_refl p, hI⟩
  · obtain ⟨c, _, hpc, hrc, _⟩ := spender_of_entry env p hI _ ip h1
    obtain ⟨a1, a2, _⟩ := removeRef_sound env n p (.node ip.ptx) c true q hrec hI hpc hrc
    exact ⟨a1, a2⟩

theorem remove_sound (env : Env) (fuel : Nat) (s : CTxMemPool) (tx : CTransaction) (b : Bool)
    (q : CTxMemPool) (h : remove env fuel s tx b = some q) (hI : spenderInvariant env s)
    (hp : present env s tx) :
    subPool s q ∧ spenderInvariant env q ∧ q.mapTx.find? (env.GetHash tx) = none :=
  removeRef_sound env fuel s (.object tx) tx b q h hI hp rfl

/-! ## Termination on an acyclic spender graph -/

theorem child_sub (env : Env) {p q : CTxMemPool} (h : subPool p q) (a c : CTransaction)
    (hc : child env q a c) : child env p a c := by
  obtain ⟨i, ip, hi, h1, h2⟩ := hc
  exact ⟨i, ip, hi, h.2 _ _ h1, h.1 _ _ h2⟩

theorem acyclic_sub (env : Env) {p q : CTxMemPool} (h : subPool p q) (hac : acyclic env p) :
    acyclic env q :=
  fun tx hd => hac tx (Relation.TransGen.mono (fun a c => child_sub env h a c) hd)

/-- While only descendants of a transaction have been removed from an acyclic
pool, the transaction itself is still there. -/
theorem present_of_removedOnly (env : Env) (s p : CTxMemPool) (tx : CTransaction)
    (hsub : subPool s p) (hac : acyclic env s) (hp : present env s tx)
    (ho : removedOnly s p (Relation.TransGen (child env s) tx)) : present env p tx := by
  cases hx : p.mapTx.find? (env.GetHash tx) with
  | none => exact absurd (ho _ tx hp hx) (hac tx)
  | some t =>
    have e : some t = some tx := by rw [← hsub.1 _ _ hx, hp]
    simp only [Option.some.injEq] at e
    subst e
    exact hx

/-- A returning `remove` of a transaction of an acyclic pool removes only the
transaction and descendants of it, and erases every entry under an input
prevout of the transaction: the node handed to the call is not erased before
line 48, so the reads of lines 33 to 46 are of the transaction. -/
theorem removeRef_removed (env : Env) (fuel : Nat) :
    ∀ (s : CTxMemPool) (ref : TxRef) (tx : CTransaction) (b : Bool) (q : CTxMemPool),
      removeRef env fuel s ref b = some q → spenderInvariant env s → acyclic env s →
      present env s tx → refersTo env tx ref →
      removedOnly s q (Relation.ReflTransGen (child env s) tx) ∧
        ∀ t ∈ tx.vin, q.mapNextTx.find? t.prevout = none := by
  induction fuel with
  | zero => intro s ref tx b q h; cases h
  | succ n ih =>
    intro s ref tx b q h hI hac hp hr
    obtain ⟨m, tx0, hm, hread, hcase⟩ := removeRef_cases env (n + 1) s ref b q h
    have e : n = m := by omega
    subst e
    have e0 : tx0 = tx := by
      rw [read_of_refersTo env s ref tx hr hp] at hread
      exact (Option.some.inj hread).symm
    subst e0
    rcases hcase with ⟨hc, _⟩ | ⟨_, p1, hl, hcl⟩
    · rw [present_contains env s tx0 hp] at hc; cases hc
    · have hL0 : subPool s s ∧ spenderInvariant env s ∧
          removedOnly s s (Relation.TransGen (child env s) tx0) :=
        ⟨subPool_refl s, hI, fun k t h1 h2 => by rw [h1] at h2; cases h2⟩
      have hJ : subPool s p1 ∧ spenderInvariant env p1 ∧
          removedOnly s p1 (Relation.TransGen (child env s) tx0) := by
        cases b with
        | false =>
          simp only [Bool.false_eq_true, if_false, Option.some.injEq] at hl
          subst hl
          exact hL0
        | true =>
          simp only [if_true] at hl
          refine foldlM_invariant _ (fun p => subPool s p ∧ spenderInvariant env p ∧
            removedOnly s p (Relation.TransGen (child env s) tx0)) _ ?_ s p1 hL0 hl
          intro p i r _ hJp hstep
          obtain ⟨hsp, hIp, hop⟩ := hJp
          obtain ⟨t, hrt, hq | ⟨hi, ip, h1, hrec⟩⟩ := removeSpender_cases env _ ref _ p i r hstep
          · rw [hq]; exact ⟨hsp, hIp, hop⟩
          · have hpp := present_of_removedOnly env s p tx0 hsp hac hp hop
            have et : t = tx0 := by
              rw [read_of_refersTo env p ref tx0 hr hpp] at hrt
              exact (Option.some.inj hrt).symm
            subst et
            obtain ⟨c, hc, hpc, hrc, _⟩ := spender_of_entry env p hIp _ ip h1
            obtain ⟨a1, a2, _⟩ := removeRef_sound env n p (.node ip.ptx) c true r hrec hIp hpc hrc
            obtain ⟨b1, _⟩ := ih p (.node ip.ptx) c true r hrec hIp (acyclic_sub env hsp hac)
              hpc hrc
            have hch : child env s t c := ⟨i, ip, hi, hsp.2 _ _ h1, hsp.1 _ _ hc⟩
            refine ⟨subPool_trans hsp a1, a2, ?_⟩
            intro k t2 hs hq
            cases hpk : p.mapTx.find? k with
            | none => exact hop k t2 hs hpk
            | some t3 =>
              have e : some t3 = some t2 := by rw [← hsp.1 _ _ hpk, hs]
              simp only [Option.some.injEq] at e
              subst e
              exact Relation.TransGen.head' hch
                (Relation.ReflTransGen.mono (fun a c => child_sub env hsp a c) (b1 k t3 hpk hq))
      obtain ⟨hsp, hIp, hop⟩ := hJ
      obtain ⟨tx1, tx2, r1, _, hq⟩ := closeRemove_cases env ref _ p1 q hcl
      have hpp := present_of_removedOnly env s p1 tx0 hsp hac hp hop
      have e1 : tx1 = tx0 := read_live env s p1 ref tx0 tx1 hsp hp hr r1 tx0 hpp
      subst e1
      subst hq
      constructor
      · intro k t hs hq
        by_cases hk : env.GetHash tx1 = k
        · have e : some t = some tx1 := by rw [← hs, ← hk, hp]
          simp only [Option.some.injEq] at e
          subst e
          exact Relation.ReflTransGen.refl
        · have hq2 : p1.mapTx.find? k = none := by
            have hq3 : (p1.mapTx.erase (env.GetHash tx1)).find? k = none := hq
            rw [SMap.find?_erase_ne _ hk] at hq3
            exact hq3
          exact Relation.TransGen.to_reflTransGen (hop k t hs hq2)
      · intro t ht
        show (eraseInputs tx1.vin p1.mapNextTx).find? t.prevout = none
        rw [find_eraseInputs, if_pos ⟨t, ht, rfl⟩]

/-- On an acyclic spender graph the edge relation, read from child to parent,
is well founded: the children are among the finitely many stored transactions. -/
theorem child_wf (env : Env) (s : CTxMemPool) (hac : acyclic env s) :
    WellFounded (fun c p => child env s p c) := by
  have hmem : ∀ p c, child env s p c → c ∈ s.mapTx.entries.map Prod.snd := by
    rintro p c ⟨i, ip, _, _, h⟩
    exact List.mem_map.2 ⟨(ip.ptx, c), SMap.mem_of_find _ _ _ h, rfl⟩
  have wf : WellFounded (fun a b : {c // c ∈ s.mapTx.entries.map Prod.snd} =>
      Relation.TransGen (Function.swap (child env s)) a.1 b.1) := by
    haveI : IsTrans {c // c ∈ s.mapTx.entries.map Prod.snd}
        (fun a b => Relation.TransGen (Function.swap (child env s)) a.1 b.1) :=
      ⟨fun _ _ _ h1 h2 => Relation.TransGen.trans h1 h2⟩
    haveI : IsIrrefl {c // c ∈ s.mapTx.entries.map Prod.snd}
        (fun a b => Relation.TransGen (Function.swap (child env s)) a.1 b.1) :=
      ⟨fun a h => hac a.1 (Relation.transGen_swap.1 h)⟩
    exact Finite.wellFounded_of_trans_of_irrefl _
  have acc_val : ∀ x : {c // c ∈ s.mapTx.entries.map Prod.snd},
      Acc (fun c p => child env s p c) x.1 := by
    intro x
    refine wf.induction (C := fun y => Acc (fun c p => child env s p c) y.1) x ?_
    intro y ih
    exact Acc.intro _ (fun c hc => ih ⟨c, hmem _ _ hc⟩ (Relation.TransGen.single hc))
  exact ⟨fun t => Acc.intro _ (fun c hc => acc_val ⟨c, hmem _ _ hc⟩)⟩

/-- A round of the loop of a `remove` on an acyclic pool keeps the invariant and
removes only descendants of the transaction. -/
theorem removeSpender_live (env : Env) (n : Nat) (s p : CTxMemPool) (ref : TxRef)
    (tx : CTransaction) (i : Nat) (q : CTxMemPool) (hac : acyclic env s)
    (hp : present env s tx) (hr : refersTo env tx ref)
    (hJ : subPool s p ∧ spenderInvariant env p ∧
      removedOnly s p (Relation.TransGen (child env s) tx))
    (h : removeSpender env (fun p r => removeRef env n p r true) ref (env.GetHash tx) p i
      = some q) :
    subPool s q ∧ spenderInvariant env q ∧
      removedOnly s q (Relation.TransGen (child env s) tx) := by
  obtain ⟨hsp, hIp, hop⟩ := hJ
  obtain ⟨t, hrt, hq | ⟨hi, ip, h1, hrec⟩⟩ := removeSpender_cases env _ ref _ p i q h
  · rw [hq]; exact ⟨hsp, hIp, hop⟩
  · have hpp := present_of_removedOnly env s p tx hsp hac hp hop
    have et : t = tx := by
      rw [read_of_refersTo env p ref tx hr hpp] at hrt
      exact (Option.some.inj hrt).symm
    subst et
    obtain ⟨c, hc, hpc, hrc, _⟩ := spender_of_entry env p hIp _ ip h1
    obtain ⟨a1, a2, _⟩ := removeRef_sound env n p (.node ip.ptx) c true q hrec hIp hpc hrc
    obtain ⟨b1, _⟩ := removeRef_removed env n p (.node ip.ptx) c true q hrec hIp
      (acyclic_sub env hsp hac) hpc hrc
    have hch : child env s t c := ⟨i, ip, hi, hsp.2 _ _ h1, hsp.1 _ _ hc⟩
    refine ⟨subPool_trans hsp a1, a2, ?_⟩
    intro k t2 hs hq
    cases hpk : p.mapTx.find? k with
    | none => exact hop k t2 hs hpk
    | some t3 =>
      have e : some t3 = some t2 := by rw [← hsp.1 _ _ hpk, hs]
      simp only [Option.some.injEq] at e
      subst e
      exact Relation.TransGen.head' hch
        (Relation.ReflTransGen.mono (fun a c => child_sub env hsp a c) (b1 k t3 hpk hq))

theorem read_defined (env : Env) (hS : staleDefined env) (p : CTxMemPool) (ref : TxRef) :
    ∃ t, ref.read env p = some t := by
  cases ref with
  | object t => exact ⟨t, rfl⟩
  | node k =>
    cases hk : p.mapTx.find? k with
    | some t => exact ⟨t, read_node_live env p k t hk⟩
    | none =>
      obtain ⟨t, ht⟩ := Option.isSome_iff_exists.1 (hS k)
      exact ⟨t, by rw [read_node_dead env p k hk, ht]⟩

/-- Recursive removal returns: on an acyclic graph, from every pool that holds
no more than the given one and keeps the invariant, some fuel suffices when the
reads of erased nodes yield transactions. -/
theorem removeRef_terminates (env : Env) (s0 : CTxMemPool) (hac : acyclic env s0)
    (hS : staleDefined env) :
    ∀ (tx : CTransaction) (s : CTxMemPool) (ref : TxRef), subPool s0 s →
      spenderInvariant env s → present env s tx → refersTo env tx ref →
      ∃ fuel q, removeRef env fuel s ref true = some q := by
  intro tx
  refine (child_wf env s0 hac).induction
    (C := fun tx => ∀ (s : CTxMemPool) (ref : TxRef), subPool s0 s → spenderInvariant env s →
      present env s tx → refersTo env tx ref →
      ∃ fuel q, removeRef env fuel s ref true = some q) tx ?_
  intro tx ih s ref hsub hI hp hr
  have hacs : acyclic env s := acyclic_sub env hsub hac
  have hJ0 : subPool s0 s ∧ subPool s s ∧ spenderInvariant env s ∧
      removedOnly s s (Relation.TransGen (child env s) tx) :=
    ⟨hsub, subPool_refl s, hI, fun k t h1 h2 => by rw [h1] at h2; cases h2⟩
  have hstep : ∀ n p a q, a ∈ List.range (loopBound env s ref) →
      (subPool s0 p ∧ subPool s p ∧ spenderInvariant env p ∧
        removedOnly s p (Relation.TransGen (child env s) tx)) →
      removeSpender env (fun p r => removeRef env n p r true) ref (env.GetHash tx) p a = some q →
      (subPool s0 q ∧ subPool s q ∧ spenderInvariant env q ∧
        removedOnly s q (Relation.TransGen (child env s) tx)) := by
    intro n p a q _ hJ h
    obtain ⟨a1, a2, a3⟩ := removeSpender_live env n s p ref tx a q hacs hp hr hJ.2 h
    exact ⟨subPool_trans hsub a1, a1, a2, a3⟩
  have hloop : ∃ n q, (List.range (loopBound env s ref)).foldlM
      (removeSpender env (fun p r => removeRef env n p r true) ref (env.GetHash tx)) s
        = some q := by
    refine foldlM_exists_fuel
      (fun n => removeSpender env (fun p r => removeRef env n p r true) ref (env.GetHash tx))
      (fun p => subPool s0 p ∧ subPool s p ∧ spenderInvariant env p ∧
        removedOnly s p (Relation.TransGen (child env s) tx)) _ ?_ hstep ?_ s hJ0
    · intro n m p a q hnm h
      exact removeSpender_mono env _ _
        (fun p r q hq => removeRef_mono env n m hnm p r true q hq) ref _ p a q h
    · intro p i _ hJ
      obtain ⟨hs0p, hsp, hIp, hop⟩ := hJ
      have hpp := present_of_removedOnly env s p tx hsp hacs hp hop
      have hrt := read_of_refersTo env p ref tx hr hpp
      by_cases hi : i < tx.vout.length
      · cases h1 : p.mapNextTx.find? ⟨env.GetHash tx, i⟩ with
        | none => exact ⟨0, p, removeSpender_none env _ ref _ p i tx hrt h1⟩
        | some ip =>
          obtain ⟨c, hc, hpc, hrc, _⟩ := spender_of_entry env p hIp _ ip h1
          have hch : child env s0 tx c := ⟨i, ip, hi, hs0p.2 _ _ h1, hs0p.1 _ _ hc⟩
          obtain ⟨n, q, hq⟩ := ih c hch p (.node ip.ptx) hs0p hIp hpc hrc
          refine ⟨n, q, ?_⟩
          show removeSpender env (fun p r => removeRef env n p r true) ref (env.GetHash tx) p i
            = some q
          rw [removeSpender_some env _ ref _ p i tx ip hrt hi h1]
          exact hq
      · exact ⟨0, p, removeSpender_past env _ ref _ p i tx hrt hi⟩
  obtain ⟨n, p1, hl⟩ := hloop
  obtain ⟨_, hsp, _, hop⟩ := foldlM_invariant _ _ _ (hstep n) s p1 hJ0 hl
  have hpp := present_of_removedOnly env s p1 tx hsp hacs hp hop
  obtain ⟨tx2, h2⟩ := read_defined env hS (eraseNode p1 (env.GetHash tx) tx) ref
  refine ⟨n + 1, eraseImages env (eraseNode p1 (env.GetHash tx) tx) tx2, ?_⟩
  rw [removeRef_true env n s ref tx (read_of_refersTo env s ref tx hr hp)
    (present_contains env s tx hp)]
  have hl2 : spenderLoop env (fun p r => removeRef env n p r true) ref (env.GetHash tx) s
      = some p1 := hl
  rw [hl2]
  exact closeRemove_eq env ref _ p1 tx tx2 (read_of_refersTo env p1 ref tx hr hpp) h2

/-- Recursive removal of any transaction object returns on an acyclic graph
that satisfies the invariant, when the reads of erased nodes yield
transactions. -/
theorem remove_terminates_any (env : Env) (pool : CTxMemPool) (tx : CTransaction)
    (hI : spenderInvariant env pool) (hac : acyclic env pool) (hS : staleDefined env) :
    ∃ fuel q, remove env fuel pool tx true = some q := by
  by_cases hc : pool.mapTx.contains (env.GetHash tx) = true
  · have hloop : ∃ n q, (List.range (loopBound env pool (.object tx))).foldlM
        (removeSpender env (fun p r => removeRef env n p r true) (.object tx) (env.GetHash tx))
          pool = some q := by
      refine foldlM_exists_fuel
        (fun n => removeSpender env (fun p r => removeRef env n p r true) (.object tx)
          (env.GetHash tx))
        (fun p => subPool pool p ∧ spenderInvariant env p) _ ?_ ?_ ?_ pool
        ⟨subPool_refl pool, hI⟩
      · intro n m p a q hnm h
        exact removeSpender_mono env _ _
          (fun p r q hq => removeRef_mono env n m hnm p r true q hq) _ _ p a q h
      · intro n p a q _ hJ h
        obtain ⟨a1, a2⟩ := removeSpender_sound env n _ _ p a q hJ.2 h
        exact ⟨subPool_trans hJ.1 a1, a2⟩
      · intro p i _ hJ
        by_cases hi : i < tx.vout.length
        · cases h1 : p.mapNextTx.find? ⟨env.GetHash tx, i⟩ with
          | none => exact ⟨0, p, removeSpender_none env _ (.object tx) _ p i tx rfl h1⟩
          | some ip =>
            obtain ⟨c, _, hpc, hrc, _⟩ := spender_of_entry env p hJ.2 _ ip h1
            obtain ⟨n, q, hq⟩ := removeRef_terminates env pool hac hS c p (.node ip.ptx)
              hJ.1 hJ.2 hpc hrc
            refine ⟨n, q, ?_⟩
            show removeSpender env (fun p r => removeRef env n p r true) (.object tx)
              (env.GetHash tx) p i = some q
            rw [removeSpender_some env _ (.object tx) _ p i tx ip rfl hi h1]
            exact hq
        · exact ⟨0, p, removeSpender_past env _ (.object tx) _ p i tx rfl hi⟩
    obtain ⟨n, p1, hl⟩ := hloop
    refine ⟨n + 1, removeEntry env p1 tx, ?_⟩
    rw [remove_succ_true env n pool tx hc]
    have hl2 : spenderLoop env (fun p r => removeRef env n p r true) (.object tx)
        (env.GetHash tx) pool = some p1 := hl
    rw [hl2]
    rfl
  · have hc1 : pool.mapTx.contains (env.GetHash tx) = false := by simpa using hc
    exact ⟨1, pool, remove_succ_absent env 0 pool tx true hc1⟩

/-! ## The closure of recursive removal -/

theorem uniqueSpenders_sub {p q : CTxMemPool} (h : subPool p q) (hU : uniqueSpenders p) :
    uniqueSpenders q :=
  fun k1 k2 t1 t2 h1 h2 => hU k1 k2 t1 t2 (h.1 _ _ h1) (h.1 _ _ h2)

theorem frameNext_trans {s p q : CTxMemPool} (hsp : subPool s p) (hpq : subPool p q)
    (h1 : frameNext s p) (h2 : frameNext p q) : frameNext s q := by
  intro o ip hs hq
  cases hp : p.mapNextTx.find? o with
  | none => exact subPool_tx_none hpq _ (h1 o ip hs hp)
  | some ip2 =>
    have e : some ip2 = some ip := by rw [← hsp.2 _ _ hp, hs]
    simp only [Option.some.injEq] at e
    subst e
    exact h2 o ip2 hp hq

theorem closedRemoval_trans (env : Env) {s p q : CTxMemPool} (hsp : subPool s p)
    (hpq : subPool p q) (hIs : spenderInvariant env s) (hIp : spenderInvariant env p)
    (hf : frameNext s p) (h1 : closedRemoval env s p) (h2 : closedRemoval env p q) :
    closedRemoval env s q := by
  intro a c ha hch hq
  cases hpa : p.mapTx.find? (env.GetHash a) with
  | none => exact subPool_tx_none hpq _ (h1 a c ha hch hpa)
  | some t =>
    have e : some t = some a := by rw [← hsp.1 _ _ hpa, ha]
    simp only [Option.some.injEq] at e
    subst e
    obtain ⟨i, ip, hi, hn, hc⟩ := hch
    have hcc := (present_of_entry env s hIs _ ip c hn hc).2.1
    cases hpn : p.mapNextTx.find? ⟨env.GetHash t, i⟩ with
    | none =>
      rw [hcc]
      exact subPool_tx_none hpq _ (hf _ ip hn hpn)
    | some ip2 =>
      have e : some ip2 = some ip := by rw [← hsp.2 _ _ hpn, hn]
      simp only [Option.some.injEq] at e
      subst e
      obtain ⟨t2, ht2, _⟩ := hIp _ ip2 hpn
      have e2 : some t2 = some c := by rw [← hsp.1 _ _ ht2, hc]
      simp only [Option.some.injEq] at e2
      subst e2
      exact h2 t t2 hpa ⟨i, ip2, hi, hpn, ht2⟩ hq

/-- With spender uniqueness lines 46 to 48 erase only entries that name the
removed transaction. -/
theorem eraseNode_frame (env : Env) (p : CTxMemPool) (tx : CTransaction)
    (hI : spenderInvariant env p) (hU : uniqueSpenders p) (hp : present env p tx) :
    frameNext p (eraseNode p (env.GetHash tx) tx) := by
  intro o ip ho hq
  simp only [eraseNode] at hq ⊢
  rw [find_eraseInputs] at hq
  by_cases hex : ∃ t ∈ tx.vin, t.prevout = o
  · obtain ⟨t, ht, hto⟩ := hex
    obtain ⟨c, hc, _, txin, hin, hout⟩ := hI o ip ho
    have hk : ip.ptx = env.GetHash tx :=
      hU _ _ c tx hc hp txin (List.getElem?_mem hin) t ht (by rw [hout, hto])
    rw [hk]
    exact SMap.find?_erase_self _ _
  · rw [if_neg hex, ho] at hq
    cases hq

theorem loopBound_ge (env : Env) (p : CTxMemPool) (ref : TxRef) (tx : CTransaction)
    (hr : refersTo env tx ref) (hp : present env p tx) :
    tx.vout.length ≤ loopBound env p ref := by
  cases ref with
  | object t =>
    simp only [refersTo] at hr
    subst hr
    exact le_refl _
  | node k =>
    simp only [refersTo] at hr
    subst hr
    unfold present at hp
    simp only [loopBound, hp]
    exact le_max_left _ _

/-- What a returning recursive removal guarantees under the invariant, spender
uniqueness and acyclicity: entries vanish only with their spender, and the
removed set is closed under the edges. -/
theorem removeRef_closure (env : Env) (fuel : Nat) :
    ∀ (s : CTxMemPool) (ref : TxRef) (tx : CTransaction) (q : CTxMemPool),
      removeRef env fuel s ref true = some q → spenderInvariant env s → uniqueSpenders s →
      acyclic env s → present env s tx → refersTo env tx ref →
      frameNext s q ∧ closedRemoval env s q := by
  induction fuel with
  | zero => intro s ref tx q h; cases h
  | succ n ih =>
    intro s ref tx q h hI hU hac hp hr
    obtain ⟨m, tx0, hm, hread, hcase⟩ := removeRef_cases env (n + 1) s ref true q h
    have e : n = m := by omega
    subst e
    have e0 : tx0 = tx := by
      rw [read_of_refersTo env s ref tx hr hp] at hread
      exact (Option.some.inj hread).symm
    subst e0
    rcases hcase with ⟨hc, _⟩ | ⟨_, p1, hl, hcl⟩
    · rw [present_contains env s tx0 hp] at hc; cases hc
    · simp only [if_true] at hl
      have hstep : ∀ p i q, i ∈ List.range (loopBound env s ref) →
          ((subPool s p ∧ spenderInvariant env p ∧
              removedOnly s p (Relation.TransGen (child env s) tx0)) ∧
            frameNext s p ∧ closedRemoval env s p) →
          removeSpender env (fun p r => removeRef env n p r true) ref (env.GetHash tx0) p i
            = some q →
          ((subPool s q ∧ spenderInvariant env q ∧
              removedOnly s q (Relation.TransGen (child env s) tx0)) ∧
            frameNext s q ∧ closedRemoval env s q) := by
        intro p i q _ hL hrs
        obtain ⟨hJ, hfp, hcp⟩ := hL
        refine ⟨removeSpender_live env n s p ref tx0 i q hac hp hr hJ hrs, ?_⟩
        obtain ⟨hsp, hIp, hop⟩ := hJ
        obtain ⟨t, _, hq | ⟨_, ip, h1, hrec⟩⟩ := removeSpender_cases env _ ref _ p i q hrs
        · rw [hq]; exact ⟨hfp, hcp⟩
        · obtain ⟨c, _, hpc, hrc, _⟩ := spender_of_entry env p hIp _ ip h1
          obtain ⟨hpq, _, _⟩ := removeRef_sound env n p (.node ip.ptx) c true q hrec hIp hpc hrc
          obtain ⟨b1, b2⟩ := ih p (.node ip.ptx) c q hrec hIp (uniqueSpenders_sub hsp hU)
            (acyclic_sub env hsp hac) hpc hrc
          exact ⟨frameNext_trans hsp hpq hfp b1,
            closedRemoval_trans env hsp hpq hI hIp hfp hcp b2⟩
      have hL0 : (subPool s s ∧ spenderInvariant env s ∧
            removedOnly s s (Relation.TransGen (child env s) tx0)) ∧
          frameNext s s ∧ closedRemoval env s s := by
        refine ⟨⟨subPool_refl s, hI, ?_⟩, ?_, ?_⟩
        · intro k t h1 h2; rw [h1] at h2; cases h2
        · intro o ip h1 h2; rw [h1] at h2; cases h2
        · intro a c ha _ h2; rw [ha] at h2; cases h2
      obtain ⟨⟨hsp, hIp, hop⟩, hfp, hcp⟩ := foldlM_invariant _ _ _ hstep s p1 hL0 hl
      have hQ : ∀ i ∈ List.range (loopBound env s ref),
          i < tx0.vout.length → p1.mapNextTx.find? ⟨env.GetHash tx0, i⟩ = none := by
        refine foldlM_post _ _
          (fun i p => i < tx0.vout.length → p.mapNextTx.find? ⟨env.GetHash tx0, i⟩ = none) _
          hstep ?_ ?_ s p1 hL0 hl
        · intro p i q _ hL hrs hi
          obtain ⟨⟨hsp2, hIp2, hop2⟩, _, _⟩ := hL
          have hpp := present_of_removedOnly env s p tx0 hsp2 hac hp hop2
          have hrt := read_of_refersTo env p ref tx0 hr hpp
          cases h1 : p.mapNextTx.find? ⟨env.GetHash tx0, i⟩ with
          | none =>
            rw [removeSpender_none env _ ref _ p i tx0 hrt h1] at hrs
            rw [← Option.some.inj hrs]
            exact h1
          | some ip =>
            rw [removeSpender_some env _ ref _ p i tx0 ip hrt hi h1] at hrs
            obtain ⟨c, _, hpc, hrc, txin, hin, hout⟩ := spender_of_entry env p hIp2 _ ip h1
            obtain ⟨_, he⟩ := removeRef_removed env n p (.node ip.ptx) c true q hrs hIp2
              (acyclic_sub env hsp2 hac) hpc hrc
            rw [← hout]
            exact he txin (List.getElem?_mem hin)
        · intro p i q b _ hL hrs hb hi
          exact subPool_next_none
            (removeSpender_sound env n ref _ p i q hL.1.2.1 hrs).1 _ (hb hi)
      have hp1 := present_of_removedOnly env s p1 tx0 hsp hac hp hop
      obtain ⟨tx1, tx2, r1, _, hq⟩ := closeRemove_cases env ref _ p1 q hcl
      have e1 : tx1 = tx0 := read_live env s p1 ref tx0 tx1 hsp hp hr r1 tx0 hp1
      subst e1
      subst hq
      have hsq := subPool_eraseNode p1 (env.GetHash tx1) tx1
      have hfq : frameNext s (eraseNode p1 (env.GetHash tx1) tx1) :=
        frameNext_trans hsp hsq hfp
          (eraseNode_frame env p1 tx1 hIp (uniqueSpenders_sub hsp hU) hp1)
      refine ⟨hfq, ?_⟩
      intro a c ha hch hq
      have hq1 : (p1.mapTx.erase (env.GetHash tx1)).find? (env.GetHash a) = none := hq
      show (p1.mapTx.erase (env.GetHash tx1)).find? (env.GetHash c) = none
      by_cases hk : env.GetHash a = env.GetHash tx1
      · have e : some a = some tx1 := by rw [← ha, hk, hp]
        simp only [Option.some.injEq] at e
        subst e
        obtain ⟨i, ip, hi, hn, hc⟩ := hch
        rw [(present_of_entry env s hI _ ip c hn hc).2.1]
        exact subPool_tx_none hsq _ (hfp _ ip hn
          (hQ i (List.mem_range.2 (lt_of_lt_of_le hi (loopBound_ge env s ref a hr hp))) hi))
      · have hq2 : p1.mapTx.find? (env.GetHash a) = none := by
          rw [SMap.find?_erase_ne _ (Ne.symm hk)] at hq1
          exact hq1
        exact subPool_tx_none hsq _ (hcp a c ha hch hq2)

/-! ## The decidable checks are sound -/

theorem nextTxInvariant_of_check (env : Env) (pool : CTxMemPool)
    (h : nextTxInvariantB env pool = true) : nextTxInvariant env pool := by
  intro out ip hf
  have hm := SMap.mem_of_find _ _ _ hf
  have he := List.all_eq_true.1 h _ hm
  simp only at he
  cases ht : pool.mapTx.find? ip.ptx with
  | none => rw [ht] at he; cases he
  | some tx =>
    rw [ht] at he
    simp only [decide_eq_true_eq] at he
    refine ⟨tx, rfl, ?_⟩
    cases hi : tx.vin[ip.n]? with
    | none => rw [hi] at he; cases he
    | some txin =>
      rw [hi] at he
      simp only [Option.map_some', Option.some.injEq] at he
      exact ⟨txin, rfl, he⟩

theorem spenderInvariant_of_check (env : Env) (pool : CTxMemPool)
    (h : spenderInvariantB env pool = true) : spenderInvariant env pool := by
  intro out ip hf
  have hm := SMap.mem_of_find _ _ _ hf
  have he := List.all_eq_true.1 h _ hm
  simp only at he
  cases ht : pool.mapTx.find? ip.ptx with
  | none => rw [ht] at he; cases he
  | some tx =>
    rw [ht] at he
    simp only [Bool.and_eq_true, decide_eq_true_eq] at he
    obtain ⟨h1, h2⟩ := he
    refine ⟨tx, rfl, h1, ?_⟩
    cases hi : tx.vin[ip.n]? with
    | none => rw [hi] at h2; cases h2
    | some txin =>
      rw [hi] at h2
      simp only [Option.map_some', Option.some.injEq] at h2
      exact ⟨txin, rfl, h2⟩

theorem uniqueSpenders_of_check (pool : CTxMemPool) (h : uniqueSpendersB pool = true) :
    uniqueSpenders pool := by
  intro k1 k2 t1 t2 h1 h2 i1 hi1 i2 hi2 hpo
  have a1 := List.all_eq_true.1 h _ (SMap.mem_of_find _ _ _ h1)
  have a2 := List.all_eq_true.1 a1 _ (SMap.mem_of_find _ _ _ h2)
  have a3 := List.all_eq_true.1 a2 _ hi1
  have a4 := List.all_eq_true.1 a3 _ hi2
  simp only [Bool.or_eq_true, decide_eq_true_eq] at a4
  rcases a4 with a5 | a5
  · exact absurd hpo a5
  · exact a5

theorem hash_lt_of_descendant (env : Env) (pool : CTxMemPool) (hI : spenderInvariant env pool)
    (h : ascendingB pool = true) (a b : CTransaction) (hd : descendant env pool a b) :
    env.GetHash a < env.GetHash b := by
  have hstep : ∀ a b, child env pool a b → env.GetHash a < env.GetHash b := by
    rintro a b ⟨i, ip, _, hn, hc⟩
    have he := List.all_eq_true.1 h _ (SMap.mem_of_find _ _ _ hn)
    simp only [decide_eq_true_eq] at he
    rw [(present_of_entry env pool hI _ ip b hn hc).2.1]
    exact he
  induction hd with
  | single h1 => exact hstep _ _ h1
  | tail _ h2 ih => exact lt_trans ih (hstep _ _ h2)

theorem acyclic_of_check (env : Env) (pool : CTxMemPool) (hI : spenderInvariant env pool)
    (h : ascendingB pool = true) : acyclic env pool :=
  fun tx hd => lt_irrefl _ (hash_lt_of_descendant env pool hI h tx tx hd)

/-- The check on the hashes of the recorded spenders gives acyclicity on its
own, also where a spender is stored under another key than its hash. -/
theorem acyclic_of_hashes (env : Env) (pool : CTxMemPool)
    (h : ascendingHashB env pool = true) : acyclic env pool := by
  have hstep : ∀ a b, child env pool a b → env.GetHash a < env.GetHash b := by
    rintro a b ⟨i, ip, _, hn, hc⟩
    have he := List.all_eq_true.1 h _ (SMap.mem_of_find _ _ _ hn)
    simp only [hc, decide_eq_true_eq] at he
    exact he
  have hlt : ∀ a b, descendant env pool a b → env.GetHash a < env.GetHash b := by
    intro a b hd
    induction hd with
    | single h1 => exact hstep _ _ h1
    | tail _ h2 ih => exact lt_trans ih (hstep _ _ h2)
  exact fun tx hd => lt_irrefl _ (hlt tx tx hd)

theorem present_of_descendant (env : Env) (pool : CTxMemPool) (hI : spenderInvariant env pool)
    (a b : CTransaction) (hd : descendant env pool a b) : present env pool b := by
  have hstep : ∀ a b, child env pool a b → present env pool b := by
    rintro a b ⟨i, ip, _, hn, hc⟩
    exact (present_of_entry env pool hI _ ip b hn hc).1
  cases hd with
  | single h1 => exact hstep _ _ h1
  | tail _ h2 => exact hstep _ _ h2

/-! ## Claims on the core operations -/

/-- C1, counterexample: `addUnchecked(4, txTwice)` on the empty pool, where both
inputs of `txTwice` spend `(9, 0)`, leaves `mapNextTx[(9, 0)]` at the in-point
`(4, 1)` of the second input, not at `(4, 0)` as claimed for input 0. -/
theorem addUnchecked_repeated_prevout :
    (txTwice.vin[0]?).map CTxIn.prevout = some ⟨9, 0⟩ ∧
      (addUnchecked CTxMemPool.init 4 txTwice).2.mapNextTx.find? ⟨9, 0⟩ = some ⟨4, 1⟩ ∧
      (addUnchecked CTxMemPool.init 4 txTwice).2.mapNextTx.find? ⟨9, 0⟩ ≠ some ⟨4, 0⟩ := by
  decide

/-- C1, amended: `addUnchecked(h, tx)` returns `true`, leaves `mapTx[h] = tx`,
and for every input `i` of `tx` leaves `mapNextTx[tx.vin[i].prevout]` at the
in-point `(h, j)` of the last input `j ≥ i` of `tx` with that prevout, which is
`(h, i)` when no later input repeats the prevout. -/
theorem addUnchecked_records (pool : CTxMemPool) (h : uint256) (tx : CTransaction) (i : Nat)
    (txin : CTxIn) (hi : tx.vin[i]? = some txin) :
    (addUnchecked pool h tx).1 = true ∧
      (addUnchecked pool h tx).2.mapTx.find? h = some tx ∧
      ∃ j, i ≤ j ∧ (tx.vin[j]?).map CTxIn.prevout = some txin.prevout ∧
        (∀ j2 t2, j < j2 → tx.vin[j2]? = some t2 → t2.prevout ≠ txin.prevout) ∧
        (addUnchecked pool h tx).2.mapNextTx.find? txin.prevout = some ⟨h, j⟩ := by
  refine ⟨rfl, SMap.find?_assign_self _ _ _, ?_⟩
  obtain ⟨l1, t, l2, hl, hto, hl2⟩ :=
    exists_last_prevout tx.vin txin.prevout ⟨txin, List.getElem?_mem hi, rfl⟩
  have hlast : ∀ j2 t2, l1.length < j2 → tx.vin[j2]? = some t2 → t2.prevout ≠ txin.prevout := by
    intro j2 t2 hj h2
    rw [hl] at h2
    rw [List.getElem?_append_right (le_of_lt hj)] at h2
    obtain ⟨d, hd⟩ : ∃ d, j2 - l1.length = d + 1 := ⟨j2 - l1.length - 1, by omega⟩
    rw [hd, List.getElem?_cons_succ] at h2
    exact hl2 t2 (List.getElem?_mem h2)
  refine ⟨l1.length, ?_, ?_, hlast, ?_⟩
  · by_contra hlt
    exact hlast i txin (not_le.1 hlt) hi rfl
  · rw [hl, List.getElem?_append_right (le_refl _)]
    simp [hto]
  · have e := find_recordInputs_last h l1 l2 t 0 pool.mapNextTx (by rw [hto]; exact hl2)
    rw [← hl, hto, Nat.zero_add] at e
    exact e

/-- C1, witness: input 0 of `A`, added under hash 1 to the empty pool. -/
theorem addUnchecked_records_witness :
    (addUnchecked CTxMemPool.init 1 txA).1 = true ∧
      (addUnchecked CTxMemPool.init 1 txA).2.mapTx.find? 1 = some txA ∧
      ∃ j, 0 ≤ j ∧ (txA.vin[j]?).map CTxIn.prevout = some ⟨0, 0⟩ ∧
        (∀ j2 t2, j < j2 → txA.vin[j2]? = some t2 → t2.prevout ≠ ⟨0, 0⟩) ∧
        (addUnchecked CTxMemPool.init 1 txA).2.mapNextTx.find? ⟨0, 0⟩ = some ⟨1, j⟩ :=
  addUnchecked_records CTxMemPool.init 1 txA 0 ⟨⟨0, 0⟩, [], 0⟩ (by decide)

/-- C2, counterexample: in `poolADC` the invariant holds, every recorded spender
is stored under its own hash, the graph is acyclic, `A` is in the pool and `C` is
a descendant of `A`; yet `remove(A, true)` returns with `C` still in `mapTx`:
removing `D` erased the entry of output 1 of `A`, which named `C`.  In `poolPA`
the invariant and spender uniqueness hold, the graph is acyclic and `P` is in
the pool; its spender is stored under the key 7 while its hash is 8, so the
recursive call finds no node under the hash and `remove(P, true)` returns with
the spender still in `mapTx`. -/
theorem remove_recursive_leaves_descendant :
    (nextTxInvariant sampleEnv poolADC ∧ spenderUnderOwnHash sampleEnv poolADC ∧
      acyclic sampleEnv poolADC ∧
      present sampleEnv poolADC txA ∧ descendant sampleEnv poolADC txA txC ∧
      (remove sampleEnv 2 poolADC txA true).map (fun q => q.mapTx.find? 3)
        = some (some txC)) ∧
    (nextTxInvariant sampleEnv poolPA ∧ uniqueSpenders poolPA ∧ acyclic sampleEnv poolPA ∧
      present sampleEnv poolPA txP ∧ descendant sampleEnv poolPA txP txChild ∧
      (remove sampleEnv 2 poolPA txP true).map (fun q => q.mapTx.find? 7)
        = some (some txChild)) := by
  have hS : spenderInvariant sampleEnv poolADC := spenderInvariant_of_check _ _ (by decide)
  refine ⟨⟨((spenderInvariant_iff _ _).1 hS).1, ((spenderInvariant_iff _ _).1 hS).2,
      acyclic_of_check _ _ hS (by decide), by decide, ?_, by decide⟩,
    ⟨nextTxInvariant_of_check _ _ (by decide), uniqueSpenders_of_check _ (by decide),
      acyclic_of_hashes _ _ (by decide), by decide, ?_, by decide⟩⟩
  · exact Relation.TransGen.single ⟨1, ⟨3, 0⟩, by decide, by decide, by decide⟩
  · exact Relation.TransGen.single ⟨0, ⟨7, 0⟩, by decide, by decide, by decide⟩

/-- C2, amended: on a pool that satisfies the outpoint→spender invariant, where
every recorded spender is stored under its own hash, that satisfies spender
uniqueness and whose spender graph is acyclic, `remove(tx, true)` of a
transaction of the pool, handed as an object of the caller or as its node of
`mapTx`, returns when the reads of erased nodes yield transactions, and when it
has returned `mapTx` has nothing under the hash of `tx`, nothing under the hash
of a descendant of `tx`, and no descendant of `tx` under any key. -/
theorem remove_recursive_closure (env : Env) (pool : CTxMemPool) (tx : CTransaction)
    (ref : TxRef) (hI : nextTxInvariant env pool) (hO : spenderUnderOwnHash env pool)
    (hU : uniqueSpenders pool) (hac : acyclic env pool) (hp : present env pool tx)
    (hr : refersTo env tx ref) :
    (staleDefined env → ∃ fuel q, removeRef env fuel pool ref true = some q) ∧
      ∀ fuel q, removeRef env fuel pool ref true = some q →
        q.mapTx.find? (env.GetHash tx) = none ∧
        ∀ d, descendant env pool tx d →
          q.mapTx.find? (env.GetHash d) = none ∧ ∀ k, q.mapTx.find? k ≠ some d := by
  have hS : spenderInvariant env pool := (spenderInvariant_iff env pool).2 ⟨hI, hO⟩
  refine ⟨fun hd => removeRef_terminates env pool hac hd tx pool ref (subPool_refl pool) hS
    hp hr, ?_⟩
  intro fuel q h
  obtain ⟨hsub, _, hgone⟩ := removeRef_sound env fuel pool ref tx true q h hS hp hr
  obtain ⟨_, hcl⟩ := removeRef_closure env fuel pool ref tx q h hS hU hac hp hr
  refine ⟨hgone, ?_⟩
  intro d hd
  have hdg : q.mapTx.find? (env.GetHash d) = none := by
    induction hd with
    | single h1 => exact hcl tx _ hp h1 hgone
    | tail h1 h2 ih => exact hcl _ _ (present_of_descendant env pool hS tx _ h1) h2 ih
  refine ⟨hdg, ?_⟩
  intro k hk
  have hpd := present_of_descendant env pool hS tx d hd
  have hin : ∃ txin, txin ∈ d.vin := by
    have hlast : ∃ x, child env pool x d := by
      cases hd with
      | single h1 => exact ⟨_, h1⟩
      | tail _ h2 => exact ⟨_, h2⟩
    obtain ⟨x, i, ip, _, hn, hc⟩ := hlast
    obtain ⟨_, _, txin, hti, _⟩ := present_of_entry env pool hS _ ip d hn hc
    exact ⟨txin, List.getElem?_mem hti⟩
  obtain ⟨txin, hti⟩ := hin
  have e : k = env.GetHash d := hU k _ d d (hsub.1 _ _ hk) hpd txin hti txin hti rfl
  rw [e, hdg] at hk
  cases hk

/-- C2, witness: removing `A`, an object of the caller, from `poolAB`, where `B`
spends output 0 of `A`, in an environment where an erased node reads as an empty
transaction. -/
theorem remove_recursive_closure_witness :
    staleDefined sampleEnv ∧
      (staleDefined sampleEnv → ∃ fuel q, remove sampleEnv fuel poolAB txA true = some q) ∧
      ∀ fuel q, remove sampleEnv fuel poolAB txA true = some q →
        q.mapTx.find? (sampleEnv.GetHash txA) = none ∧
        ∀ d, descendant sampleEnv poolAB txA d →
          q.mapTx.find? (sampleEnv.GetHash d) = none ∧ ∀ k, q.mapTx.find? k ≠ some d :=
  ⟨fun _ => rfl,
    remove_recursive_closure sampleEnv poolAB txA (.object txA)
      ((spenderInvariant_iff _ _).1 (spenderInvariant_of_check _ _ (by decide))).1
      ((spenderInvariant_iff _ _).1 (spenderInvariant_of_check _ _ (by decide))).2
      (uniqueSpenders_of_check _ (by decide))
      (acyclic_of_check _ _ (spenderInvariant_of_check _ _ (by decide)) (by decide))
      (by decide) rfl⟩

/-- C3: `remove(tx, false)` of a transaction stored under its own hash returns a
pool whose `mapTx` no longer has the hash of `tx` and has every other key with
the transaction it had before, spenders of outputs of `tx` included. -/
theorem remove_plain_mapTx (env : Env) (fuel : Nat) (pool : CTxMemPool) (tx : CTransaction)
    (hp : present env pool tx) :
    ∃ q, remove env (fuel + 1) pool tx false = some q ∧
      q.mapTx.find? (env.GetHash tx) = none ∧
      (∀ k, k ≠ env.GetHash tx → q.mapTx.find? k = pool.mapTx.find? k) ∧
      q.mapTx = pool.mapTx.erase (env.GetHash tx) := by
  refine ⟨removeEntry env pool tx,
    remove_succ_false env fuel pool tx (present_contains env pool tx hp), ?_, ?_, rfl⟩
  · exact SMap.find?_erase_self _ _
  · intro k hk
    exact SMap.find?_erase_ne _ (Ne.symm hk)

/-- C3, witness: removing `A` from `poolAB` keeps `B`, which spends output 0 of `A`. -/
theorem remove_plain_mapTx_witness :
    ∃ q, remove sampleEnv (0 + 1) poolAB txA false = some q ∧
      q.mapTx.find? (sampleEnv.GetHash txA) = none ∧
      (∀ k, k ≠ sampleEnv.GetHash txA → q.mapTx.find? k = poolAB.mapTx.find? k) ∧
      q.mapTx = poolAB.mapTx.erase (sampleEnv.GetHash txA) :=
  remove_plain_mapTx sampleEnv 0 poolAB txA (by decide)

/-- C4, counterexample: in `poolADC` the entry of `(1, 1)` names `C`, stored
under hash 3 and different from `D`; `remove(D, false)` erases that entry,
because `(1, 1)` is also the prevout of an input of `D`. -/
theorem remove_plain_erases_other_spender :
    present sampleEnv poolADC txD ∧
      poolADC.mapNextTx.find? ⟨1, 1⟩ = some ⟨3, 0⟩ ∧
      poolADC.mapTx.find? 3 = some txC ∧ txC ≠ txD ∧
      (remove sampleEnv 1 poolADC txD false).map (fun q => q.mapNextTx.find? ⟨1, 1⟩)
        = some none := by
  decide

/-- C4, amended: on a pool that satisfies the outpoint→spender invariant and
spender uniqueness, `remove(tx, false)` of a transaction of the pool keeps every
entry of `mapNextTx` whose recorded spender is not `tx`, with its in-point. -/
theorem remove_plain_frame (env : Env) (fuel : Nat) (pool : CTxMemPool) (tx : CTransaction)
    (hI : nextTxInvariant env pool) (hU : uniqueSpenders pool) (hp : present env pool tx) :
    ∃ q, remove env (fuel + 1) pool tx false = some q ∧
      ∀ out ip, pool.mapNextTx.find? out = some ip → pool.mapTx.find? ip.ptx ≠ some tx →
        q.mapNextTx.find? out = some ip := by
  refine ⟨removeEntry env pool tx,
    remove_succ_false env fuel pool tx (present_contains env pool tx hp), ?_⟩
  intro out ip ho hne
  cases hq : (removeEntry env pool tx).mapNextTx.find? out with
  | none =>
    exfalso
    have hk : ip.ptx = env.GetHash tx := by
      simp only [removeEntry] at hq
      rw [find_eraseInputs] at hq
      by_cases hex : ∃ t ∈ tx.vin, t.prevout = out
      · obtain ⟨t, ht, hto⟩ := hex
        obtain ⟨c, hc, txin, hin, hout⟩ := hI out ip ho
        exact hU _ _ c tx hc hp txin (List.getElem?_mem hin) t ht (by rw [hout, hto])
      · rw [if_neg hex, ho] at hq
        cases hq
    rw [hk] at hne
    exact hne hp
  | some ip2 =>
    rw [← (subPool_removeEntry env pool tx).2 _ _ hq, ho]

/-- C4, witness: removing `B` from `poolAB` keeps the entry that names `A`. -/
theorem remove_plain_frame_witness :
    ∃ q, remove sampleEnv (0 + 1) poolAB txB false = some q ∧
      ∀ out ip, poolAB.mapNextTx.find? out = some ip → poolAB.mapTx.find? ip.ptx ≠ some txB →
        q.mapNextTx.find? out = some ip :=
  remove_plain_frame sampleEnv 0 poolAB txB
    (nextTxInvariant_of_check _ _ (by decide)) (uniqueSpenders_of_check _ (by decide))
    (by decide)

theorem removeConflict_invariant (env : Env) (n : Nat) (tx : CTransaction) (p : CTxMemPool)
    (txin : CTxIn) (q : CTxMemPool) (hI : spenderInvariant env p)
    (h : removeConflict env n tx p txin = some q) :
    subPool p q ∧ spenderInvariant env q := by
  cases h1 : p.mapNextTx.find? txin.prevout with
  | none =>
    rw [removeConflict_none _ _ _ _ _ h1] at h
    rw [← Option.some.inj h]
    exact ⟨subPool_refl p, hI⟩
  | some ip =>
    obtain ⟨c, hc, hpc, hrc, _⟩ := spender_of_entry env p hI _ ip h1
    rw [removeConflict_some _ _ _ _ _ _ c h1 (read_node_live env p _ c hc)] at h
    by_cases hne : c ≠ tx
    · rw [if_pos hne] at h
      obtain ⟨a1, a2, _⟩ := removeRef_sound env n p (.node ip.ptx) c true q h hI hpc hrc
      exact ⟨a1, a2⟩
    · rw [if_neg hne] at h
      rw [← Option.some.inj h]
      exact ⟨subPool_refl p, hI⟩

theorem removeConflict_sound (env : Env) (n : Nat) (tx : CTransaction) (p : CTxMemPool)
    (txin : CTxIn) (q : CTxMemPool) (hI : spenderInvariant env p) (hac : acyclic env p)
    (h : removeConflict env n tx p txin = some q) :
    subPool p q ∧ spenderInvariant env q ∧
      ∀ ip, q.mapNextTx.find? txin.prevout = some ip → q.mapTx.find? ip.ptx = some tx := by
  obtain ⟨hs, hq⟩ := removeConflict_invariant env n tx p txin q hI h
  refine ⟨hs, hq, ?_⟩
  cases h1 : p.mapNextTx.find? txin.prevout with
  | none =>
    rw [removeConflict_none _ _ _ _ _ h1] at h
    rw [← Option.some.inj h]
    intro ip hip
    rw [h1] at hip; cases hip
  | some ip =>
    obtain ⟨c, hc, hpc, hrc, ci, hci, hout⟩ := spender_of_entry env p hI _ ip h1
    rw [removeConflict_some _ _ _ _ _ _ c h1 (read_node_live env p _ c hc)] at h
    by_cases hne : c ≠ tx
    · rw [if_pos hne] at h
      obtain ⟨_, a4⟩ := removeRef_removed env n p (.node ip.ptx) c true q h hI hac hpc hrc
      intro ip2 hip2
      rw [← hout, a4 ci (List.getElem?_mem hci)] at hip2
      cases hip2
    · rw [if_neg hne] at h
      rw [← Option.some.inj h]
      intro ip2 hip2
      rw [h1] at hip2
      simp only [Option.some.injEq] at hip2
      subst hip2
      rw [hc, not_not.1 hne]

/-- The loop of `removeConflicts` returns on an acyclic graph that satisfies the
invariant, when the reads of erased nodes yield transactions. -/
theorem removeConflicts_returns (env : Env) (pool : CTxMemPool) (tx : CTransaction)
    (hI : spenderInvariant env pool) (hac : acyclic env pool) (hS : staleDefined env) :
    ∃ fuel q, removeConflicts env fuel pool tx = some q := by
  refine foldlM_exists_fuel (fun n => removeConflict env n tx)
    (fun p => subPool pool p ∧ spenderInvariant env p) _ ?_ ?_ ?_ pool ⟨subPool_refl pool, hI⟩
  · intro n m p a q hnm h
    exact removeConflict_mono env n m hnm tx p a q h
  · intro n p a q _ hJ h
    obtain ⟨a1, a2⟩ := removeConflict_invariant env n tx p a q hJ.2 h
    exact ⟨subPool_trans hJ.1 a1, a2⟩
  · intro p txin _ hJ
    cases h1 : p.mapNextTx.find? txin.prevout with
    | none => exact ⟨0, p, removeConflict_none _ _ _ _ _ h1⟩
    | some ip =>
      obtain ⟨c, hc, hpc, hrc, _⟩ := spender_of_entry env p hJ.2 _ ip h1
      by_cases hne : c ≠ tx
      · obtain ⟨n, q, hq⟩ := removeRef_terminates env pool hac hS c p (.node ip.ptx)
          hJ.1 hJ.2 hpc hrc
        refine ⟨n, q, ?_⟩
        show removeConflict env n tx p txin = some q
        rw [removeConflict_some _ _ _ _ _ _ c h1 (read_node_live env p _ c hc), if_pos hne]
        exact hq
      · refine ⟨0, p, ?_⟩
        show removeConflict env 0 tx p txin = some p
        rw [removeConflict_some _ _ _ _ _ _ c h1 (read_node_live env p _ c hc), if_neg hne]

/-- What a returning `removeConflicts` guarantees on an acyclic graph that
satisfies the invariant. -/
theorem removeConflicts_sound (env : Env) (fuel : Nat) (pool : CTxMemPool) (tx : CTransaction)
    (q : CTxMemPool) (hI : spenderInvariant env pool) (hac : acyclic env pool)
    (h : removeConflicts env fuel pool tx = some q) :
    (∀ txin ∈ tx.vin, ∀ ip, q.mapNextTx.find? txin.prevout = some ip →
        q.mapTx.find? ip.ptx = some tx) ∧
      (∀ k t, q.mapTx.find? k = some t → pool.mapTx.find? k = some t) := by
  have hstep : ∀ p a q, a ∈ tx.vin → (subPool pool p ∧ spenderInvariant env p) →
      removeConflict env fuel tx p a = some q → (subPool pool q ∧ spenderInvariant env q) := by
    intro p a q _ hJ hr
    obtain ⟨a1, a2⟩ := removeConflict_invariant env fuel tx p a q hJ.2 hr
    exact ⟨subPool_trans hJ.1 a1, a2⟩
  have hJ := foldlM_invariant _ _ _ hstep pool q ⟨subPool_refl pool, hI⟩ h
  refine ⟨?_, hJ.1.1⟩
  refine foldlM_post _ _
    (fun txin p => ∀ ip, p.mapNextTx.find? txin.prevout = some ip →
      p.mapTx.find? ip.ptx = some tx) _ hstep ?_ ?_ pool q ⟨subPool_refl pool, hI⟩ h
  · intro p a q _ hJ hr
    exact (removeConflict_sound env fuel tx p a q hJ.2 (acyclic_sub env hJ.1 hac) hr).2.2
  · intro p a q b _ hJ hr hb ip hip
    obtain ⟨a1, a2⟩ := removeConflict_invariant env fuel tx p a q hJ.2 hr
    obtain ⟨t, ht, _⟩ := a2 _ ip hip
    rw [ht, ← hb ip (a1.2 _ _ hip), a1.1 _ _ ht]

/-- C5, counterexample: `poolForeign` satisfies the invariant and its graph is
acyclic; the entry of `(0, 0)` names the node of key 7, which holds `A`, whose
hash is 1.  For the transaction of hash 2, which spends `(0, 0)` and differs
from `A`, `removeConflicts` calls `remove` on that node, which finds nothing
under the hash 1 and removes nothing: the entry of `(0, 0)` still names `A`. -/
theorem removeConflicts_keeps_foreign_spender :
    nextTxInvariant sampleEnv poolForeign ∧ acyclic sampleEnv poolForeign ∧
      poolForeign.mapNextTx.find? ⟨0, 0⟩ = some ⟨7, 0⟩ ∧
      poolForeign.mapTx.find? 7 = some txA ∧ txA ≠ txRival ∧
      (∃ txin ∈ txRival.vin, txin.prevout = ⟨0, 0⟩) ∧
      (removeConflicts sampleEnv 2 poolForeign txRival).map
          (fun q => (q.mapNextTx.find? ⟨0, 0⟩, q.mapTx.find? 7))
        = some (some ⟨7, 0⟩, some txA) :=
  ⟨nextTxInvariant_of_check _ _ (by decide), acyclic_of_hashes _ _ (by decide), by decide,
    by decide, by decide, by decide, by decide⟩

/-- C5, amended: on a pool that satisfies the outpoint→spender invariant, where
every recorded spender is stored under its own hash, and whose spender graph is
acyclic, `removeConflicts(tx)` returns when the reads of erased nodes yield
transactions, and when it has returned every entry of `mapNextTx` under an input
prevout of `tx` names `tx` itself, and `mapTx` is a sub-map of what it was. -/
theorem removeConflicts_spec (env : Env) (pool : CTxMemPool) (tx : CTransaction)
    (hI : nextTxInvariant env pool) (hO : spenderUnderOwnHash env pool)
    (hac : acyclic env pool) :
    (staleDefined env → ∃ fuel q, removeConflicts env fuel pool tx = some q) ∧
      ∀ fuel q, removeConflicts env fuel pool tx = some q →
        (∀ txin ∈ tx.vin, ∀ ip, q.mapNextTx.find? txin.prevout = some ip →
          q.mapTx.find? ip.ptx = some tx) ∧
        (∀ k t, q.mapTx.find? k = some t → pool.mapTx.find? k = some t) :=
  ⟨fun hS => removeConflicts_returns env pool tx ((spenderInvariant_iff env pool).2 ⟨hI, hO⟩)
      hac hS,
    fun fuel q h => removeConflicts_sound env fuel pool tx q
      ((spenderInvariant_iff env pool).2 ⟨hI, hO⟩) hac h⟩

/-- C5, witness: `D` arrives in a block while `poolAB` holds `B`, which spends
output 0 of `A` as `D` does. -/
theorem removeConflicts_spec_witness :
    (staleDefined sampleEnv → ∃ fuel q, removeConflicts sampleEnv fuel poolAB txD = some q) ∧
      ∀ fuel q, removeConflicts sampleEnv fuel poolAB txD = some q →
        (∀ txin ∈ txD.vin, ∀ ip, q.mapNextTx.find? txin.prevout = some ip →
          q.mapTx.find? ip.ptx = some txD) ∧
        (∀ k t, q.mapTx.find? k = some t → poolAB.mapTx.find? k = some t) :=
  removeConflicts_spec sampleEnv poolAB txD
    ((spenderInvariant_iff _ _).1 (spenderInvariant_of_check _ _ (by decide))).1
    ((spenderInvariant_iff _ _).1 (spenderInvariant_of_check _ _ (by decide))).2
    (acyclic_of_check _ _ (spenderInvariant_of_check _ _ (by decide)) (by decide))

/-- C6, counterexample: `poolIndexed` holds one address-index entry and one
rollback list; after `clear()` both are still there. -/
theorem clear_keeps_address_index :
    (clear poolIndexed).mapAddress.size = 1 ∧ (clear poolIndexed).mapAddressInserted.size = 1 := by
  decide

/-- C6, amended: after `clear()` the transaction map, the outpoint→spender map
and the key-image map are empty; the address-delta map, the spent-index map and
both rollback lists are as they were before the call. -/
theorem clear_spec (pool : CTxMemPool) :
    (clear pool).mapTx = SMap.empty ∧ (clear pool).mapNextTx = SMap.empty ∧
      (clear pool).mapKeyImage = SMap.empty ∧
      (clear pool).mapAddress = pool.mapAddress ∧
      (clear pool).mapAddressInserted = pool.mapAddressInserted ∧
      (clear pool).mapSpent = pool.mapSpent ∧
      (clear pool).mapSpentInserted = pool.mapSpentInserted ∧
      size (clear pool) = 0 :=
  ⟨rfl, rfl, rfl, rfl, rfl, rfl, rfl, rfl⟩

/-! ## The counter -/

theorem mod_shift_add (c k1 k2 : Nat) :
    ((c + k1) % 2 ^ 32 + k2) % 2 ^ 32 = (c + (k1 + k2)) % 2 ^ 32 := by
  rw [Nat.mod_add_mod, Nat.add_assoc]

/-- A loop whose rounds each add a fixed amount to the counter, whatever the
counter is, adds a fixed amount itself. -/
theorem foldlM_shift {α : Type} (f : CTxMemPool → α → Option CTxMemPool) (l : List α)
    (hstep : ∀ p a q, f p a = some q →
      ∃ k, ∀ c, c < 2 ^ 32 → f (withCounter p c) a = some (withCounter q ((c + k) % 2 ^ 32))) :
    ∀ p q, l.foldlM f p = some q →
      ∃ k, ∀ c, c < 2 ^ 32 →
        l.foldlM f (withCounter p c) = some (withCounter q ((c + k) % 2 ^ 32)) := by
  induction l with
  | nil =>
    intro p q h
    simp only [List.foldlM_nil] at h
    cases h
    refine ⟨0, fun c hc => ?_⟩
    rw [Nat.add_zero, Nat.mod_eq_of_lt hc]
    rfl
  | cons a r ih =>
    intro p q h
    rw [foldlM_option_cons] at h
    cases hfa : f p a with
    | none => rw [hfa] at h; cases h
    | some p1 =>
      rw [hfa] at h
      obtain ⟨k1, h1⟩ := hstep p a p1 hfa
      obtain ⟨k2, h2⟩ := ih p1 q h
      refine ⟨k1 + k2, fun c hc => ?_⟩
      rw [foldlM_option_cons, h1 c hc]
      have e := h2 ((c + k1) % 2 ^ 32) (Nat.mod_lt _ (by norm_num))
      rw [mod_shift_add] at e
      exact e

theorem removeEntry_withCounter (env : Env) (p : CTxMemPool) (tx : CTransaction) (c : Nat) :
    removeEntry env (withCounter p c) tx = withCounter (removeEntry env p tx) ((c + 1) % 2 ^ 32) :=
  rfl

theorem read_withCounter (env : Env) (p : CTxMemPool) (ref : TxRef) (c : Nat) :
    ref.read env (withCounter p c) = ref.read env p :=
  read_congr env _ _ ref rfl

theorem closeRemove_withCounter (env : Env) (ref : TxRef) (hash : uint256) (p q : CTxMemPool)
    (c : Nat) (h : closeRemove env ref hash p = some q) :
    closeRemove env ref hash (withCounter p c) = some (withCounter q ((c + 1) % 2 ^ 32)) := by
  obtain ⟨tx1, tx2, r1, r2, hq⟩ := closeRemove_cases env ref hash p q h
  subst hq
  have r1c : ref.read env (withCounter p c) = some tx1 := by
    rw [read_withCounter]; exact r1
  have r2c : ref.read env (eraseNode (withCounter p c) hash tx1) = some tx2 := by
    rw [← r2]
    exact read_congr env _ _ ref rfl
  rw [closeRemove_eq env ref hash (withCounter p c) tx1 tx2 r1c r2c]
  rfl

/-- The run of `remove` does not read the counter: started from another
counter it makes the same removals and adds the same amount modulo `2 ^ 32`. -/
theorem removeRef_shift (env : Env) (fuel : Nat) :
    ∀ (pool : CTxMemPool) (ref : TxRef) (b : Bool) (q : CTxMemPool),
      removeRef env fuel pool ref b = some q →
      ∃ k, ∀ c, c < 2 ^ 32 →
        removeRef env fuel (withCounter pool c) ref b
          = some (withCounter q ((c + k) % 2 ^ 32)) := by
  induction fuel with
  | zero => intro pool ref b q h; cases h
  | succ n ih =>
    intro pool ref b q h
    obtain ⟨m, tx, hm, hread, hcase⟩ := removeRef_cases env (n + 1) pool ref b q h
    have e : n = m := by omega
    subst e
    have hreadc : ∀ c, ref.read env (withCounter pool c) = some tx := fun c => by
      rw [read_withCounter]; exact hread
    rcases hcase with ⟨hc, hq⟩ | ⟨hc, p1, hl, hcl⟩
    · subst hq
      refine ⟨0, fun c hcc => ?_⟩
      rw [removeRef_absent env n (withCounter q c) ref b tx (hreadc c) hc, Nat.add_zero,
        Nat.mod_eq_of_lt hcc]
    · cases b with
      | false =>
        simp only [Bool.false_eq_true, if_false, Option.some.injEq] at hl
        subst hl
        refine ⟨1, fun c _ => ?_⟩
        rw [removeRef_false env n (withCounter pool c) ref tx (hreadc c) hc]
        exact closeRemove_withCounter env ref _ pool q c hcl
      | true =>
        simp only [if_true] at hl
        obtain ⟨k, hk⟩ := foldlM_shift _ _ (fun p i r hrs => by
          cases hr : ref.read env p with
          | none => rw [removeSpender_undefined env _ ref _ p i hr] at hrs; cases hrs
          | some t =>
            have hrc : ∀ c, ref.read env (withCounter p c) = some t := fun c => by
              rw [read_withCounter]; exact hr
            by_cases hi : i < t.vout.length
            · cases h1 : p.mapNextTx.find? ⟨env.GetHash tx, i⟩ with
              | none =>
                rw [removeSpender_none env _ ref _ p i t hr h1] at hrs
                rw [← Option.some.inj hrs]
                refine ⟨0, fun c hc => ?_⟩
                rw [removeSpender_none env _ ref _ (withCounter p c) i t (hrc c) h1,
                  Nat.add_zero, Nat.mod_eq_of_lt hc]
              | some ip =>
                rw [removeSpender_some env _ ref _ p i t ip hr hi h1] at hrs
                obtain ⟨k, hk⟩ := ih p (.node ip.ptx) true r hrs
                refine ⟨k, fun c hc => ?_⟩
                rw [removeSpender_some env _ ref _ (withCounter p c) i t ip (hrc c) hi h1]
                exact hk c hc
            · rw [removeSpender_past env _ ref _ p i t hr hi] at hrs
              rw [← Option.some.inj hrs]
              refine ⟨0, fun c hc => ?_⟩
              rw [removeSpender_past env _ ref _ (withCounter p c) i t (hrc c) hi,
                Nat.add_zero, Nat.mod_eq_of_lt hc]) pool p1 hl
        refine ⟨k + 1, fun c hcc => ?_⟩
        rw [removeRef_true env n (withCounter pool c) ref tx (hreadc c) hc]
        have hk2 : spenderLoop env (fun p r => removeRef env n p r true) ref (env.GetHash tx)
            (withCounter pool c) = some (withCounter p1 ((c + k) % 2 ^ 32)) := hk c hcc
        rw [hk2]
        have e := closeRemove_withCounter env ref (env.GetHash tx) p1 q ((c + k) % 2 ^ 32) hcl
        rw [mod_shift_add] at e
        exact e

theorem remove_shift (env : Env) (fuel : Nat) (pool : CTxMemPool) (tx : CTransaction) (b : Bool)
    (q : CTxMemPool) (h : remove env fuel pool tx b = some q) :
    ∃ k, ∀ c, c < 2 ^ 32 →
      remove env fuel (withCounter pool c) tx b = some (withCounter q ((c + k) % 2 ^ 32)) :=
  removeRef_shift env fuel pool (.object tx) b q h

theorem removeConflicts_shift (env : Env) (fuel : Nat) (tx : CTransaction) :
    ∀ (pool q : CTxMemPool), removeConflicts env fuel pool tx = some q →
      ∃ k, ∀ c, c < 2 ^ 32 →
        removeConflicts env fuel (withCounter pool c) tx
          = some (withCounter q ((c + k) % 2 ^ 32)) := by
  intro pool q h
  refine foldlM_shift (removeConflict env fuel tx) tx.vin ?_ pool q h
  intro p txin q hr
  cases h1 : p.mapNextTx.find? txin.prevout with
  | none =>
    rw [removeConflict_none _ _ _ _ _ h1] at hr
    simp only [Option.some.injEq] at hr
    subst hr
    refine ⟨0, fun c hc => ?_⟩
    rw [removeConflict_none _ _ _ (withCounter p c) _ h1, Nat.add_zero, Nat.mod_eq_of_lt hc]
  | some ip =>
    cases h2 : (TxRef.node ip.ptx).read env p with
    | none => rw [removeConflict_undefined _ _ _ _ _ _ h1 h2] at hr; cases hr
    | some ch =>
      have h2c : ∀ c, (TxRef.node ip.ptx).read env (withCounter p c) = some ch := fun c => by
        rw [read_withCounter]; exact h2
      rw [removeConflict_some _ _ _ _ _ _ _ h1 h2] at hr
      by_cases hne : ch ≠ tx
      · rw [if_pos hne] at hr
        obtain ⟨k, hk⟩ := removeRef_shift env fuel p _ true q hr
        refine ⟨k, fun c hc => ?_⟩
        rw [removeConflict_some _ _ _ (withCounter p c) _ ip ch h1 (h2c c), if_pos hne]
        exact hk c hc
      · rw [if_neg hne] at hr
        simp only [Option.some.injEq] at hr
        subst hr
        refine ⟨0, fun c hc => ?_⟩
        rw [removeConflict_some _ _ _ (withCounter p c) _ ip ch h1 (h2c c), if_neg hne,
          Nat.add_zero, Nat.mod_eq_of_lt hc]

/-- C7, counterexample: with the counter at `2 ^ 32 - 1`, `addUnchecked` brings
it to 0, below its value before the call. -/
theorem counter_wraps :
    GetTransactionsUpdated poolFull = 4294967295 ∧
      GetTransactionsUpdated (addUnchecked poolFull 1 txA).2 = 0 ∧
      GetTransactionsUpdated (addUnchecked poolFull 1 txA).2 < GetTransactionsUpdated poolFull := by
  decide

/-- C7, amended: every operation adds to the counter modulo `2 ^ 32`:
`addUnchecked` and `clear` add 1, `AddTransactionsUpdated(n)` adds `n`, and a
returning `remove` or `removeConflicts` adds an amount `k` that does not depend
on the counter (for a non-recursive `remove`, 1 when the hash of the transaction
is in the pool and 0 when it is not).  So the counter read after the operation
is at least the counter read before whenever the sum stays below `2 ^ 32`;
otherwise it wraps around. -/
theorem counter_advances (env : Env) :
    (∀ pool h tx,
        GetTransactionsUpdated (addUnchecked pool h tx).2
          = (GetTransactionsUpdated pool + 1) % 2 ^ 32 ∧
        (GetTransactionsUpdated pool + 1 < 2 ^ 32 →
          GetTransactionsUpdated pool ≤ GetTransactionsUpdated (addUnchecked pool h tx).2)) ∧
      (∀ pool,
        GetTransactionsUpdated (clear pool) = (GetTransactionsUpdated pool + 1) % 2 ^ 32 ∧
        (GetTransactionsUpdated pool + 1 < 2 ^ 32 →
          GetTransactionsUpdated pool ≤ GetTransactionsUpdated (clear pool))) ∧
      (∀ pool n,
        GetTransactionsUpdated (AddTransactionsUpdated pool n)
          = (GetTransactionsUpdated pool + n) % 2 ^ 32 ∧
        (GetTransactionsUpdated pool + n < 2 ^ 32 →
          GetTransactionsUpdated pool ≤ GetTransactionsUpdated (AddTransactionsUpdated pool n))) ∧
      (∀ fuel pool tx b q, remove env fuel pool tx b = some q →
        ∃ k, ∀ c, c < 2 ^ 32 →
          ∃ q2, remove env fuel (withCounter pool c) tx b = some q2 ∧
            GetTransactionsUpdated q2 = (c + k) % 2 ^ 32 ∧
            (c + k < 2 ^ 32 → c ≤ GetTransactionsUpdated q2)) ∧
      (∀ fuel pool tx, ∃ q, remove env (fuel + 1) pool tx false = some q ∧
        GetTransactionsUpdated q
          = if pool.mapTx.contains (env.GetHash tx) then (GetTransactionsUpdated pool + 1) % 2 ^ 32
            else GetTransactionsUpdated pool) ∧
      (∀ fuel pool tx q, removeConflicts env fuel pool tx = some q →
        ∃ k, ∀ c, c < 2 ^ 32 →
          ∃ q2, removeConflicts env fuel (withCounter pool c) tx = some q2 ∧
            GetTransactionsUpdated q2 = (c + k) % 2 ^ 32 ∧
            (c + k < 2 ^ 32 → c ≤ GetTransactionsUpdated q2)) := by
  have hle : ∀ c k : Nat, c + k < 2 ^ 32 → c ≤ (c + k) % 2 ^ 32 := by
    intro c k h
    rw [Nat.mod_eq_of_lt h]
    exact Nat.le_add_right _ _
  refine ⟨fun pool h tx => ⟨rfl, hle _ 1⟩, fun pool => ⟨rfl, hle _ 1⟩,
    fun pool n => ⟨rfl, hle _ n⟩, ?_, ?_, ?_⟩
  · intro fuel pool tx b q h
    obtain ⟨k, hk⟩ := remove_shift env fuel pool tx b q h
    exact ⟨k, fun c hc => ⟨_, hk c hc, rfl, hle c k⟩⟩
  · intro fuel pool tx
    by_cases hc : pool.mapTx.contains (env.GetHash tx) = true
    · exact ⟨_, remove_succ_false env fuel pool tx hc, by rw [if_pos hc]; rfl⟩
    · have hc1 : pool.mapTx.contains (env.GetHash tx) = false := by simpa using hc
      exact ⟨_, remove_succ_absent env fuel pool tx false hc1, by rw [if_neg hc]⟩
  · intro fuel pool tx q h
    obtain ⟨k, hk⟩ := removeConflicts_shift env fuel tx pool q h
    exact ⟨k, fun c hc => ⟨_, hk c hc, rfl, hle c k⟩⟩

/-- C8: when the hash `h` of `A` is not in `mapTx` and no input prevout of `A`
is a key of `mapNextTx`, `addUnchecked(h, A)` followed by `remove(A)` returns a
pool whose `mapTx` and `mapNextTx` are those before the add, so `size()` is as
before and no input prevout of `A` has an entry, and whose counter is the
earlier one plus 2 modulo `2 ^ 32`. -/
theorem add_then_remove (env : Env) (fuel : Nat) (pool : CTxMemPool) (A : CTransaction)
    (hh : pool.mapTx.find? (env.GetHash A) = none)
    (hfresh : ∀ txin ∈ A.vin, pool.mapNextTx.find? txin.prevout = none) :
    ∃ q, remove env (fuel + 1) (addUnchecked pool (env.GetHash A) A).2 A false = some q ∧
      q.mapTx = pool.mapTx ∧ q.mapNextTx = pool.mapNextTx ∧ size q = size pool ∧
      (∀ txin ∈ A.vin, q.mapNextTx.find? txin.prevout = none) ∧
      GetTransactionsUpdated q = (GetTransactionsUpdated pool + 2) % 2 ^ 32 := by
  have hc : (addUnchecked pool (env.GetHash A) A).2.mapTx.contains (env.GetHash A) = true :=
    (SMap.contains_iff _ _).2 ⟨A, SMap.find?_assign_self _ _ _⟩
  have hTx : (removeEntry env (addUnchecked pool (env.GetHash A) A).2 A).mapTx = pool.mapTx := by
    apply SMap.ext_find
    intro k
    simp only [removeEntry, addUnchecked]
    rw [SMap.find?_erase, SMap.find?_assign]
    by_cases hk : env.GetHash A = k
    · rw [if_pos hk, ← hk, hh]
    · rw [if_neg hk, if_neg hk]
  have hNext : (removeEntry env (addUnchecked pool (env.GetHash A) A).2 A).mapNextTx
      = pool.mapNextTx := by
    apply SMap.ext_find
    intro o
    simp only [removeEntry, addUnchecked]
    rw [find_eraseInputs]
    by_cases ho : ∃ t ∈ A.vin, t.prevout = o
    · rw [if_pos ho]
      obtain ⟨t, ht, hto⟩ := ho
      rw [← hto, hfresh t ht]
    · rw [if_neg ho]
      exact find_recordInputs_of_not_mem _ _ _ _ _ (fun t ht hto => ho ⟨t, ht, hto⟩)
  refine ⟨_, remove_succ_false env fuel _ A hc, hTx, hNext, ?_, ?_, ?_⟩
  · unfold size
    rw [hTx]
  · intro txin ht
    rw [hNext]
    exact hfresh txin ht
  · show incr32 (incr32 pool.nTransactionsUpdated) = (pool.nTransactionsUpdated + 2) % 2 ^ 32
    unfold incr32
    rw [Nat.mod_add_mod]

/-- C8, witness: `A`, with one input `(0, 0)` and two outputs, added to the
empty pool and removed. -/
theorem add_then_remove_witness :
    ∃ q, remove sampleEnv (0 + 1)
        (addUnchecked CTxMemPool.init (sampleEnv.GetHash txA) txA).2 txA false = some q ∧
      q.mapTx = CTxMemPool.init.mapTx ∧ q.mapNextTx = CTxMemPool.init.mapNextTx ∧
      size q = size CTxMemPool.init ∧
      (∀ txin ∈ txA.vin, q.mapNextTx.find? txin.prevout = none) ∧
      GetTransactionsUpdated q = (GetTransactionsUpdated CTxMemPool.init + 2) % 2 ^ 32 :=
  add_then_remove sampleEnv 0 CTxMemPool.init txA (by decide) (by decide)

/-- Called on a transaction object of the caller, `remove` of an
anonymous-version transaction whose hash is in `mapTx` returns in the plain
mode, every returning run in either mode leaves `lookupKeyImage(K)` finding
nothing for the key image `K` of an anon input, and `insertKeyImage(K, v)`
returns `true` and is followed by `lookupKeyImage(K)` finding `v`. -/
theorem remove_object_erases_key_image (env : Env) (pool : CTxMemPool) (tx : CTransaction)
    (txin : CTxIn) (hc : existsTx pool (env.GetHash tx) = true)
    (hv : tx.nVersion = env.ANON_TXN_VERSION) (hin : txin ∈ tx.vin)
    (ha : env.IsAnonInput txin = true) :
    (∀ fuel, ∃ q, remove env (fuel + 1) pool tx false = some q) ∧
      (∀ fuel b q, remove env fuel pool tx b = some q →
        lookupKeyImage q (env.ExtractKeyImage txin) = none) ∧
      (∀ (p : CTxMemPool) (K : List Nat) (v : CKeyImageSpent),
        (insertKeyImage p K v).1 = true ∧ lookupKeyImage (insertKeyImage p K v).2 K = some v) := by
  have hkey : ∀ p : CTxMemPool,
      lookupKeyImage (removeEntry env p tx) (env.ExtractKeyImage txin) = none := by
    intro p
    simp only [lookupKeyImage, removeEntry]
    rw [if_pos hv, find_eraseKeyImages, if_pos ⟨txin, hin, ha, rfl⟩]
  refine ⟨fun fuel => ⟨_, remove_succ_false env fuel pool tx hc⟩, ?_,
    fun p K v => ⟨rfl, SMap.find?_assign_self _ _ _⟩⟩
  intro fuel b q h
  cases fuel with
  | zero => cases h
  | succ n =>
    cases b with
    | false =>
      rw [remove_succ_false env n pool tx hc] at h
      simp only [Option.some.injEq] at h
      subst h
      exact hkey pool
    | true =>
      rw [remove_succ_true env n pool tx hc] at h
      cases hl : spenderLoop env (fun p r => removeRef env n p r true) (.object tx)
          (env.GetHash tx) pool with
      | none => rw [hl] at h; cases h
      | some p1 =>
        rw [hl] at h
        simp only [Option.bind, Option.some.injEq] at h
        subst h
        exact hkey p1

/-- C9, at the failing input: `poolParentAnon` holds `P`, its spender of the
anonymous version under its hash 6, and the key image `K` of that spender.
`remove(P, true)` and `removeConflicts` of a rival of the spender hand the node
of the spender to `remove`, which erases the node at line 48 and reads it again
for lines 50 to 63; so does a plain `remove` handed that node.  Where the erased
node reads as an empty transaction the spender is gone from `mapTx` and
`lookupKeyImage(K)` still finds the record; where the read has no defined result
the call has none.  `remove` called on an object of the caller that equals the
spender erases the key image. -/
theorem remove_child_keeps_key_image :
    present sampleEnv poolParentAnon txAnonChild ∧
      txAnonChild.nVersion = sampleEnv.ANON_TXN_VERSION ∧
      (∀ txin ∈ txAnonChild.vin, sampleEnv.IsAnonInput txin = true ∧
        sampleEnv.ExtractKeyImage txin = List.replicate 33 1) ∧
      lookupKeyImage poolParentAnon (List.replicate 33 1) = some ⟨6, 0, 100⟩ ∧
      (remove sampleEnv 2 poolParentAnon txP true).map
          (fun q => (q.mapTx.find? 6, lookupKeyImage q (List.replicate 33 1)))
        = some (none, some ⟨6, 0, 100⟩) ∧
      (removeConflicts sampleEnv 2 poolParentAnon txRivalOfChild).map
          (fun q => (q.mapTx.find? 6, lookupKeyImage q (List.replicate 33 1)))
        = some (none, some ⟨6, 0, 100⟩) ∧
      (removeRef sampleEnv 1 poolParentAnon (.node 6) false).map
          (fun q => (q.mapTx.find? 6, lookupKeyImage q (List.replicate 33 1)))
        = some (none, some ⟨6, 0, 100⟩) ∧
      (∀ fuel, remove undefinedEnv fuel poolParentAnon txP true = none) ∧
      (remove sampleEnv 1 poolParentAnon txAnonChild false).map
          (fun q => (q.mapTx.find? 6, lookupKeyImage q (List.replicate 33 1)))
        = some (none, none) := by
  refine ⟨by decide, by decide, by decide, by decide, by decide, by decide, by decide, ?_,
    by decide⟩
  have hnode : ∀ n, removeRef undefinedEnv n poolParentAnon (.node 6) true = none := by
    intro n
    cases n with
    | zero => rfl
    | succ m => rfl
  intro fuel
  cases fuel with
  | zero => rfl
  | succ n =>
    rw [remove_succ_true undefinedEnv n poolParentAnon txP (by decide)]
    have e : spenderLoop undefinedEnv (fun p r => removeRef undefinedEnv n p r true)
        (.object txP) (undefinedEnv.GetHash txP) poolParentAnon = none := by
      show ([0] : List Nat).foldlM _ poolParentAnon = none
      rw [foldlM_option_cons,
        removeSpender_some undefinedEnv _ (.object txP) _ poolParentAnon 0 txP ⟨6, 0⟩ rfl
          (by decide) (by decide), hnode n]
      rfl
    rw [e]
    rfl

/-! ## The address index -/

theorem find_indexInputs (env : Env) (txhash : uint256) (nTime : Int) (l : List CTxIn) (j : Nat)
    (m : SMap CMempoolAddressDeltaKey CMempoolAddressDelta) (ins : List CMempoolAddressDeltaKey)
    (K : CMempoolAddressDeltaKey) (hK : K.spending ≠ 1) :
    (indexInputs env txhash nTime l j m ins).2.1.find? K = m.find? K := by
  induction l generalizing j m ins with
  | nil => rfl
  | cons a r ih =>
    cases h1 : env.ReadDiskTx a.prevout with
    | none =>
      simp only [indexInputs, h1]
      exact ih _ _ _
    | some tx =>
      cases h2 : tx.vout[a.prevout.n]? with
      | none => simp only [indexInputs, h1, h2]
      | some prevout =>
        cases h3 : scriptAddress env prevout.scriptPubKey with
        | none =>
          simp only [indexInputs, h1, h2, h3]
          exact ih _ _ _
        | some ta =>
          obtain ⟨ty, addr⟩ := ta
          simp only [indexInputs, h1, h2, h3]
          rw [ih, SMap.find?_insert, if_neg]
          intro e
          exact hK (by rw [← e])

theorem find_indexOutputs_other (env : Env) (txhash : uint256) (nTime : Int) (l : List CTxOut)
    (k0 : Nat) (m : SMap CMempoolAddressDeltaKey CMempoolAddressDelta)
    (ins : List CMempoolAddressDeltaKey) (K : CMempoolAddressDeltaKey)
    (hK : ∀ j out ty addr, l[j]? = some out →
      scriptAddress env out.scriptPubKey = some (ty, addr) → K ≠ ⟨ty, addr, txhash, k0 + j, 0⟩) :
    (indexOutputs env txhash nTime l k0 m ins).1.find? K = m.find? K := by
  induction l generalizing k0 m ins with
  | nil => rfl
  | cons a r ih =>
    have hr : ∀ j out ty addr, r[j]? = some out →
        scriptAddress env out.scriptPubKey = some (ty, addr) →
        K ≠ ⟨ty, addr, txhash, k0 + 1 + j, 0⟩ := by
      intro j out ty addr h1 h2
      have := hK (j + 1) out ty addr (by simpa using h1) h2
      rwa [show k0 + (j + 1) = k0 + 1 + j by omega] at this
    cases h3 : scriptAddress env a.scriptPubKey with
    | none =>
      simp only [indexOutputs, h3]
      exact ih _ _ _ hr
    | some ta =>
      obtain ⟨ty, addr⟩ := ta
      simp only [indexOutputs, h3]
      rw [ih _ _ _ hr, SMap.find?_insert, if_neg]
      intro e
      exact hK 0 a ty addr (by simp) h3 (by rw [← e]; rfl)

theorem find_indexOutputs_at (env : Env) (txhash : uint256) (nTime : Int) (l : List CTxOut)
    (k0 : Nat) (m : SMap CMempoolAddressDeltaKey CMempoolAddressDelta)
    (ins : List CMempoolAddressDeltaKey) (j : Nat) (out : CTxOut) (ty : Int) (addr : uint160)
    (hj : l[j]? = some out) (hs : scriptAddress env out.scriptPubKey = some (ty, addr)) :
    (indexOutputs env txhash nTime l k0 m ins).1.find? ⟨ty, addr, txhash, k0 + j, 0⟩
      = if m.contains ⟨ty, addr, txhash, k0 + j, 0⟩ then m.find? ⟨ty, addr, txhash, k0 + j, 0⟩
        else some (CMempoolAddressDelta.mk2 nTime out.nValue) := by
  induction l generalizing k0 m ins j with
  | nil => simp at hj
  | cons a r ih =>
    cases j with
    | zero =>
      simp only [List.getElem?_cons_zero, Option.some.injEq] at hj
      subst hj
      simp only [indexOutputs, hs, Nat.add_zero]
      rw [find_indexOutputs_other, SMap.find?_insert, if_pos rfl]
      · intro j out ty2 addr2 _ _ e
        have := congrArg CMempoolAddressDeltaKey.index e
        simp only at this
        omega
    | succ j =>
      have hj2 : r[j]? = some out := by simpa using hj
      have hne : ∀ ty2 addr2, (⟨ty2, addr2, txhash, k0, 0⟩ : CMempoolAddressDeltaKey)
          ≠ ⟨ty, addr, txhash, k0 + (j + 1), 0⟩ := by
        intro ty2 addr2 e
        have := congrArg CMempoolAddressDeltaKey.index e
        simp only at this
        omega
      have e := fun m2 ins2 => ih (k0 + 1) m2 ins2 j hj2
      rw [show k0 + 1 + j = k0 + (j + 1) by omega] at e
      cases h3 : scriptAddress env a.scriptPubKey with
      | none =>
        simp only [indexOutputs, h3]
        exact e _ _
      | some ta =>
        obtain ⟨ty2, addr2⟩ := ta
        simp only [indexOutputs, h3]
        rw [e]
        have hf : ∀ δ, (m.insert ⟨ty2, addr2, txhash, k0, 0⟩ δ).find?
            ⟨ty, addr, txhash, k0 + (j + 1), 0⟩
            = m.find? ⟨ty, addr, txhash, k0 + (j + 1), 0⟩ := by
          intro δ
          rw [SMap.find?_insert, if_neg (hne ty2 addr2)]
        simp only [SMap.contains, hf]

theorem addAddressIndex_done (env : Env) (pool : CTxMemPool) (tx : CTransaction) (nTime : Int)
    (h : (indexInputs env (env.GetHash tx) nTime tx.vin 0 pool.mapAddress []).1 = none) :
    addAddressIndex env pool tx nTime =
      (none,
        { pool with
          mapAddress := (indexOutputs env (env.GetHash tx) nTime tx.vout 0
            (indexInputs env (env.GetHash tx) nTime tx.vin 0 pool.mapAddress []).2.1
            (indexInputs env (env.GetHash tx) nTime tx.vin 0 pool.mapAddress []).2.2).1
          mapAddressInserted :=
            pool.mapAddressInserted.insert (env.GetHash tx)
              (indexOutputs env (env.GetHash tx) nTime tx.vout 0
                (indexInputs env (env.GetHash tx) nTime tx.vin 0 pool.mapAddress []).2.1
                (indexInputs env (env.GetHash tx) nTime tx.vin 0 pool.mapAddress []).2.2).2 }) := by
  unfold addAddressIndex
  rcases hr : indexInputs env (env.GetHash tx) nTime tx.vin 0 pool.mapAddress [] with ⟨r, m, ins⟩
  rw [hr] at h
  simp only at h
  subst h
  rfl

theorem addAddressIndex_thrown (env : Env) (pool : CTxMemPool) (tx : CTransaction) (nTime : Int)
    (msg : String)
    (h : (indexInputs env (env.GetHash tx) nTime tx.vin 0 pool.mapAddress []).1 = some msg) :
    addAddressIndex env pool tx nTime =
      (some msg,
        { pool with
          mapAddress :=
            (indexInputs env (env.GetHash tx) nTime tx.vin 0 pool.mapAddress []).2.1 }) := by
  unfold addAddressIndex
  rcases hr : indexInputs env (env.GetHash tx) nTime tx.vin 0 pool.mapAddress [] with ⟨r, m, ins⟩
  rw [hr] at h
  simp only at h
  subst h
  rfl

theorem addAddressIndex_done_iff (env : Env) (pool : CTxMemPool) (tx : CTransaction)
    (nTime : Int) :
    (addAddressIndex env pool tx nTime).1 = none ↔
      (indexInputs env (env.GetHash tx) nTime tx.vin 0 pool.mapAddress []).1 = none := by
  cases h : (indexInputs env (env.GetHash tx) nTime tx.vin 0 pool.mapAddress []).1 with
  | none => rw [addAddressIndex_done env pool tx nTime h]
  | some msg => rw [addAddressIndex_thrown env pool tx nTime msg h]

theorem scriptAddress_p2sh (env : Env) (s : CScript) (h : IsPayToScriptHash s = true) :
    scriptAddress env s = some (2, uint160_of (bytesRange s 2 22)) := by
  unfold scriptAddress
  rw [if_pos h]

theorem scriptAddress_p2pkh (env : Env) (s : CScript) (h : IsPayToPublicKeyHash s = true) :
    scriptAddress env s = some (1, uint160_of (bytesRange s 3 23)) := by
  have h1 : IsPayToScriptHash s = false := by
    simp only [IsPayToPublicKeyHash, Bool.and_eq_true, beq_iff_eq] at h
    simp [IsPayToScriptHash, h.1.1.1.1.1]
  unfold scriptAddress
  rw [h1, if_pos h]
  rfl

theorem scriptAddress_p2pk (env : Env) (s : CScript) (h : IsPayToPublicKey s = true) :
    scriptAddress env s = some (1, env.Hash160 (bytesRange s 1 (s.length - 1))) := by
  have hl : s.length = 35 ∨ s.length = 67 := by
    simp only [IsPayToPublicKey, Bool.or_eq_true, Bool.and_eq_true, beq_iff_eq] at h
    rcases h with h | h
    · exact Or.inl h.1.1
    · exact Or.inr h.1.1
  have h1 : IsPayToScriptHash s = false := by
    rcases hl with hl | hl <;> simp [IsPayToScriptHash, hl]
  have h2 : IsPayToPublicKeyHash s = false := by
    rcases hl with hl | hl <;> simp [IsPayToPublicKeyHash, hl]
  unfold scriptAddress
  rw [h1, h2, if_pos h]
  rfl

theorem scriptAddress_other (env : Env) (s : CScript) (h1 : IsPayToScriptHash s = false)
    (h2 : IsPayToPublicKeyHash s = false) (h3 : IsPayToPublicKey s = false) :
    scriptAddress env s = none := by
  unfold scriptAddress
  rw [h1, h2, h3]
  rfl

/-- What a completed `addAddressIndex` leaves under the key of a classified output. -/
theorem addAddressIndex_output_entry (env : Env) (pool : CTxMemPool) (tx : CTransaction)
    (nTime : Int) (k : Nat) (out : CTxOut) (ty : Int) (addr : uint160)
    (hdone : (addAddressIndex env pool tx nTime).1 = none) (hk : tx.vout[k]? = some out)
    (hs : scriptAddress env out.scriptPubKey = some (ty, addr)) :
    indexedAs pool (addAddressIndex env pool tx nTime).2 ⟨ty, addr, env.GetHash tx, k, 0⟩
      (CMempoolAddressDelta.mk4 nTime out.nValue 0 0) := by
  have hd := (addAddressIndex_done_iff env pool tx nTime).1 hdone
  have e := find_indexOutputs_at env (env.GetHash tx) nTime tx.vout 0
    (indexInputs env (env.GetHash tx) nTime tx.vin 0 pool.mapAddress []).2.1
    (indexInputs env (env.GetHash tx) nTime tx.vin 0 pool.mapAddress []).2.2 k out ty addr hk hs
  rw [Nat.zero_add] at e
  have hin := find_indexInputs env (env.GetHash tx) nTime tx.vin 0 pool.mapAddress []
    ⟨ty, addr, env.GetHash tx, k, 0⟩ (by simp)
  rw [addAddressIndex_done env pool tx nTime hd]
  constructor
  · intro hnone
    show (indexOutputs _ _ _ _ _ _ _).1.find? _ = _
    rw [e, SMap.contains, hin, hnone]
    rfl
  · intro old hold
    show (indexOutputs _ _ _ _ _ _ _).1.find? _ = _
    rw [e, SMap.contains, hin, hold]
    rfl

/-- C10, counterexample: (a) `poolIndexed` already holds the entry of output 0
of `T`, written at time 1000; `addAddressIndex(T, 2000)` completes and the key
`(1, H, 5, 0, 0)` still maps to the delta of time 1000, not to
`(2000, 5000, 0, 0)`.  (b) With a store that holds a one-output transaction
under `(50, 7)`, `addAddressIndex(txBadInput, 1000)` throws at its input and
the key of its pay-to-public-key-hash output 0 has no entry. -/
theorem addAddressIndex_output_not_recorded :
    (IsPayToPublicKeyHash scriptP2PKH = true ∧
      (addAddressIndex sampleEnv poolIndexed txPay 2000).1 = none ∧
      (addAddressIndex sampleEnv poolIndexed txPay 2000).2.mapAddress.find?
          ⟨1, uint160_of (bytesRange scriptP2PKH 3 23), 5, 0, 0⟩
        = some ⟨1000, 5000, 0, 0⟩) ∧
    ((addAddressIndex diskEnv CTxMemPool.init txBadInput 1000).1
        = some "addAddressIndex() : n out of range" ∧
      (addAddressIndex diskEnv CTxMemPool.init txBadInput 1000).2.mapAddress.find?
          ⟨1, uint160_of (bytesRange scriptP2PKH 3 23), 8, 0, 0⟩
        = none) := by
  decide

/-- C10, amended: when `addAddressIndex(tx, t)` completes, for every output `k`
of `tx`: a pay-to-script-hash script gives the key
`(2, bytes [2, 22), tx.hash, k, 0)`, a pay-to-public-key-hash script the key
`(1, bytes [3, 23), tx.hash, k, 0)`, a pay-to-public-key script the key
`(1, Hash160 of bytes [1, len - 1), tx.hash, k, 0)`, and that key maps to
`(t, value of output k, 0, 0)` if the map had no entry under it before the call
and to the entry it had otherwise; a script of no such shape leaves every key
`(type, address, tx.hash, k, 0)` as it was. -/
theorem addAddressIndex_outputs (env : Env) (pool : CTxMemPool) (tx : CTransaction)
    (t : Int) (k : Nat) (out : CTxOut)
    (hdone : (addAddressIndex env pool tx t).1 = none) (hk : tx.vout[k]? = some out) :
    (IsPayToScriptHash out.scriptPubKey = true →
        indexedAs pool (addAddressIndex env pool tx t).2
          ⟨2, uint160_of (bytesRange out.scriptPubKey 2 22), env.GetHash tx, k, 0⟩
          ⟨t, out.nValue, 0, 0⟩) ∧
      (IsPayToPublicKeyHash out.scriptPubKey = true →
        indexedAs pool (addAddressIndex env pool tx t).2
          ⟨1, uint160_of (bytesRange out.scriptPubKey 3 23), env.GetHash tx, k, 0⟩
          ⟨t, out.nValue, 0, 0⟩) ∧
      (IsPayToPublicKey out.scriptPubKey = true →
        indexedAs pool (addAddressIndex env pool tx t).2
          ⟨1, env.Hash160 (bytesRange out.scriptPubKey 1 (out.scriptPubKey.length - 1)),
            env.GetHash tx, k, 0⟩
          ⟨t, out.nValue, 0, 0⟩) ∧
      (IsPayToScriptHash out.scriptPubKey = false →
        IsPayToPublicKeyHash out.scriptPubKey = false →
        IsPayToPublicKey out.scriptPubKey = false →
        ∀ type address,
          (addAddressIndex env pool tx t).2.mapAddress.find? ⟨type, address, env.GetHash tx, k, 0⟩
            = pool.mapAddress.find? ⟨type, address, env.GetHash tx, k, 0⟩) := by
  refine ⟨fun h => ?_, fun h => ?_, fun h => ?_, fun h1 h2 h3 type address => ?_⟩
  · exact addAddressIndex_output_entry env pool tx t k out _ _ hdone hk
      (scriptAddress_p2sh env _ h)
  · exact addAddressIndex_output_entry env pool tx t k out _ _ hdone hk
      (scriptAddress_p2pkh env _ h)
  · exact addAddressIndex_output_entry env pool tx t k out _ _ hdone hk
      (scriptAddress_p2pk env _ h)
  · have hd := (addAddressIndex_done_iff env pool tx t).1 hdone
    rw [addAddressIndex_done env pool tx t hd]
    show (indexOutputs _ _ _ _ _ _ _).1.find? _ = _
    rw [find_indexOutputs_other, find_indexInputs _ _ _ _ _ _ _ _ (by simp)]
    intro j out2 ty addr hj hs e
    have hjk : k = 0 + j := congrArg CMempoolAddressDeltaKey.index e
    rw [Nat.zero_add] at hjk
    subst hjk
    rw [hk] at hj
    simp only [Option.some.injEq] at hj
    subst hj
    rw [scriptAddress_other env _ h1 h2 h3] at hs
    cases hs

/-- C10, witness: output 0 of `T`, script `76 a9 14 <20 bytes> 88 ac` and value
5000, indexed at time 1000 into the empty pool. -/
theorem addAddressIndex_outputs_witness :
    (addAddressIndex sampleEnv CTxMemPool.init txPay 1000).2.mapAddress.find?
        ⟨1, uint160_of (List.replicate 20 7), 5, 0, 0⟩ = some ⟨1000, 5000, 0, 0⟩ :=
  ((addAddressIndex_outputs sampleEnv CTxMemPool.init txPay 1000 0
    ⟨5000, scriptP2PKH⟩ (by decide) (by decide)).2.1 (by decide)).1 (by decide)

/-! ## The invariant under the core operations -/

theorem addUnchecked_literal (env : Env) (pool : CTxMemPool) (h : uint256) (tx : CTransaction)
    (hI : nextTxInvariant env pool) (hnew : pool.mapTx.contains h = false) :
    nextTxInvariant env (addUnchecked pool h tx).2 := by
  intro out ip hf
  simp only [addUnchecked] at hf ⊢
  rcases find_recordInputs_cases h tx.vin 0 pool.mapNextTx out with
    h1 | ⟨j, t, hj, hto, h1⟩
  · rw [h1] at hf
    obtain ⟨c, hc, hin⟩ := hI out ip hf
    refine ⟨c, ?_, hin⟩
    have hne : h ≠ ip.ptx := by
      intro e
      rw [← e, (SMap.contains_eq_false _ _).1 hnew] at hc
      cases hc
    rw [SMap.find?_assign_ne _ _ hne]
    exact hc
  · rw [h1] at hf
    simp only [Option.some.injEq] at hf
    subst hf
    refine ⟨tx, SMap.find?_assign_self _ _ _, t, ?_, hto⟩
    simpa using hj

theorem addUnchecked_invariant (env : Env) (pool : CTxMemPool) (tx : CTransaction)
    (hI : spenderInvariant env pool) (hnew : pool.mapTx.contains (env.GetHash tx) = false) :
    spenderInvariant env (addUnchecked pool (env.GetHash tx) tx).2 := by
  intro out ip h
  simp only [addUnchecked] at h ⊢
  rcases find_recordInputs_cases (env.GetHash tx) tx.vin 0 pool.mapNextTx out with
    h1 | ⟨j, t, hj, hto, h1⟩
  · rw [h1] at h
    obtain ⟨c, hc, hh, hin⟩ := hI out ip h
    refine ⟨c, ?_, hh, hin⟩
    have hne : env.GetHash tx ≠ ip.ptx := by
      intro e
      rw [← e, (SMap.contains_eq_false _ _).1 hnew] at hc
      cases hc
    rw [SMap.find?_assign_ne _ _ hne]
    exact hc
  · rw [h1] at h
    simp only [Option.some.injEq] at h
    subst h
    refine ⟨tx, SMap.find?_assign_self _ _ _, rfl, t, ?_, hto⟩
    simpa using hj

theorem clear_invariant (env : Env) (pool : CTxMemPool) : spenderInvariant env (clear pool) := by
  intro out ip h
  simp only [clear] at h
  rw [SMap.find?_empty] at h
  cases h

/-- The plain `remove` of a transaction of the pool keeps the invariant as
section 3 words it. -/
theorem removeEntry_literal (env : Env) (p : CTxMemPool) (tx : CTransaction)
    (hI : nextTxInvariant env p) (hp : present env p tx) :
    nextTxInvariant env (removeEntry env p tx) := by
  intro out ip h
  simp only [removeEntry] at h
  rw [find_eraseInputs] at h
  by_cases ho : ∃ t ∈ tx.vin, t.prevout = out
  · rw [if_pos ho] at h; cases h
  · rw [if_neg ho] at h
    obtain ⟨t, ht, txin, hin, hout⟩ := hI out ip h
    refine ⟨t, ?_, txin, hin, hout⟩
    simp only [removeEntry]
    rw [SMap.find?_erase]
    by_cases hk : env.GetHash tx = ip.ptx
    · exfalso
      rw [← hk, hp] at ht
      simp only [Option.some.injEq] at ht
      subst ht
      exact ho ⟨txin, List.getElem?_mem hin, hout⟩
    · rw [if_neg hk]; exact ht

theorem removeConflicts_invariant (env : Env) (fuel : Nat) (pool : CTxMemPool)
    (tx : CTransaction) (q : CTxMemPool) (hI : spenderInvariant env pool)
    (h : removeConflicts env fuel pool tx = some q) : spenderInvariant env q := by
  refine foldlM_invariant (removeConflict env fuel tx) (fun p => spenderInvariant env p) tx.vin
    ?_ pool q hI h
  intro p a r _ hp hr
  exact (removeConflict_invariant env fuel tx p a r hp hr).2

/-- A returning plain `remove` of a transaction of the pool, handed as an object
or as its node, keeps the invariant as section 3 words it. -/
theorem removeRef_plain_literal (env : Env) (fuel : Nat) (pool : CTxMemPool) (ref : TxRef)
    (tx : CTransaction) (q : CTxMemPool) (hI : nextTxInvariant env pool)
    (hp : present env pool tx) (hr : refersTo env tx ref)
    (h : removeRef env fuel pool ref false = some q) : nextTxInvariant env q := by
  obtain ⟨m, tx0, _, hread, hcase⟩ := removeRef_cases env fuel pool ref false q h
  have e0 : tx0 = tx := by
    rw [read_of_refersTo env pool ref tx hr hp] at hread
    exact (Option.some.inj hread).symm
  subst e0
  rcases hcase with ⟨hc, _⟩ | ⟨_, p1, hl, hcl⟩
  · rw [present_contains env pool tx0 hp] at hc; cases hc
  · simp only [Bool.false_eq_true, if_false, Option.some.injEq] at hl
    subst hl
    obtain ⟨tx1, tx2, r1, _, hq⟩ := closeRemove_cases env ref _ pool q hcl
    have e1 : tx1 = tx0 := by
      rw [read_of_refersTo env pool ref tx0 hr hp] at r1
      exact (Option.some.inj r1).symm
    subst e1
    subst hq
    exact removeEntry_literal env pool tx1 hI hp

/-- C19, counterexample: `poolPAT` satisfies the invariant and holds `P` under
its hash 5.  The spender of `P` has the hash 8 and is stored under the key 7;
the node of key 8 holds another transaction, named by the entry of `(20, 0)`.
`remove(P, true)` hands the spender to the recursive call, which erases the node
under the hash 8: the entry of `(20, 0)` is left pointing at a node that is no
longer in `mapTx`, and the invariant fails. -/
theorem remove_recursive_breaks_invariant :
    nextTxInvariant sampleEnv poolPAT ∧ present sampleEnv poolPAT txP ∧
      (remove sampleEnv 2 poolPAT txP true).map
          (fun q => (q.mapNextTx.find? ⟨20, 0⟩, q.mapTx.find? 8))
        = some (some ⟨8, 0⟩, none) ∧
      ∀ q, remove sampleEnv 2 poolPAT txP true = some q → ¬ nextTxInvariant sampleEnv q := by
  have e : (remove sampleEnv 2 poolPAT txP true).map
      (fun q => (q.mapNextTx.find? ⟨20, 0⟩, q.mapTx.find? 8))
        = some (some ⟨8, 0⟩, none) := by decide
  refine ⟨nextTxInvariant_of_check _ _ (by decide), by decide, e, ?_⟩
  intro q h hI
  rw [h] at e
  simp only [Option.map_some', Option.some.injEq, Prod.mk.injEq] at e
  obtain ⟨tx, ht, _⟩ := hI _ _ e.1
  rw [e.2] at ht
  cases ht

/-- C19, amended: if the outpoint→spender invariant holds, it holds after
`addUnchecked(h, tx)` with `h` not already in the pool, after `remove(tx, false)`
of a transaction of the pool, which returns when `tx` is an object of the
caller, and after `clear()`.  If in addition every recorded spender is stored
under its own hash, then that is kept by `addUnchecked` with `h` the hash of
`tx`, both properties hold after every returning `remove(tx, fRecursive)` of a
transaction of the pool and every returning `removeConflicts(tx)`, and these
return when the graph is acyclic and the reads of erased nodes yield
transactions.  For `remove` the transaction is handed as an object of the caller
or as its node of `mapTx`. -/
theorem nextTxInvariant_preserved (env : Env) (pool : CTxMemPool)
    (hI : nextTxInvariant env pool) :
    (∀ h tx, pool.mapTx.contains h = false →
        nextTxInvariant env (addUnchecked pool h tx).2) ∧
      (∀ tx, present env pool tx →
        (∀ fuel, ∃ q, remove env (fuel + 1) pool tx false = some q) ∧
        ∀ ref, refersTo env tx ref → ∀ fuel q, removeRef env fuel pool ref false = some q →
          nextTxInvariant env q) ∧
      nextTxInvariant env (clear pool) ∧
      (spenderUnderOwnHash env pool →
        (∀ tx, pool.mapTx.contains (env.GetHash tx) = false →
          spenderUnderOwnHash env (addUnchecked pool (env.GetHash tx) tx).2) ∧
        (∀ tx, present env pool tx → ∀ ref, refersTo env tx ref →
          ∀ fuel b q, removeRef env fuel pool ref b = some q →
            nextTxInvariant env q ∧ spenderUnderOwnHash env q) ∧
        (∀ tx fuel q, removeConflicts env fuel pool tx = some q →
          nextTxInvariant env q ∧ spenderUnderOwnHash env q) ∧
        (acyclic env pool → staleDefined env → ∀ tx,
          (present env pool tx → ∀ ref, refersTo env tx ref →
            ∃ fuel q, removeRef env fuel pool ref true = some q) ∧
          (∃ fuel q, removeConflicts env fuel pool tx = some q))) := by
  refine ⟨fun h tx hnew => addUnchecked_literal env pool h tx hI hnew, ?_,
    ((spenderInvariant_iff env _).1 (clear_invariant env pool)).1, ?_⟩
  · intro tx hp
    exact ⟨fun fuel => ⟨_, remove_succ_false env fuel pool tx (present_contains env pool tx hp)⟩,
      fun ref hr fuel q h => removeRef_plain_literal env fuel pool ref tx q hI hp hr h⟩
  · intro hO
    have hS : spenderInvariant env pool := (spenderInvariant_iff env pool).2 ⟨hI, hO⟩
    refine ⟨?_, ?_, ?_, ?_⟩
    · intro tx hnew
      exact ((spenderInvariant_iff env _).1 (addUnchecked_invariant env pool tx hS hnew)).2
    · intro tx hp ref hr fuel b q h
      exact (spenderInvariant_iff env q).1 (removeRef_sound env fuel pool ref tx b q h hS hp hr).2.1
    · intro tx fuel q h
      exact (spenderInvariant_iff env q).1 (removeConflicts_invariant env fuel pool tx q hS h)
    · intro hac hd tx
      exact ⟨fun hp ref hr => removeRef_terminates env pool hac hd tx pool ref
          (subPool_refl pool) hS hp hr,
        removeConflicts_returns env pool tx hS hac hd⟩

/-- C19, witness: on `poolAB`, where the invariant holds, every recorded spender
is stored under its own hash, the graph is acyclic and an erased node reads as
an empty transaction, the recursive `remove` of `A`, handed as an object, returns
a pool in which both properties hold. -/
theorem nextTxInvariant_preserved_witness :
    nextTxInvariant sampleEnv poolAB ∧ spenderUnderOwnHash sampleEnv poolAB ∧
      acyclic sampleEnv poolAB ∧ staleDefined sampleEnv ∧ present sampleEnv poolAB txA ∧
      (∃ fuel q, removeRef sampleEnv fuel poolAB (.object txA) true = some q) ∧
      (∀ fuel b q, removeRef sampleEnv fuel poolAB (.object txA) b = some q →
        nextTxInvariant sampleEnv q ∧ spenderUnderOwnHash sampleEnv q) :=
  ⟨((spenderInvariant_iff _ _).1 (spenderInvariant_of_check _ _ (by decide))).1,
    ((spenderInvariant_iff _ _).1 (spenderInvariant_of_check _ _ (by decide))).2,
    acyclic_of_check _ _ (spenderInvariant_of_check _ _ (by decide)) (by decide),
    fun _ => rfl, by decide,
    (((nextTxInvariant_preserved sampleEnv poolAB
      ((spenderInvariant_iff _ _).1 (spenderInvariant_of_check _ _ (by decide))).1).2.2.2
      ((spenderInvariant_iff _ _).1 (spenderInvariant_of_check _ _ (by decide))).2).2.2.2
      (acyclic_of_check _ _ (spenderInvariant_of_check _ _ (by decide)) (by decide))
      (fun _ => rfl) txA).1 (by decide) (.object txA) rfl,
    ((nextTxInvariant_preserved sampleEnv poolAB
      ((spenderInvariant_iff _ _).1 (spenderInvariant_of_check _ _ (by decide))).1).2.2.2
      ((spenderInvariant_iff _ _).1 (spenderInvariant_of_check _ _ (by decide))).2).2.1
      txA (by decide) (.object txA) rfl⟩

/-! ## Termination of recursive removal -/

theorem removeRef_dangling_undefined (n : Nat) :
    removeRef undefinedEnv n poolDangling (.node 99) true = none := by
  cases n with
  | zero => rfl
  | succ m => rfl

theorem removeRef_dangling_loops (n : Nat) :
    removeRef loopEnv n poolDangling (.node 99) true = none := by
  induction n with
  | zero => rfl
  | succ m ih =>
    rw [removeRef_true loopEnv m poolDangling (.node 99) txA (by decide) (by decide)]
    have e : spenderLoop loopEnv (fun p r => removeRef loopEnv m p r true) (.node 99)
        (loopEnv.GetHash txA) poolDangling = none := by
      show ([0, 1] : List Nat).foldlM _ poolDangling = none
      rw [foldlM_option_cons,
        removeSpender_some loopEnv _ (.node 99) _ poolDangling 0 txA ⟨99, 0⟩ (by decide)
          (by decide) (by decide), ih]
      rfl
    rw [e]
    rfl

theorem remove_dangling (env : Env) (hg : env.GetHash txA = 1)
    (h : ∀ n, removeRef env n poolDangling (.node 99) true = none) (fuel : Nat) :
    remove env fuel poolDangling txA true = none := by
  cases fuel with
  | zero => rfl
  | succ n =>
    have hc : poolDangling.mapTx.contains (env.GetHash txA) = true := by
      rw [hg]; decide
    rw [remove_succ_true env n poolDangling txA hc]
    have e : spenderLoop env (fun p r => removeRef env n p r true) (.object txA)
        (env.GetHash txA) poolDangling = none := by
      show ([0, 1] : List Nat).foldlM _ poolDangling = none
      rw [foldlM_option_cons,
        removeSpender_some env _ (.object txA) _ poolDangling 0 txA ⟨99, 0⟩ rfl
          (by decide) (by rw [hg]; decide), h n]
      rfl
    rw [e]
    rfl

theorem removeRef_cross_loops (p : CTxMemPool) (h8 : p.mapTx.find? 8 = none)
    (h5 : p.mapTx.contains 5 = true) (h0 : p.mapNextTx.find? ⟨5, 0⟩ = none)
    (h1 : p.mapNextTx.find? ⟨5, 1⟩ = some ⟨8, 0⟩) (n : Nat) :
    removeRef crossEnv n p (.node 8) true = none := by
  have hr : (TxRef.node 8).read crossEnv p = some txWide := read_node_dead crossEnv p 8 h8
  induction n with
  | zero => rfl
  | succ m ih =>
    rw [removeRef_true crossEnv m p (.node 8) txWide hr h5]
    have e : spenderLoop crossEnv (fun p r => removeRef crossEnv m p r true) (.node 8)
        (crossEnv.GetHash txWide) p = none := by
      have hb : loopBound crossEnv p (.node 8) = 2 := by
        simp only [loopBound, h8]
        rfl
      unfold spenderLoop
      rw [hb]
      show ([0, 1] : List Nat).foldlM _ p = none
      rw [foldlM_option_cons,
        removeSpender_none crossEnv _ (.node 8) (crossEnv.GetHash txWide) p 0 txWide hr h0]
      show ([1] : List Nat).foldlM _ p = none
      rw [foldlM_option_cons,
        removeSpender_some crossEnv _ (.node 8) (crossEnv.GetHash txWide) p 1 txWide ⟨8, 0⟩ hr
          (by decide) h1, ih]
      rfl
    rw [e]
    rfl

theorem remove_cross_loops (fuel : Nat) : remove crossEnv fuel poolCross txWide true = none := by
  cases fuel with
  | zero => rfl
  | succ n =>
    rw [remove_succ_true crossEnv n poolCross txWide (by decide)]
    have e : spenderLoop crossEnv (fun p r => removeRef crossEnv n p r true) (.object txWide)
        (crossEnv.GetHash txWide) poolCross = none := by
      show ([0, 1] : List Nat).foldlM _ poolCross = none
      rw [foldlM_option_cons,
        removeSpender_some crossEnv _ (.object txWide) _ poolCross 0 txWide ⟨7, 0⟩ rfl
          (by decide) (by decide)]
      cases n with
      | zero => rfl
      | succ m =>
        have h1 : removeRef crossEnv (m + 1) poolCross (.node 7) true = some poolCrossLeft :=
          removeRef_mono crossEnv 1 (m + 1) (by omega) _ _ _ _ (by decide)
        rw [h1]
        show ([1] : List Nat).foldlM _ poolCrossLeft = none
        rw [foldlM_option_cons,
          removeSpender_some crossEnv _ (.object txWide) _ poolCrossLeft 1 txWide ⟨8, 0⟩ rfl
            (by decide) (by decide),
          removeRef_cross_loops poolCrossLeft (by decide) (by decide) (by decide) (by decide)
            (m + 1)]
        rfl
    rw [e]
    rfl

/-- C20, counterexample: `poolDangling` has no edge at all, so its graph is
acyclic, but the entry of output 0 of `A` points at no node of `mapTx`, and
`remove(A, true)` hands that erased node to the recursive call.  Where the read
of the erased node has no defined result, neither has the call, whatever the
fuel; where the erased node reads as `A`, the recursive call finds the hash of
`A` in `mapTx`, reaches the same entry and calls itself on the same node again:
no fuel makes it return.  `poolCross` satisfies the invariant and its graph is
acyclic, but the spender of output 0 of `W`, of hash 8, is stored under the key
7: the recursive call on it erases the node under 8, which the entry of output 1
of `W` points at, and `remove(W, true)` then hands that erased node to the
recursive call; where it reads as `W`, no fuel makes the call return. -/
theorem remove_recursive_undefined_on_dangling :
    (acyclic undefinedEnv poolDangling ∧ acyclic loopEnv poolDangling ∧
      (∀ fuel, remove undefinedEnv fuel poolDangling txA true = none) ∧
      (∀ fuel, remove loopEnv fuel poolDangling txA true = none)) ∧
    (nextTxInvariant crossEnv poolCross ∧ acyclic crossEnv poolCross ∧
      staleDefined crossEnv ∧ present crossEnv poolCross txWide ∧
      ∀ fuel, remove crossEnv fuel poolCross txWide true = none) :=
  ⟨⟨acyclic_of_hashes _ _ (by decide), acyclic_of_hashes _ _ (by decide),
      remove_dangling undefinedEnv rfl removeRef_dangling_undefined,
      remove_dangling loopEnv rfl removeRef_dangling_loops⟩,
    ⟨nextTxInvariant_of_check _ _ (by decide), acyclic_of_hashes _ _ (by decide),
      fun _ => rfl, by decide, remove_cross_loops⟩⟩

/-- C20, amended: on a pool that satisfies the outpoint→spender invariant, where
every recorded spender is stored under its own hash, and whose spender graph is
acyclic, `remove(tx, true)` is total when the reads of erased nodes yield
transactions, for every transaction object `tx` of the caller and for the node
of every transaction of the pool: the edge relation its recursion descends is
well founded, some fuel makes it return, more fuel gives the same pool, and all
runs that return give the same pool. -/
theorem remove_recursive_total (env : Env) (pool : CTxMemPool) (tx : CTransaction)
    (hI : nextTxInvariant env pool) (hO : spenderUnderOwnHash env pool)
    (hac : acyclic env pool) (hS : staleDefined env) :
    WellFounded (fun c p => child env pool p c) ∧
      (∃ fuel q, remove env fuel pool tx true = some q ∧
        ∀ fuel2, fuel ≤ fuel2 → remove env fuel2 pool tx true = some q) ∧
      (present env pool tx →
        ∃ fuel q, removeRef env fuel pool (.node (env.GetHash tx)) true = some q ∧
          ∀ fuel2, fuel ≤ fuel2 →
            removeRef env fuel2 pool (.node (env.GetHash tx)) true = some q) ∧
      (∀ ref n m q1 q2, removeRef env n pool ref true = some q1 →
        removeRef env m pool ref true = some q2 → q1 = q2) := by
  have hI2 : spenderInvariant env pool := (spenderInvariant_iff env pool).2 ⟨hI, hO⟩
  refine ⟨child_wf env pool hac, ?_, ?_, ?_⟩
  · obtain ⟨fuel, q, h⟩ := remove_terminates_any env pool tx hI2 hac hS
    exact ⟨fuel, q, h, fun fuel2 hle => remove_mono env fuel fuel2 hle pool tx true q h⟩
  · intro hp
    obtain ⟨fuel, q, h⟩ := removeRef_terminates env pool hac hS tx pool
      (.node (env.GetHash tx)) (subPool_refl pool) hI2 hp rfl
    exact ⟨fuel, q, h, fun fuel2 hle => removeRef_mono env fuel fuel2 hle pool _ true q h⟩
  · intro ref n m q1 q2 h1 h2
    have e1 := removeRef_mono env n (max n m) (le_max_left _ _) pool ref true q1 h1
    have e2 := removeRef_mono env m (max n m) (le_max_right _ _) pool ref true q2 h2
    rw [e1] at e2
    exact Option.some.inj e2

/-- C20, witness: removing `A` from `poolAB`, where an erased node reads as an
empty transaction. -/
theorem remove_recursive_total_witness :
    staleDefined sampleEnv ∧
      (WellFounded (fun c p => child sampleEnv poolAB p c) ∧
      (∃ fuel q, remove sampleEnv fuel poolAB txA true = some q ∧
        ∀ fuel2, fuel ≤ fuel2 → remove sampleEnv fuel2 poolAB txA true = some q) ∧
      (present sampleEnv poolAB txA →
        ∃ fuel q, removeRef sampleEnv fuel poolAB (.node (sampleEnv.GetHash txA)) true = some q ∧
          ∀ fuel2, fuel ≤ fuel2 →
            removeRef sampleEnv fuel2 poolAB (.node (sampleEnv.GetHash txA)) true = some q) ∧
      (∀ ref n m q1 q2, removeRef sampleEnv n poolAB ref true = some q1 →
        removeRef sampleEnv m poolAB ref true = some q2 → q1 = q2)) :=
  ⟨fun _ => rfl,
    remove_recursive_total sampleEnv poolAB txA
      ((spenderInvariant_iff _ _).1 (spenderInvariant_of_check _ _ (by decide))).1
      ((spenderInvariant_iff _ _).1 (spenderInvariant_of_check _ _ (by decide))).2
      (acyclic_of_check _ _ (spenderInvariant_of_check _ _ (by decide)) (by decide))
      (fun _ => rfl)⟩

/-! ## The input loop of the address index -/

theorem find_indexInputs_other (env : Env) (txhash : uint256) (nTime : Int) (l : List CTxIn)
    (j0 : Nat) (m : SMap CMempoolAddressDeltaKey CMempoolAddressDelta)
    (ins : List CMempoolAddressDeltaKey) (K : CMempoolAddressDeltaKey)
    (hK : ∀ j input prev prevout ty addr, l[j]? = some input →
      env.ReadDiskTx input.prevout = some prev → prev.vout[input.prevout.n]? = some prevout →
      scriptAddress env prevout.scriptPubKey = some (ty, addr) →
      K ≠ ⟨ty, addr, txhash, j0 + j, 1⟩) :
    (indexInputs env txhash nTime l j0 m ins).2.1.find? K = m.find? K := by
  induction l generalizing j0 m ins with
  | nil => rfl
  | cons a r ih =>
    have hr : ∀ j input prev prevout ty addr, r[j]? = some input →
        env.ReadDiskTx input.prevout = some prev → prev.vout[input.prevout.n]? = some prevout →
        scriptAddress env prevout.scriptPubKey = some (ty, addr) →
        K ≠ ⟨ty, addr, txhash, j0 + 1 + j, 1⟩ := by
      intro j input prev prevout ty addr h1 h2 h3 h4
      have := hK (j + 1) input prev prevout ty addr (by simpa using h1) h2 h3 h4
      rwa [show j0 + (j + 1) = j0 + 1 + j by omega] at this
    cases h1 : env.ReadDiskTx a.prevout with
    | none =>
      simp only [indexInputs, h1]
      exact ih _ _ _ hr
    | some tx =>
      cases h2 : tx.vout[a.prevout.n]? with
      | none => simp only [indexInputs, h1, h2]
      | some prevout =>
        cases h3 : scriptAddress env prevout.scriptPubKey with
        | none =>
          simp only [indexInputs, h1, h2, h3]
          exact ih _ _ _ hr
        | some ta =>
          obtain ⟨ty, addr⟩ := ta
          simp only [indexInputs, h1, h2, h3]
          rw [ih _ _ _ hr, SMap.find?_insert, if_neg]
          intro e
          exact hK 0 a tx prevout ty addr (by simp) h1 h2 h3 (by rw [← e]; rfl)

theorem find_indexInputs_at (env : Env) (txhash : uint256) (nTime : Int) (l : List CTxIn)
    (j0 : Nat) (m : SMap CMempoolAddressDeltaKey CMempoolAddressDelta)
    (ins : List CMempoolAddressDeltaKey) (j : Nat) (input : CTxIn) (prev : CTransaction)
    (prevout : CTxOut) (ty : Int) (addr : uint160)
    (hdone : (indexInputs env txhash nTime l j0 m ins).1 = none)
    (hj : l[j]? = some input) (hr : env.ReadDiskTx input.prevout = some prev)
    (hv : prev.vout[input.prevout.n]? = some prevout)
    (hs : scriptAddress env prevout.scriptPubKey = some (ty, addr)) :
    (indexInputs env txhash nTime l j0 m ins).2.1.find? ⟨ty, addr, txhash, j0 + j, 1⟩
      = if m.contains ⟨ty, addr, txhash, j0 + j, 1⟩ then m.find? ⟨ty, addr, txhash, j0 + j, 1⟩
        else some (CMempoolAddressDelta.mk4 nTime (toInt64 (prevout.nValue * -1))
          input.prevout.hash input.prevout.n) := by
  induction l generalizing j0 m ins j with
  | nil => simp at hj
  | cons a r ih =>
    cases j with
    | zero =>
      simp only [List.getElem?_cons_zero, Option.some.injEq] at hj
      subst hj
      simp only [indexInputs, hr, hv, hs, Nat.add_zero]
      rw [find_indexInputs_other, SMap.find?_insert, if_pos rfl]
      · intro j input prev prevout ty2 addr2 _ _ _ _ e
        have := congrArg CMempoolAddressDeltaKey.index e
        simp only at this
        omega
    | succ j =>
      have hj2 : r[j]? = some input := by simpa using hj
      have hne : ∀ ty2 addr2, (⟨ty2, addr2, txhash, j0, 1⟩ : CMempoolAddressDeltaKey)
          ≠ ⟨ty, addr, txhash, j0 + (j + 1), 1⟩ := by
        intro ty2 addr2 e
        have := congrArg CMempoolAddressDeltaKey.index e
        simp only at this
        omega
      have e := fun m2 ins2 hd => ih (j0 + 1) m2 ins2 j hd hj2
      rw [show j0 + 1 + j = j0 + (j + 1) by omega] at e
      cases h1 : env.ReadDiskTx a.prevout with
      | none =>
        simp only [indexInputs, h1] at hdone ⊢
        exact e _ _ hdone
      | some tx =>
        cases h2 : tx.vout[a.prevout.n]? with
        | none => simp [indexInputs, h1, h2] at hdone
        | some po =>
          cases h3 : scriptAddress env po.scriptPubKey with
          | none =>
            simp only [indexInputs, h1, h2, h3] at hdone ⊢
            exact e _ _ hdone
          | some ta =>
            obtain ⟨ty2, addr2⟩ := ta
            simp only [indexInputs, h1, h2, h3] at hdone ⊢
            rw [e _ _ hdone]
            have hf : ∀ δ, (m.insert ⟨ty2, addr2, txhash, j0, 1⟩ δ).find?
                ⟨ty, addr, txhash, j0 + (j + 1), 1⟩
                = m.find? ⟨ty, addr, txhash, j0 + (j + 1), 1⟩ := by
              intro δ
              rw [SMap.find?_insert, if_neg (hne ty2 addr2)]
            simp only [SMap.contains, hf]

/-- The input loop throws exactly when the store returns, for some input, a
previous transaction in which the prevout index is out of range. -/
theorem indexInputs_done_iff (env : Env) (txhash : uint256) (nTime : Int) (l : List CTxIn)
    (j0 : Nat) (m : SMap CMempoolAddressDeltaKey CMempoolAddressDelta)
    (ins : List CMempoolAddressDeltaKey) :
    (indexInputs env txhash nTime l j0 m ins).1 = none ↔
      ∀ input ∈ l, ∀ prev, env.ReadDiskTx input.prevout = some prev →
        input.prevout.n < prev.vout.length := by
  induction l generalizing j0 m ins with
  | nil => simp [indexInputs]
  | cons a r ih =>
    cases h1 : env.ReadDiskTx a.prevout with
    | none =>
      simp only [indexInputs, h1, List.mem_cons, forall_eq_or_imp]
      rw [ih]
      simp
    | some tx =>
      cases h2 : tx.vout[a.prevout.n]? with
      | none =>
        simp only [indexInputs, h1, h2, List.mem_cons, forall_eq_or_imp]
        have hlen : tx.vout.length ≤ a.prevout.n := List.getElem?_eq_none_iff.1 h2
        constructor
        · intro h; cases h
        · intro h
          have := h.1 tx rfl
          omega
      | some po =>
        have hlen : a.prevout.n < tx.vout.length := by
          obtain ⟨h, _⟩ := List.getElem?_eq_some.1 h2
          exact h
        cases h3 : scriptAddress env po.scriptPubKey with
        | none =>
          simp only [indexInputs, h1, h2, h3, List.mem_cons, forall_eq_or_imp]
          rw [ih]
          constructor
          · intro h
            exact ⟨fun prev hp => by cases hp; exact hlen, h⟩
          · intro h; exact h.2
        | some ta =>
          obtain ⟨ty, addr⟩ := ta
          simp only [indexInputs, h1, h2, h3, List.mem_cons, forall_eq_or_imp]
          rw [ih]
          constructor
          · intro h
            exact ⟨fun prev hp => by cases hp; exact hlen, h⟩
          · intro h; exact h.2

theorem addAddressIndex_input_entry (env : Env) (pool : CTxMemPool) (tx : CTransaction)
    (nTime : Int) (j : Nat) (input : CTxIn) (prev : CTransaction) (prevout : CTxOut) (ty : Int)
    (addr : uint160)
    (hdone : (addAddressIndex env pool tx nTime).1 = none) (hj : tx.vin[j]? = some input)
    (hr : env.ReadDiskTx input.prevout = some prev)
    (hv : prev.vout[input.prevout.n]? = some prevout)
    (hs : scriptAddress env prevout.scriptPubKey = some (ty, addr)) :
    indexedAs pool (addAddressIndex env pool tx nTime).2 ⟨ty, addr, env.GetHash tx, j, 1⟩
      (CMempoolAddressDelta.mk4 nTime (toInt64 (-prevout.nValue)) input.prevout.hash
        input.prevout.n) := by
  have hd := (addAddressIndex_done_iff env pool tx nTime).1 hdone
  have e := find_indexInputs_at env (env.GetHash tx) nTime tx.vin 0 pool.mapAddress [] j input
    prev prevout ty addr hd hj hr hv hs
  rw [Nat.zero_add, Int.mul_neg_one] at e
  have hout : ∀ m ins, (indexOutputs env (env.GetHash tx) nTime tx.vout 0 m ins).1.find?
      ⟨ty, addr, env.GetHash tx, j, 1⟩ = m.find? ⟨ty, addr, env.GetHash tx, j, 1⟩ := by
    intro m ins
    apply find_indexOutputs_other
    intro k out ty2 addr2 _ _ e2
    have := congrArg CMempoolAddressDeltaKey.spending e2
    simp at this
  rw [addAddressIndex_done env pool tx nTime hd]
  constructor
  · intro hnone
    show (indexOutputs _ _ _ _ _ _ _).1.find? _ = _
    rw [hout, e, SMap.contains, hnone]
    rfl
  · intro old hold
    show (indexOutputs _ _ _ _ _ _ _).1.find? _ = _
    rw [hout, e, SMap.contains, hold]
    rfl

/-- The key of input `j` is left alone, whether the call completes or throws,
when the input contributes no key. -/
theorem addAddressIndex_input_untouched (env : Env) (pool : CTxMemPool) (tx : CTransaction)
    (nTime : Int) (j : Nat) (input : CTxIn) (hj : tx.vin[j]? = some input)
    (hnokey : ∀ prev prevout, env.ReadDiskTx input.prevout = some prev →
      prev.vout[input.prevout.n]? = some prevout →
      scriptAddress env prevout.scriptPubKey = none)
    (ty : Int) (addr : uint160) :
    (addAddressIndex env pool tx nTime).2.mapAddress.find? ⟨ty, addr, env.GetHash tx, j, 1⟩
      = pool.mapAddress.find? ⟨ty, addr, env.GetHash tx, j, 1⟩ := by
  have hin : (indexInputs env (env.GetHash tx) nTime tx.vin 0 pool.mapAddress []).2.1.find?
      ⟨ty, addr, env.GetHash tx, j, 1⟩ = pool.mapAddress.find? ⟨ty, addr, env.GetHash tx, j, 1⟩ := by
    apply find_indexInputs_other
    intro j2 input2 prev prevout ty2 addr2 h1 h2 h3 h4 e
    have hjj : j = 0 + j2 := congrArg CMempoolAddressDeltaKey.index e
    rw [Nat.zero_add] at hjj
    subst hjj
    rw [hj] at h1
    simp only [Option.some.injEq] at h1
    subst h1
    rw [hnokey prev prevout h2 h3] at h4
    cases h4
  cases hd : (indexInputs env (env.GetHash tx) nTime tx.vin 0 pool.mapAddress []).1 with
  | none =>
    rw [addAddressIndex_done env pool tx nTime hd]
    show (indexOutputs _ _ _ _ _ _ _).1.find? _ = _
    rw [find_indexOutputs_other, hin]
    intro k out ty2 addr2 _ _ e2
    have := congrArg CMempoolAddressDeltaKey.spending e2
    simp at this
  | some msg =>
    rw [addAddressIndex_thrown env pool tx nTime msg hd]
    exact hin

theorem toInt64_neg (v : Int) (h0 : -(2 ^ 63) < v) (h1 : v < 2 ^ 63) : toInt64 (-v) = -v := by
  unfold toInt64
  omega

/-- C11, counterexample: (a) `poolSpend` already holds the entry of input 0 of
`txSpend`, written at time 1000; `addAddressIndex(txSpend, 2000)` completes and
the key `(1, H, 9, 0, 1)` still maps to the delta of time 1000.  (b) The store
returns `T` for both inputs of `txBadFirst`; input 1 names output 0 of `T`, in
range and pay-to-public-key-hash, but the call throws at input 0 and the key
`(1, H, 10, 1, 1)` has no entry.  (c) The store returns for the input of
`txSpend` an output of the least `int64_t` value, `-2 ^ 63`; the amount recorded
is that value again, not its negation `2 ^ 63`. -/
theorem addAddressIndex_input_not_recorded :
    ((addAddressIndex diskEnv poolSpend txSpend 2000).1 = none ∧
      (addAddressIndex diskEnv poolSpend txSpend 2000).2.mapAddress.find?
          ⟨1, uint160_of (bytesRange scriptP2PKH 3 23), 9, 0, 1⟩
        = some ⟨1000, -5000, 50, 0⟩) ∧
    ((addAddressIndex diskEnv CTxMemPool.init txBadFirst 1000).1
        = some "addAddressIndex() : n out of range" ∧
      (addAddressIndex diskEnv CTxMemPool.init txBadFirst 1000).2.mapAddress.find?
          ⟨1, uint160_of (bytesRange scriptP2PKH 3 23), 10, 1, 1⟩
        = none) ∧
    ((addAddressIndex minEnv CTxMemPool.init txSpend 1000).1 = none ∧
      (addAddressIndex minEnv CTxMemPool.init txSpend 1000).2.mapAddress.find?
          ⟨1, uint160_of (bytesRange scriptP2PKH 3 23), 9, 0, 1⟩
        = some ⟨1000, -9223372036854775808, 50, 0⟩ ∧
      (-9223372036854775808 : Int) ≠ -(-9223372036854775808)) := by
  decide

/-- C11, amended: `addAddressIndex(tx, t)` completes exactly when no input's
previous transaction is returned by the store with the prevout index out of
range.  When it completes and the store returns for input `j` a previous
transaction whose output at the prevout index is recognized with
classification `(type, address)`, the key `(type, address, tx.hash, j, 1)` maps
to `(t, a, prev_tx_hash, prev_index)` if the map had no entry under it before
the call and to the entry it had otherwise, where `a` is `-prev.value` as an
`int64_t`: `-prev.value` for every value above `-2 ^ 63`, and `-2 ^ 63` for that
value.  When the store cannot return the previous transaction of input `j`,
every key `(type, address, tx.hash, j, 1)` is as it was and that input throws
nothing. -/
theorem addAddressIndex_inputs (env : Env) (pool : CTxMemPool) (tx : CTransaction) (t : Int)
    (j : Nat) (input : CTxIn) (hj : tx.vin[j]? = some input) :
    ((addAddressIndex env pool tx t).1 = none ↔
        ∀ i ∈ tx.vin, ∀ prev, env.ReadDiskTx i.prevout = some prev →
          i.prevout.n < prev.vout.length) ∧
      ((addAddressIndex env pool tx t).1 = none →
        ∀ prev prevout, env.ReadDiskTx input.prevout = some prev →
          prev.vout[input.prevout.n]? = some prevout →
          (IsPayToScriptHash prevout.scriptPubKey = true →
            indexedAs pool (addAddressIndex env pool tx t).2
              ⟨2, uint160_of (bytesRange prevout.scriptPubKey 2 22), env.GetHash tx, j, 1⟩
              ⟨t, toInt64 (-prevout.nValue), input.prevout.hash, input.prevout.n⟩) ∧
          (IsPayToPublicKeyHash prevout.scriptPubKey = true →
            indexedAs pool (addAddressIndex env pool tx t).2
              ⟨1, uint160_of (bytesRange prevout.scriptPubKey 3 23), env.GetHash tx, j, 1⟩
              ⟨t, toInt64 (-prevout.nValue), input.prevout.hash, input.prevout.n⟩) ∧
          (IsPayToPublicKey prevout.scriptPubKey = true →
            indexedAs pool (addAddressIndex env pool tx t).2
              ⟨1, env.Hash160
                  (bytesRange prevout.scriptPubKey 1 (prevout.scriptPubKey.length - 1)),
                env.GetHash tx, j, 1⟩
              ⟨t, toInt64 (-prevout.nValue), input.prevout.hash, input.prevout.n⟩) ∧
          (-(2 ^ 63) < prevout.nValue → prevout.nValue < 2 ^ 63 →
            toInt64 (-prevout.nValue) = -prevout.nValue) ∧
          (prevout.nValue = -(2 ^ 63) → toInt64 (-prevout.nValue) = -(2 ^ 63))) ∧
      (env.ReadDiskTx input.prevout = none →
        ∀ type address,
          (addAddressIndex env pool tx t).2.mapAddress.find? ⟨type, address, env.GetHash tx, j, 1⟩
            = pool.mapAddress.find? ⟨type, address, env.GetHash tx, j, 1⟩) := by
  refine ⟨?_, ?_, ?_⟩
  · rw [addAddressIndex_done_iff]
    exact indexInputs_done_iff env _ t tx.vin 0 pool.mapAddress []
  · intro hdone prev prevout hr hv
    refine ⟨fun h => ?_, fun h => ?_, fun h => ?_, toInt64_neg _, fun h => ?_⟩
    · exact addAddressIndex_input_entry env pool tx t j input prev prevout _ _ hdone hj hr hv
        (scriptAddress_p2sh env _ h)
    · exact addAddressIndex_input_entry env pool tx t j input prev prevout _ _ hdone hj hr hv
        (scriptAddress_p2pkh env _ h)
    · exact addAddressIndex_input_entry env pool tx t j input prev prevout _ _ hdone hj hr hv
        (scriptAddress_p2pk env _ h)
    · rw [h]
      decide
  · intro hnone type address
    apply addAddressIndex_input_untouched env pool tx t j input hj
    intro prev prevout h1
    rw [hnone] at h1
    cases h1

/-- C11, witness: input 0 of `txSpend`, which spends output 0 of the stored
transaction `T` (value 5000, pay-to-public-key-hash), indexed at time 1000. -/
theorem addAddressIndex_inputs_witness :
    (addAddressIndex diskEnv CTxMemPool.init txSpend 1000).2.mapAddress.find?
        ⟨1, uint160_of (List.replicate 20 7), 9, 0, 1⟩ = some ⟨1000, -5000, 50, 0⟩ :=
  ((((addAddressIndex_inputs diskEnv CTxMemPool.init txSpend 1000 0
    ⟨⟨50, 0⟩, [], 0⟩ (by decide)).2.1 (by decide) txPay ⟨5000, scriptP2PKH⟩
      (by decide) (by decide)).2.1 (by decide)).1 (by decide))

/-- C14, the code at the failing input: the store returns `T` for both inputs
of `txBadSecond`; input 0 is in range and indexable, input 1 is out of range.
The call throws, and the pool it leaves has the entry of input 0 in
`mapAddress`, which was empty before, and no rollback list for the
transaction, so `removeAddressIndex` does not take the entry out again. -/
theorem addAddressIndex_throw_keeps_entry :
    CTxMemPool.init.mapAddress.size = 0 ∧
      (addAddressIndex diskEnv CTxMemPool.init txBadSecond 1000).1
        = some "addAddressIndex() : n out of range" ∧
      (addAddressIndex diskEnv CTxMemPool.init txBadSecond 1000).2.mapAddress.find?
          ⟨1, uint160_of (bytesRange scriptP2PKH 3 23), 11, 0, 1⟩
        = some ⟨1000, -5000, 50, 0⟩ ∧
      (addAddressIndex diskEnv CTxMemPool.init txBadSecond 1000).2.mapAddressInserted.find? 11
        = none ∧
      (removeAddressIndex (addAddressIndex diskEnv CTxMemPool.init txBadSecond 1000).2
          11).2.mapAddress.size = 1 := by
  decide

/-! ## Rollback of the address index -/

theorem find_eraseKeys (keys : List CMempoolAddressDeltaKey)
    (m : SMap CMempoolAddressDeltaKey CMempoolAddressDelta) (K : CMempoolAddressDeltaKey) :
    (eraseKeys keys m).find? K = if K ∈ keys then none else m.find? K := by
  induction keys generalizing m with
  | nil => simp [eraseKeys]
  | cons a r ih =>
    have e : eraseKeys (a :: r) m = eraseKeys r (m.erase a) := rfl
    rw [e, ih]
    by_cases h1 : K ∈ r
    · rw [if_pos h1, if_pos (List.mem_cons_of_mem _ h1)]
    · rw [if_neg h1]
      by_cases h2 : a = K
      · subst h2
        rw [if_pos (List.mem_cons_self _ _), SMap.find?_erase_self]
      · have h3 : K ∉ a :: r := by
          intro h
          rcases List.mem_cons.1 h with h4 | h4
          · exact h2 h4.symm
          · exact h1 h4
        rw [if_neg h3, SMap.find?_erase_ne _ h2]

theorem indexInputs_subset (env : Env) (txhash : uint256) (nTime : Int) (l : List CTxIn)
    (j : Nat) (m : SMap CMempoolAddressDeltaKey CMempoolAddressDelta)
    (ins : List CMempoolAddressDeltaKey) (K : CMempoolAddressDeltaKey) (hK : K ∈ ins) :
    K ∈ (indexInputs env txhash nTime l j m ins).2.2 := by
  induction l generalizing j m ins with
  | nil => exact hK
  | cons a r ih =>
    cases h1 : env.ReadDiskTx a.prevout with
    | none =>
      simp only [indexInputs, h1]
      exact ih _ _ _ hK
    | some tx =>
      cases h2 : tx.vout[a.prevout.n]? with
      | none =>
        simp only [indexInputs, h1, h2]
        exact hK
      | some prevout =>
        cases h3 : scriptAddress env prevout.scriptPubKey with
        | none =>
          simp only [indexInputs, h1, h2, h3]
          exact ih _ _ _ hK
        | some ta =>
          obtain ⟨ty, addr⟩ := ta
          simp only [indexInputs, h1, h2, h3]
          exact ih _ _ _ (List.mem_append_left _ hK)

theorem indexInputs_frame (env : Env) (txhash : uint256) (nTime : Int) (l : List CTxIn)
    (j : Nat) (m : SMap CMempoolAddressDeltaKey CMempoolAddressDelta)
    (ins : List CMempoolAddressDeltaKey) (K : CMempoolAddressDeltaKey)
    (hK : K ∉ (indexInputs env txhash nTime l j m ins).2.2) :
    (indexInputs env txhash nTime l j m ins).2.1.find? K = m.find? K := by
  induction l generalizing j m ins with
  | nil => rfl
  | cons a r ih =>
    cases h1 : env.ReadDiskTx a.prevout with
    | none =>
      simp only [indexInputs, h1] at hK ⊢
      exact ih _ _ _ hK
    | some tx =>
      cases h2 : tx.vout[a.prevout.n]? with
      | none => simp only [indexInputs, h1, h2]
      | some prevout =>
        cases h3 : scriptAddress env prevout.scriptPubKey with
        | none =>
          simp only [indexInputs, h1, h2, h3] at hK ⊢
          exact ih _ _ _ hK
        | some ta =>
          obtain ⟨ty, addr⟩ := ta
          simp only [indexInputs, h1, h2, h3] at hK ⊢
          rw [ih _ _ _ hK, SMap.find?_insert, if_neg]
          intro e
          apply hK
          apply indexInputs_subset
          rw [← e]
          exact List.mem_append_right _ (List.mem_singleton_self _)

theorem indexInputs_txhash (env : Env) (txhash : uint256) (nTime : Int) (l : List CTxIn)
    (j : Nat) (m : SMap CMempoolAddressDeltaKey CMempoolAddressDelta)
    (ins : List CMempoolAddressDeltaKey) (K : CMempoolAddressDeltaKey)
    (hK : K ∈ (indexInputs env txhash nTime l j m ins).2.2) :
    K ∈ ins ∨ K.txhash = txhash := by
  induction l generalizing j m ins with
  | nil => exact Or.inl hK
  | cons a r ih =>
    cases h1 : env.ReadDiskTx a.prevout with
    | none =>
      simp only [indexInputs, h1] at hK
      exact ih _ _ _ hK
    | some tx =>
      cases h2 : tx.vout[a.prevout.n]? with
      | none =>
        simp only [indexInputs, h1, h2] at hK
        exact Or.inl hK
      | some prevout =>
        cases h3 : scriptAddress env prevout.scriptPubKey with
        | none =>
          simp only [indexInputs, h1, h2, h3] at hK
          exact ih _ _ _ hK
        | some ta =>
          obtain ⟨ty, addr⟩ := ta
          simp only [indexInputs, h1, h2, h3] at hK
          rcases ih _ _ _ hK with h | h
          · rcases List.mem_append.1 h with h4 | h4
            · exact Or.inl h4
            · rw [List.mem_singleton.1 h4]
              exact Or.inr rfl
          · exact Or.inr h

theorem indexOutputs_subset (env : Env) (txhash : uint256) (nTime : Int) (l : List CTxOut)
    (k : Nat) (m : SMap CMempoolAddressDeltaKey CMempoolAddressDelta)
    (ins : List CMempoolAddressDeltaKey) (K : CMempoolAddressDeltaKey) (hK : K ∈ ins) :
    K ∈ (indexOutputs env txhash nTime l k m ins).2 := by
  induction l generalizing k m ins with
  | nil => exact hK
  | cons a r ih =>
    cases h3 : scriptAddress env a.scriptPubKey with
    | none =>
      simp only [indexOutputs, h3]
      exact ih _ _ _ hK
    | some ta =>
      obtain ⟨ty, addr⟩ := ta
      simp only [indexOutputs, h3]
      exact ih _ _ _ (List.mem_append_left _ hK)

theorem indexOutputs_frame (env : Env) (txhash : uint256) (nTime : Int) (l : List CTxOut)
    (k : Nat) (m : SMap CMempoolAddressDeltaKey CMempoolAddressDelta)
    (ins : List CMempoolAddressDeltaKey) (K : CMempoolAddressDeltaKey)
    (hK : K ∉ (indexOutputs env txhash nTime l k m ins).2) :
    (indexOutputs env txhash nTime l k m ins).1.find? K = m.find? K := by
  induction l generalizing k m ins with
  | nil => rfl
  | cons a r ih =>
    cases h3 : scriptAddress env a.scriptPubKey with
    | none =>
      simp only [indexOutputs, h3] at hK ⊢
      exact ih _ _ _ hK
    | some ta =>
      obtain ⟨ty, addr⟩ := ta
      simp only [indexOutputs, h3] at hK ⊢
      rw [ih _ _ _ hK, SMap.find?_insert, if_neg]
      intro e
      apply hK
      apply indexOutputs_subset
      rw [← e]
      exact List.mem_append_right _ (List.mem_singleton_self _)

theorem indexOutputs_txhash (env : Env) (txhash : uint256) (nTime : Int) (l : List CTxOut)
    (k : Nat) (m : SMap CMempoolAddressDeltaKey CMempoolAddressDelta)
    (ins : List CMempoolAddressDeltaKey) (K : CMempoolAddressDeltaKey)
    (hK : K ∈ (indexOutputs env txhash nTime l k m ins).2) :
    K ∈ ins ∨ K.txhash = txhash := by
  induction l generalizing k m ins with
  | nil => exact Or.inl hK
  | cons a r ih =>
    cases h3 : scriptAddress env a.scriptPubKey with
    | none =>
      simp only [indexOutputs, h3] at hK
      exact ih _ _ _ hK
    | some ta =>
      obtain ⟨ty, addr⟩ := ta
      simp only [indexOutputs, h3] at hK
      rcases ih _ _ _ hK with h | h
      · rcases List.mem_append.1 h with h4 | h4
        · exact Or.inl h4
        · rw [List.mem_singleton.1 h4]
          exact Or.inr rfl
      · exact Or.inr h

theorem addressRollbackInvariant_of_check (pool : CTxMemPool)
    (h : addressRollbackInvariantB pool = true) : addressRollbackInvariant pool := by
  simp only [addressRollbackInvariantB, Bool.and_eq_true] at h
  constructor
  · intro hh keys hf K hK
    have a1 := List.all_eq_true.1 h.1 _ (SMap.mem_of_find _ _ _ hf)
    exact List.all_eq_true.1 a1 _ hK
  · intro K δ hf
    have a1 := List.all_eq_true.1 h.2 _ (SMap.mem_of_find _ _ _ hf)
    simp only at a1
    cases hl : pool.mapAddressInserted.find? K.txhash with
    | none => rw [hl] at a1; cases a1
    | some keys =>
      rw [hl] at a1
      exact ⟨keys, rfl, of_decide_eq_true a1⟩

theorem removeAddressIndex_some (pool : CTxMemPool) (txhash : uint256)
    (keys : List CMempoolAddressDeltaKey)
    (h : pool.mapAddressInserted.find? txhash = some keys) :
    removeAddressIndex pool txhash =
      (true,
        { pool with
          mapAddress := eraseKeys keys pool.mapAddress
          mapAddressInserted := pool.mapAddressInserted.erase txhash }) := by
  simp only [removeAddressIndex, h]

/-- C13, counterexample: `poolIndexed` satisfies the rollback invariant and
holds the entry and the rollback list of `T`; `addAddressIndex(T, 2000)`
completes, and `removeAddressIndex` of the hash of `T` then leaves both maps
empty, not as they were before the insertion. -/
theorem address_rollback_loses_earlier_entries :
    addressRollbackInvariant poolIndexed ∧
      (addAddressIndex sampleEnv poolIndexed txPay 2000).1 = none ∧
      poolIndexed.mapAddress.size = 1 ∧ poolIndexed.mapAddressInserted.size = 1 ∧
      (removeAddressIndex (addAddressIndex sampleEnv poolIndexed txPay 2000).2
        (sampleEnv.GetHash txPay)).2.mapAddress.size = 0 ∧
      (removeAddressIndex (addAddressIndex sampleEnv poolIndexed txPay 2000).2
        (sampleEnv.GetHash txPay)).2.mapAddressInserted.size = 0 :=
  ⟨addressRollbackInvariant_of_check _ (by decide), by decide, by decide, by decide, by decide,
    by decide⟩

/-- C13, amended: on a pool that satisfies the rollback invariant of section 3
and holds no rollback list under the hash of `tx`, when `addAddressIndex(tx, t)`
completes, `removeAddressIndex(tx.hash)` after it returns `true` and leaves
`mapAddress` and `mapAddressInserted` equal to what they were before the
insertion. -/
theorem address_rollback (env : Env) (pool : CTxMemPool) (tx : CTransaction) (t : Int)
    (hB : addressRollbackInvariant pool)
    (hdone : (addAddressIndex env pool tx t).1 = none)
    (hfresh : pool.mapAddressInserted.find? (env.GetHash tx) = none) :
    (removeAddressIndex (addAddressIndex env pool tx t).2 (env.GetHash tx)).1 = true ∧
      (removeAddressIndex (addAddressIndex env pool tx t).2 (env.GetHash tx)).2.mapAddress
        = pool.mapAddress ∧
      (removeAddressIndex (addAddressIndex env pool tx t).2
        (env.GetHash tx)).2.mapAddressInserted = pool.mapAddressInserted := by
  have hd := (addAddressIndex_done_iff env pool tx t).1 hdone
  rw [addAddressIndex_done env pool tx t hd]
  have hc : pool.mapAddressInserted.contains (env.GetHash tx) = false :=
    (SMap.contains_eq_false _ _).2 hfresh
  rw [removeAddressIndex_some _ _
    (indexOutputs env (env.GetHash tx) t tx.vout 0
      (indexInputs env (env.GetHash tx) t tx.vin 0 pool.mapAddress []).2.1
      (indexInputs env (env.GetHash tx) t tx.vin 0 pool.mapAddress []).2.2).2
    (by
      show (pool.mapAddressInserted.insert _ _).find? _ = _
      rw [SMap.find?_insert, if_pos rfl, hc]
      rfl)]
  refine ⟨rfl, ?_, ?_⟩
  · apply SMap.ext_find
    intro K
    show (eraseKeys _ _).find? K = _
    rw [find_eraseKeys]
    by_cases hK : K ∈ (indexOutputs env (env.GetHash tx) t tx.vout 0
        (indexInputs env (env.GetHash tx) t tx.vin 0 pool.mapAddress []).2.1
        (indexInputs env (env.GetHash tx) t tx.vin 0 pool.mapAddress []).2.2).2
    · rw [if_pos hK]
      have hh : K.txhash = env.GetHash tx := by
        rcases indexOutputs_txhash _ _ _ _ _ _ _ _ hK with h1 | h1
        · rcases indexInputs_txhash _ _ _ _ _ _ _ _ h1 with h2 | h2
          · cases h2
          · exact h2
        · exact h1
      cases hf : pool.mapAddress.find? K with
      | none => rfl
      | some δ =>
        obtain ⟨keys, hk, _⟩ := hB.2 K δ hf
        rw [hh, hfresh] at hk
        cases hk
    · rw [if_neg hK, indexOutputs_frame _ _ _ _ _ _ _ _ hK, indexInputs_frame]
      intro h1
      exact hK (indexOutputs_subset _ _ _ _ _ _ _ _ h1)
  · apply SMap.ext_find
    intro k
    show ((pool.mapAddressInserted.insert _ _).erase _).find? k = _
    rw [SMap.find?_erase]
    by_cases hk : env.GetHash tx = k
    · rw [if_pos hk, ← hk, hfresh]
    · rw [if_neg hk, SMap.find?_insert, if_neg hk]

/-- C13, witness: `T` indexed into the empty pool at time 1000 and rolled back. -/
theorem address_rollback_witness :
    (removeAddressIndex (addAddressIndex sampleEnv CTxMemPool.init txPay 1000).2
        (sampleEnv.GetHash txPay)).1 = true ∧
      (removeAddressIndex (addAddressIndex sampleEnv CTxMemPool.init txPay 1000).2
        (sampleEnv.GetHash txPay)).2.mapAddress = CTxMemPool.init.mapAddress ∧
      (removeAddressIndex (addAddressIndex sampleEnv CTxMemPool.init txPay 1000).2
        (sampleEnv.GetHash txPay)).2.mapAddressInserted = CTxMemPool.init.mapAddressInserted :=
  address_rollback sampleEnv CTxMemPool.init txPay 1000
    (addressRollbackInvariant_of_check _ (by decide)) (by decide) (by decide)

/-! ## The address query -/

theorem ltKey_iff (a b : CMempoolAddressDeltaKey) :
    a < b ↔ a.type < b.type ∨ (a.type = b.type ∧ (a.addressBytes < b.addressBytes ∨
      (a.addressBytes = b.addressBytes ∧ (a.txhash < b.txhash ∨
        (a.txhash = b.txhash ∧ (a.index < b.index ∨
          (a.index = b.index ∧ a.spending < b.spending))))))) := by
  show a.toTuple < b.toTuple ↔ _
  simp only [CMempoolAddressDeltaKey.toTuple, Prod.Lex.lt_iff, ofLex_toLex]

theorem findL_of_mem {K V : Type} [LinearOrder K] (l : List (K × V)) (h : AscKeys l) (k : K)
    (v : V) (hm : (k, v) ∈ l) : findL k l = some v := by
  induction l with
  | nil => cases hm
  | cons a r ih =>
    obtain ⟨k1, v1⟩ := a
    obtain ⟨h1, h2⟩ := ascKeys_cons.1 h
    rcases List.mem_cons.1 hm with e | hr
    · cases e
      simp [findL]
    · have hne : k1 ≠ k := ne_of_lt (h1 (k, v) hr)
      simp only [findL, hne, if_false]
      exact ih h2 hr

theorem mem_entries_iff {K V : Type} [LinearOrder K] (m : SMap K V) (k : K) (v : V) :
    (k, v) ∈ m.entries ↔ m.find? k = some v :=
  ⟨fun h => findL_of_mem m.entries m.asc k v h, fun h => SMap.mem_of_find m k v h⟩

/-- On an ascending list whose keys have no negative spending flag, the scan
from the lower bound while the address and type match collects exactly the
entries of that address and type. -/
theorem scan_eq_filter (l : List (CMempoolAddressDeltaKey × CMempoolAddressDelta))
    (it : uint160 × Int) (hs : AscKeys l) (hH : ∀ e ∈ l, 0 ≤ e.1.spending) :
    (l.dropWhile (fun e => decide (e.1 < CMempoolAddressDeltaKey.mk2 it.2 it.1))).takeWhile
        (fun e => decide (e.1.addressBytes = it.1) && decide (e.1.type = it.2))
      = l.filter (matchesAddress it) := by
  induction l with
  | nil => rfl
  | cons e r ih =>
    obtain ⟨k, v⟩ := e
    obtain ⟨h1, h2⟩ := ascKeys_cons.1 hs
    have hH2 : ∀ e ∈ r, 0 ≤ e.1.spending := fun e he => hH e (List.mem_cons_of_mem _ he)
    have hk : 0 ≤ k.spending := hH (k, v) (List.mem_cons_self _ _)
    have ih2 := ih h2 hH2
    by_cases hlt : k < CMempoolAddressDeltaKey.mk2 it.2 it.1
    · have hP : matchesAddress it (k, v) = false := by
        have := (ltKey_iff _ _).1 hlt
        simp only [CMempoolAddressDeltaKey.mk2] at this
        simp only [matchesAddress, Bool.and_eq_false_iff, decide_eq_false_iff_not]
        rcases this with h | ⟨_, h | ⟨_, h | ⟨_, h | ⟨_, h⟩⟩⟩⟩
        · exact Or.inr (ne_of_lt h)
        · exact Or.inl (ne_of_lt h)
        · exact absurd h (Nat.not_lt_zero _)
        · exact absurd h (Nat.not_lt_zero _)
        · exact absurd h (not_lt.2 hk)
      rw [List.dropWhile_cons, if_pos (by simpa using hlt), List.filter_cons]
      simp only [hP, Bool.false_eq_true, if_false]
      exact ih2
    · rw [List.dropWhile_cons, if_neg (by simpa using hlt), List.takeWhile_cons, List.filter_cons]
      have hge := fun h => hlt ((ltKey_iff _ _).2 h)
      simp only [CMempoolAddressDeltaKey.mk2] at hge
      by_cases hP : matchesAddress it (k, v) = true
      · have hP2 : (decide (k.addressBytes = it.1) && decide (k.type = it.2)) = true := hP
        rw [if_pos hP2, if_pos hP]
        congr 1
        rw [← ih2]
        cases r with
        | nil => rfl
        | cons p r2 =>
          have hp : ¬ p.1 < CMempoolAddressDeltaKey.mk2 it.2 it.1 := by
            intro hp
            exact hlt (lt_trans (h1 p (List.mem_cons_self _ _)) hp)
          rw [List.dropWhile_cons, if_neg (by simpa using hp)]
      · have hP2 : ¬ (decide (k.addressBytes = it.1) && decide (k.type = it.2)) = true := hP
        rw [if_neg hP2, if_neg hP]
        symm
        rw [List.filter_eq_nil_iff]
        intro p hp hmp
        have hkp := (ltKey_iff _ _).1 (h1 p hp)
        simp only [matchesAddress, Bool.and_eq_true, decide_eq_true_eq] at hmp hP
        rcases hkp with h | ⟨ht, h | ⟨ha, _⟩⟩
        · exact hge (Or.inl (hmp.2 ▸ h))
        · exact hge (Or.inr ⟨ht.trans hmp.2, Or.inl (hmp.1 ▸ h)⟩)
        · exact hP ⟨ha.trans hmp.1, ht.trans hmp.2⟩

theorem foldl_append_scan (pool : CTxMemPool) (addresses : List (uint160 × Int))
    (results : List (CMempoolAddressDeltaKey × CMempoolAddressDelta)) :
    addresses.foldl (fun res it => res ++ scanAddress pool it) results
      = results ++ (addresses.map (scanAddress pool)).flatten := by
  induction addresses generalizing results with
  | nil => simp
  | cons a r ih =>
    simp only [List.foldl_cons, List.map_cons, List.flatten_cons]
    rw [ih, List.append_assoc]

/-- C12, counterexample: the address index of `poolNegative` holds one entry,
of type 1 and address 5, under the key `(1, 5, 0, 0, -1)`; the query for
`(5, 1)` starts at the lower bound of `(1, 5, 0, 0, 0)`, which lies after that
key, and returns nothing. -/
theorem getAddressIndex_misses_entry :
    poolNegative.mapAddress.find? ⟨1, 5, 0, 0, -1⟩ = some ⟨1000, 5000, 0, 0⟩ ∧
      getAddressIndex poolNegative [(5, 1)] [] = (true, []) := by
  decide

/-- C12, amended: on a pool whose address-index keys have no negative spending
flag, `getAddressIndex` returns `true` and leaves in `results` what it held
before followed, for each pair in query order, by the entries of `mapAddress`
whose key has that address and that type, every one of them and no other, in
the ascending order of the key comparator. -/
theorem getAddressIndex_spec (pool : CTxMemPool) (addresses : List (uint160 × Int))
    (results : List (CMempoolAddressDeltaKey × CMempoolAddressDelta))
    (hH : ∀ e ∈ pool.mapAddress.entries, 0 ≤ e.1.spending) :
    getAddressIndex pool addresses results
        = (true, results ++ (addresses.map
            (fun it => pool.mapAddress.entries.filter (matchesAddress it))).flatten) ∧
      (∀ it K δ, (K, δ) ∈ pool.mapAddress.entries.filter (matchesAddress it) ↔
        (pool.mapAddress.find? K = some δ ∧ K.addressBytes = it.1 ∧ K.type = it.2)) ∧
      (∀ it, (pool.mapAddress.entries.filter (matchesAddress it)).Pairwise
        (fun a b => CMempoolAddressDeltaKeyCompare a.1 b.1 = true)) := by
  refine ⟨?_, ?_, ?_⟩
  · unfold getAddressIndex
    rw [foldl_append_scan]
    have e : ∀ it, scanAddress pool it = pool.mapAddress.entries.filter (matchesAddress it) :=
      fun it => scan_eq_filter pool.mapAddress.entries it pool.mapAddress.asc hH
    rw [show scanAddress pool = fun it => pool.mapAddress.entries.filter (matchesAddress it)
      from funext e]
  · intro it K δ
    rw [List.mem_filter, mem_entries_iff]
    simp [matchesAddress]
  · intro it
    apply List.Pairwise.filter
    have h := pool.mapAddress.asc
    unfold AscKeys at h
    rw [List.pairwise_map] at h
    exact h.imp (fun hab => (ltKey_iff_compare _ _).1 hab)

/-- C12, witness: the query for the address of `T` on `poolIndexed`. -/
theorem getAddressIndex_spec_witness :
    getAddressIndex poolIndexed [(uint160_of (List.replicate 20 7), 1)] []
        = (true, [] ++ ([(uint160_of (List.replicate 20 7), (1 : Int))].map
            (fun it => poolIndexed.mapAddress.entries.filter (matchesAddress it))).flatten) ∧
      (∀ it K δ, (K, δ) ∈ poolIndexed.mapAddress.entries.filter (matchesAddress it) ↔
        (poolIndexed.mapAddress.find? K = some δ ∧ K.addressBytes = it.1 ∧ K.type = it.2)) ∧
      (∀ it, (poolIndexed.mapAddress.entries.filter (matchesAddress it)).Pairwise
        (fun a b => CMempoolAddressDeltaKeyCompare a.1 b.1 = true)) :=
  getAddressIndex_spec poolIndexed [(uint160_of (List.replicate 20 7), 1)] [] (by decide)

/-! ## Bytes -/

theorem length_leBytes (n v : Nat) : (leBytes n v).length = n := by
  induction n generalizing v with
  | zero => rfl
  | succ n ih => simp [leBytes, ih]

theorem mod_pow_succ (x n : Nat) :
    x % 256 ^ (n + 1) = x % 256 + 256 * (x / 256 % 256 ^ n) := by
  rw [pow_succ, Nat.mul_comm, Nat.mod_mul]

theorem leValue_leBytes (n v : Nat) : leValue (leBytes n v) = v % 256 ^ n := by
  induction n generalizing v with
  | zero => simp [leBytes, leValue, Nat.mod_one]
  | succ n ih => simp only [leBytes, leValue, ih, mod_pow_succ]

theorem leBytes_eq_iff (n x y : Nat) : leBytes n x = leBytes n y ↔ x % 256 ^ n = y % 256 ^ n := by
  constructor
  · intro h
    rw [← leValue_leBytes, ← leValue_leBytes, h]
  · induction n generalizing x y with
    | zero => intro _; rfl
    | succ n ih =>
      intro h
      rw [mod_pow_succ, mod_pow_succ] at h
      have hx := Nat.mod_lt x (show 0 < 256 by norm_num)
      have hy := Nat.mod_lt y (show 0 < 256 by norm_num)
      have h1 : x % 256 = y % 256 := by omega
      have h2 : x / 256 % 256 ^ n = y / 256 % 256 ^ n := by omega
      simp only [leBytes, h1, ih _ _ h2]

theorem leBytes_leValue (b : List Nat) (hb : ∀ x ∈ b, x < 256) :
    leBytes b.length (leValue b) = b := by
  induction b with
  | nil => rfl
  | cons a r ih =>
    have ha : a < 256 := hb a (List.mem_cons_self _ _)
    have hr := ih (fun x hx => hb x (List.mem_cons_of_mem _ hx))
    simp only [List.length_cons, leBytes, leValue]
    have e1 : (a + 256 * leValue r) % 256 = a := by omega
    have e2 : (a + 256 * leValue r) / 256 = leValue r := by omega
    rw [e1, e2, hr]

theorem bytesLt_append (a1 b1 a2 b2 : List Nat) (hl : a1.length = b1.length) :
    bytesLt (a1 ++ a2) (b1 ++ b2) = true ↔
      bytesLt a1 b1 = true ∨ (a1 = b1 ∧ bytesLt a2 b2 = true) := by
  induction a1 generalizing b1 with
  | nil =>
    cases b1 with
    | nil => cases a2 <;> cases b2 <;> simp [bytesLt]
    | cons b r => simp at hl
  | cons a r ih =>
    cases b1 with
    | nil => simp at hl
    | cons b s =>
      have hl2 : r.length = s.length := by simpa using hl
      have e1 : bytesLt (a :: r ++ a2) (b :: s ++ b2)
          = (decide (a < b) || (decide (a = b) && bytesLt (r ++ a2) (s ++ b2))) := rfl
      have e2 : bytesLt (a :: r) (b :: s)
          = (decide (a < b) || (decide (a = b) && bytesLt r s)) := rfl
      rw [e1, e2]
      simp only [Bool.or_eq_true, Bool.and_eq_true, decide_eq_true_eq, ih s hl2,
        List.cons.injEq]
      constructor
      · rintro (h | ⟨h1, h2 | ⟨h2, h3⟩⟩)
        · exact Or.inl (Or.inl h)
        · exact Or.inl (Or.inr ⟨h1, h2⟩)
        · exact Or.inr ⟨⟨h1, h2⟩, h3⟩
      · rintro ((h | ⟨h1, h2⟩) | ⟨⟨h1, h2⟩, h3⟩)
        · exact Or.inl h
        · exact Or.inr ⟨h1, Or.inl h2⟩
        · exact Or.inr ⟨h1, Or.inr ⟨h2, h3⟩⟩

theorem bytesLt_single (a b : Nat) : bytesLt [a] [b] = true ↔ a < b := by
  simp [bytesLt]

/-- Big-endian words of the same width compare as the numbers they hold. -/
theorem bytesLt_be (n x y : Nat) :
    bytesLt (leBytes n x).reverse (leBytes n y).reverse = true ↔ x % 256 ^ n < y % 256 ^ n := by
  induction n generalizing x y with
  | zero => simp [leBytes, bytesLt, Nat.mod_one]
  | succ n ih =>
    simp only [leBytes, List.reverse_cons]
    rw [bytesLt_append _ _ _ _ (by simp [length_leBytes]), ih, bytesLt_single,
      List.reverse_inj, leBytes_eq_iff, mod_pow_succ, mod_pow_succ]
    have hx := Nat.mod_lt x (show 0 < 256 by norm_num)
    have hy := Nat.mod_lt y (show 0 < 256 by norm_num)
    omega

theorem toUint32_lt (x : Int) : toUint32 x < 2 ^ 32 := by
  unfold toUint32
  have h1 : 0 ≤ x % 2 ^ 32 := Int.emod_nonneg _ (by norm_num)
  have h2 : x % 2 ^ 32 < 2 ^ 32 := Int.emod_lt_of_pos _ (by norm_num)
  omega

theorem toUint32_of_nonneg (x : Int) (h0 : 0 ≤ x) (h1 : x < 2 ^ 31) :
    toUint32 x = x.toNat := by
  unfold toUint32
  rw [Int.emod_eq_of_lt h0 (by omega)]

/-- C15: each of the four key shapes writes as many bytes as its
`GetSerializeSize` returns: 21 for `CAddressIndexIteratorKey`, 25 for
`CAddressIndexIteratorHeightKey`, 57 for `CAddressUnspentKey` and 66 for
`CAddressIndexKey`. -/
theorem serialize_sizes :
    (∀ k : CAddressIndexIteratorKey,
        k.Serialize.length = k.GetSerializeSize ∧ k.GetSerializeSize = 21) ∧
      (∀ k : CAddressIndexIteratorHeightKey,
        k.Serialize.length = k.GetSerializeSize ∧ k.GetSerializeSize = 25) ∧
      (∀ k : CAddressUnspentKey,
        k.Serialize.length = k.GetSerializeSize ∧ k.GetSerializeSize = 57) ∧
      (∀ k : CAddressIndexKey,
        k.Serialize.length = k.GetSerializeSize ∧ k.GetSerializeSize = 66) := by
  refine ⟨fun k => ⟨?_, rfl⟩, fun k => ⟨?_, rfl⟩, fun k => ⟨?_, rfl⟩, fun k => ⟨?_, rfl⟩⟩
  · simp [CAddressIndexIteratorKey.Serialize, CAddressIndexIteratorKey.GetSerializeSize,
      ser_writedata8, uint160_Serialize, length_leBytes]
  · simp [CAddressIndexIteratorHeightKey.Serialize,
      CAddressIndexIteratorHeightKey.GetSerializeSize, ser_writedata8, uint160_Serialize,
      ser_writedata32be, length_leBytes]
  · simp [CAddressUnspentKey.Serialize, CAddressUnspentKey.GetSerializeSize, ser_writedata8,
      uint160_Serialize, uint256_Serialize, ser_writedata32, length_leBytes]
  · simp [CAddressIndexKey.Serialize, CAddressIndexKey.GetSerializeSize, ser_writedata8,
      uint160_Serialize, uint256_Serialize, ser_writedata32, ser_writedata32be, length_leBytes]

/-! ## The order of serialized keys -/

theorem ser_writedata8_lt (x y : Nat) (hx : x < 256) (hy : y < 256) :
    bytesLt (ser_writedata8 x) (ser_writedata8 y) = true ↔ x < y := by
  unfold ser_writedata8
  rw [bytesLt_single, Nat.mod_eq_of_lt hx, Nat.mod_eq_of_lt hy]

theorem ser_writedata8_eq (x y : Nat) (hx : x < 256) (hy : y < 256) :
    ser_writedata8 x = ser_writedata8 y ↔ x = y := by
  unfold ser_writedata8
  rw [Nat.mod_eq_of_lt hx, Nat.mod_eq_of_lt hy]
  simp

theorem ser_writedata32be_lt (x y : Nat) (hx : x < 2 ^ 32) (hy : y < 2 ^ 32) :
    bytesLt (ser_writedata32be x) (ser_writedata32be y) = true ↔ x < y := by
  unfold ser_writedata32be
  rw [bytesLt_be, Nat.mod_eq_of_lt (by norm_num; omega), Nat.mod_eq_of_lt (by norm_num; omega)]

theorem ser_writedata32be_eq (x y : Nat) (hx : x < 2 ^ 32) (hy : y < 2 ^ 32) :
    ser_writedata32be x = ser_writedata32be y ↔ x = y := by
  unfold ser_writedata32be
  rw [List.reverse_inj, leBytes_eq_iff, Nat.mod_eq_of_lt (by norm_num; omega),
    Nat.mod_eq_of_lt (by norm_num; omega)]

theorem spending_byte_lt (a b : Bool) :
    bytesLt (ser_writedata8 (if a then 1 else 0)) (ser_writedata8 (if b then 1 else 0)) = true
      ↔ (a = false ∧ b = true) := by
  cases a <;> cases b <;> simp [ser_writedata8, bytesLt]

/-- The byte order of two serialized keys, field by field. -/
theorem serialize_lt_iff (a b : CAddressIndexKey) (ha : a.type < 256) (hb : b.type < 256)
    (hta : a.txindex < 2 ^ 32) (htb : b.txindex < 2 ^ 32) :
    bytesLt a.Serialize b.Serialize = true ↔ serializedLt a b := by
  unfold CAddressIndexKey.Serialize serializedLt
  rw [bytesLt_append _ _ _ _ (by simp [ser_writedata8]),
    bytesLt_append _ _ _ _ (by simp [uint160_Serialize, length_leBytes]),
    bytesLt_append _ _ _ _ (by simp [ser_writedata32be, length_leBytes]),
    bytesLt_append _ _ _ _ (by simp [ser_writedata32be, length_leBytes]),
    bytesLt_append _ _ _ _ (by simp [uint256_Serialize, length_leBytes]),
    bytesLt_append _ _ _ _ (by simp [ser_writedata32, length_leBytes]),
    ser_writedata8_lt _ _ ha hb, ser_writedata8_eq _ _ ha hb,
    ser_writedata32be_lt _ _ (toUint32_lt _) (toUint32_lt _),
    ser_writedata32be_eq _ _ (toUint32_lt _) (toUint32_lt _),
    ser_writedata32be_lt _ _ hta htb, ser_writedata32be_eq _ _ hta htb, spending_byte_lt]

/-- C16, counterexample: four pairs of keys that differ in one field and are
ascending in the tuple order by value, while their serialized bytes are not
ascending: addresses 1 and 256, transaction hashes 1 and 256, output indexes 1
and 256 (written least significant byte first), and heights -1 and 0 (-1 is
written `ff ff ff ff`). -/
theorem serialized_order_differs :
    (tupleLt (sampleKey 1 0 0 0) (sampleKey 256 0 0 0) ∧
      bytesLt (sampleKey 1 0 0 0).Serialize (sampleKey 256 0 0 0).Serialize = false) ∧
    (tupleLt (sampleKey 0 0 1 0) (sampleKey 0 0 256 0) ∧
      bytesLt (sampleKey 0 0 1 0).Serialize (sampleKey 0 0 256 0).Serialize = false) ∧
    (tupleLt (sampleKey 0 0 0 1) (sampleKey 0 0 0 256) ∧
      bytesLt (sampleKey 0 0 0 1).Serialize (sampleKey 0 0 0 256).Serialize = false) ∧
    (tupleLt (sampleKey 0 (-1) 0 0) (sampleKey 0 0 0 0) ∧
      bytesLt (sampleKey 0 (-1) 0 0).Serialize (sampleKey 0 0 0 0).Serialize = false) := by
  decide

/-- C16, amended: for two `CAddressIndexKey` values with type below 256 and
transaction index below `2 ^ 32`, the serialized bytes of `a` are
byte-lexicographically smaller than those of `b` if and only if `a` is smaller
than `b` in the tuple order on `(type, address, block_height, tx_index, tx_hash,
output_index, spending)` in which type, transaction index and spending compare
by value, the block height by its unsigned 32-bit value, and the address, the
transaction hash and the output index by the bytes written for them, least
significant byte first. -/
theorem serialized_order_law (a b : CAddressIndexKey) (ha : a.type < 256) (hb : b.type < 256)
    (hta : a.txindex < 2 ^ 32) (htb : b.txindex < 2 ^ 32) :
    bytesLt a.Serialize b.Serialize = true ↔ serializedLt a b :=
  serialize_lt_iff a b ha hb hta htb

/-- C16, witness: heights 255 and 256 of the same address. -/
theorem serialized_order_law_witness :
    bytesLt (sampleKey 7 255 0 0).Serialize (sampleKey 7 256 0 0).Serialize = true ↔
      serializedLt (sampleKey 7 255 0 0) (sampleKey 7 256 0 0) :=
  serialized_order_law (sampleKey 7 255 0 0) (sampleKey 7 256 0 0) (by decide) (by decide)
    (by decide) (by decide)

theorem serialize_height_bytes (a : CAddressIndexKey) :
    (a.Serialize.drop 21).take 4 = ser_writedata32be (toUint32 a.blockHeight) ∧
      (a.Serialize.drop 25).take 4 = ser_writedata32be a.txindex := by
  unfold CAddressIndexKey.Serialize
  constructor
  · rw [← List.append_assoc,
      List.drop_left' (by simp [ser_writedata8, uint160_Serialize, length_leBytes]),
      List.take_left' (by simp [ser_writedata32be, length_leBytes])]
  · rw [← List.append_assoc, ← List.append_assoc,
      List.drop_left' (by
        simp [ser_writedata8, uint160_Serialize, ser_writedata32be, length_leBytes]),
      List.take_left' (by simp [ser_writedata32be, length_leBytes])]

/-- C17: for two `CAddressIndexKey` values with the same type and address,
heights from 0 to `2 ^ 31 - 1` and transaction indexes below `2 ^ 32`, a smaller
height, or the same height and a smaller transaction index, gives
byte-lexicographically smaller serialized bytes; bytes 21 to 24 are the
big-endian height, `00 00 00 ff` for 255 and `00 00 01 00` for 256, and bytes 25
to 28 the big-endian transaction index. -/
theorem height_ascending_scan (a b : CAddressIndexKey) (ht : a.type = b.type)
    (hh : a.hashBytes = b.hashBytes)
    (ha0 : 0 ≤ a.blockHeight) (ha1 : a.blockHeight < 2 ^ 31)
    (hb0 : 0 ≤ b.blockHeight) (hb1 : b.blockHeight < 2 ^ 31)
    (hta : a.txindex < 2 ^ 32) (htb : b.txindex < 2 ^ 32)
    (hlt : a.blockHeight < b.blockHeight ∨
      (a.blockHeight = b.blockHeight ∧ a.txindex < b.txindex)) :
    bytesLt a.Serialize b.Serialize = true ∧
      (a.Serialize.drop 21).take 4 = ser_writedata32be a.blockHeight.toNat ∧
      (a.Serialize.drop 25).take 4 = ser_writedata32be a.txindex ∧
      ser_writedata32be 255 = [0, 0, 0, 255] ∧ ser_writedata32be 256 = [0, 0, 1, 0] := by
  refine ⟨?_, ?_, (serialize_height_bytes a).2, by decide, by decide⟩
  · unfold CAddressIndexKey.Serialize
    rw [bytesLt_append _ _ _ _ (by simp [ser_writedata8]),
      bytesLt_append _ _ _ _ (by simp [uint160_Serialize, length_leBytes]),
      bytesLt_append _ _ _ _ (by simp [ser_writedata32be, length_leBytes]),
      bytesLt_append _ _ _ _ (by simp [ser_writedata32be, length_leBytes])]
    refine Or.inr ⟨by rw [ht], Or.inr ⟨by rw [hh], ?_⟩⟩
    rcases hlt with h | ⟨h1, h2⟩
    · left
      rw [ser_writedata32be_lt _ _ (toUint32_lt _) (toUint32_lt _),
        toUint32_of_nonneg _ ha0 ha1, toUint32_of_nonneg _ hb0 hb1]
      omega
    · right
      exact ⟨by rw [h1], Or.inl ((ser_writedata32be_lt _ _ hta htb).2 h2)⟩
  · rw [(serialize_height_bytes a).1, toUint32_of_nonneg _ ha0 ha1]

/-- C17, witness: heights 255 and 256 of the same address. -/
theorem height_ascending_scan_witness :
    bytesLt (sampleKey 7 255 0 0).Serialize (sampleKey 7 256 0 0).Serialize = true ∧
      ((sampleKey 7 255 0 0).Serialize.drop 21).take 4
        = ser_writedata32be (sampleKey 7 255 0 0).blockHeight.toNat ∧
      ((sampleKey 7 255 0 0).Serialize.drop 25).take 4
        = ser_writedata32be (sampleKey 7 255 0 0).txindex ∧
      ser_writedata32be 255 = [0, 0, 0, 255] ∧ ser_writedata32be 256 = [0, 0, 1, 0] :=
  height_ascending_scan (sampleKey 7 255 0 0) (sampleKey 7 256 0 0) rfl rfl (by decide)
    (by decide) (by decide) (by decide) (by decide) (by decide) (Or.inl (by decide))

/-! ## Reading back what was written -/

theorem readBytes_ok (n : Nat) (s : List Nat) (h : n ≤ s.length) :
    readBytes n s = some (s.take n, s.drop n) := by
  unfold readBytes
  rw [if_pos h]

theorem take_drop_bytes (n m : Nat) (s : List Nat) (hs : byteString m s) (h : n ≤ m) :
    (s.take n).length = n ∧ (∀ x ∈ s.take n, x < 256) ∧ byteString (m - n) (s.drop n) := by
  obtain ⟨hl, hb⟩ := hs
  refine ⟨by rw [List.length_take]; omega, fun x hx => hb x (List.mem_of_mem_take hx),
    by rw [List.length_drop, hl], fun x hx => hb x (List.mem_of_mem_drop hx)⟩

theorem toUint32_toInt32 (v : Nat) : toUint32 (toInt32 v) = v % 2 ^ 32 := by
  unfold toUint32 toInt32
  have h : v % 2 ^ 32 < 2 ^ 32 := Nat.mod_lt _ (by norm_num)
  generalize v % 2 ^ 32 = w at h
  norm_num at h
  split_ifs with h1 <;> omega

theorem leBytes_mod (n v : Nat) : leBytes n (v % 256 ^ n) = leBytes n v := by
  rw [leBytes_eq_iff, Nat.mod_mod]

/-- Reading one byte and writing it again gives the stream back. -/
theorem read8_write8 (m : Nat) (s : List Nat) (hs : byteString (m + 1) s) :
    ∃ v r, ser_readdata8 s = some (v, r) ∧ ser_writedata8 v ++ r = s ∧ byteString m r ∧
      v < 256 := by
  obtain ⟨h1, h2, h3⟩ := take_drop_bytes 1 (m + 1) s hs (by omega)
  refine ⟨leValue (s.take 1), s.drop 1, ?_, ?_, by simpa using h3, ?_⟩
  · unfold ser_readdata8
    rw [readBytes_ok 1 s (by rw [hs.1]; omega)]
    rfl
  · have e : ser_writedata8 (leValue (s.take 1)) = leBytes (s.take 1).length (leValue (s.take 1)) := by
      rw [h1]; rfl
    rw [e, leBytes_leValue _ h2, List.take_append_drop]
  · have e := leValue_leBytes (s.take 1).length (leValue (s.take 1))
    rw [leBytes_leValue _ h2, h1] at e
    rw [e]
    exact Nat.mod_lt _ (by norm_num)

theorem readLe_writeLe (n m : Nat) (s : List Nat) (hs : byteString (m + n) s) :
    leBytes n (leValue (s.take n)) ++ s.drop n = s ∧ byteString m (s.drop n) := by
  obtain ⟨h1, h2, h3⟩ := take_drop_bytes n (m + n) s hs (by omega)
  refine ⟨?_, by simpa using h3⟩
  have e := leBytes_leValue _ h2
  rw [h1] at e
  rw [e, List.take_append_drop]

theorem readBe_writeBe (m : Nat) (s : List Nat) (hs : byteString (m + 4) s) :
    ∃ v r, ser_readdata32be s = some (v, r) ∧ ser_writedata32be v ++ r = s ∧
      ser_writedata32be (toUint32 (toInt32 v)) ++ r = s ∧ byteString m r := by
  obtain ⟨h1, h2, h3⟩ := take_drop_bytes 4 (m + 4) s hs (by omega)
  have hw : ser_writedata32be (leValue (s.take 4).reverse) = s.take 4 := by
    unfold ser_writedata32be
    have e := leBytes_leValue (s.take 4).reverse (fun x hx => h2 x (List.mem_reverse.1 hx))
    rw [List.length_reverse, h1] at e
    rw [e, List.reverse_reverse]
  refine ⟨leValue (s.take 4).reverse, s.drop 4, ?_, ?_, ?_, by simpa using h3⟩
  · unfold ser_readdata32be
    rw [readBytes_ok 4 s (by rw [hs.1]; omega)]
    rfl
  · rw [hw, List.take_append_drop]
  · have e : ser_writedata32be (toUint32 (toInt32 (leValue (s.take 4).reverse)))
        = ser_writedata32be (leValue (s.take 4).reverse) := by
      unfold ser_writedata32be
      rw [toUint32_toInt32, show (2 : Nat) ^ 32 = 256 ^ 4 by norm_num, leBytes_mod]
    rw [e, hw, List.take_append_drop]

theorem read160_write160 (m : Nat) (s : List Nat) (hs : byteString (m + 20) s) :
    ∃ v r, uint160_Unserialize s = some (v, r) ∧ uint160_Serialize v ++ r = s ∧
      byteString m r := by
  refine ⟨leValue (s.take 20), s.drop 20, ?_, (readLe_writeLe 20 m s hs).1,
    (readLe_writeLe 20 m s hs).2⟩
  unfold uint160_Unserialize
  rw [readBytes_ok 20 s (by rw [hs.1]; omega)]
  rfl

theorem read256_write256 (m : Nat) (s : List Nat) (hs : byteString (m + 32) s) :
    ∃ v r, uint256_Unserialize s = some (v, r) ∧ uint256_Serialize v ++ r = s ∧
      byteString m r := by
  refine ⟨leValue (s.take 32), s.drop 32, ?_, (readLe_writeLe 32 m s hs).1,
    (readLe_writeLe 32 m s hs).2⟩
  unfold uint256_Unserialize
  rw [readBytes_ok 32 s (by rw [hs.1]; omega)]
  rfl

theorem read32_write32 (m : Nat) (s : List Nat) (hs : byteString (m + 4) s) :
    ∃ v r, ser_readdata32 s = some (v, r) ∧ ser_writedata32 v ++ r = s ∧ byteString m r := by
  refine ⟨leValue (s.take 4), s.drop 4, ?_, (readLe_writeLe 4 m s hs).1,
    (readLe_writeLe 4 m s hs).2⟩
  unfold ser_readdata32
  rw [readBytes_ok 4 s (by rw [hs.1]; omega)]
  rfl

theorem byteString_zero (r : List Nat) (h : byteString 0 r) : r = [] :=
  List.length_eq_zero.1 h.1

theorem spending_tail (P b : List Nat) (v : Nat) (hb : b = P ++ [v]) (hP : P.length = 65) :
    P ++ [(if decide (v ≠ 0) = true then 1 else 0) % 256]
        = b.take 65 ++ [if b.drop 65 = [0] then 0 else 1] ∧
      (P ++ [(if decide (v ≠ 0) = true then 1 else 0) % 256] = b ↔
        (b.drop 65 = [0] ∨ b.drop 65 = [1])) := by
  have ht : b.take 65 = P := by rw [hb]; exact List.take_left' hP
  have hd : b.drop 65 = [v] := by rw [hb]; exact List.drop_left' hP
  rw [ht, hd, hb]
  by_cases h0 : v = 0
  · subst h0
    simp
  · have e : (if decide (v ≠ 0) = true then 1 else 0) % 256 = 1 := by simp [h0]
    rw [e]
    simp only [List.cons.injEq, and_true, h0, if_false, false_or, true_and,
      List.append_cancel_left_eq]
    exact eq_comm

theorem iteratorKey_roundtrip (b : List Nat) (hb : byteString 21 b) :
    ∃ k, CAddressIndexIteratorKey.Unserialize b = some (k, []) ∧ k.Serialize = b := by
  obtain ⟨v1, r1, e1, w1, hr1, -⟩ := read8_write8 20 b hb
  obtain ⟨v2, r2, e2, w2, hr2⟩ := read160_write160 0 r1 (by simpa using hr1)
  have h0 := byteString_zero r2 hr2
  subst h0
  refine ⟨⟨v1, v2⟩, ?_, ?_⟩
  · simp only [CAddressIndexIteratorKey.Unserialize, e1, e2, Option.some_bind]
  · rw [List.append_nil] at w2
    show ser_writedata8 v1 ++ uint160_Serialize v2 = b
    rw [w2, w1]

theorem heightKey_roundtrip (b : List Nat) (hb : byteString 25 b) :
    ∃ k, CAddressIndexIteratorHeightKey.Unserialize b = some (k, []) ∧ k.Serialize = b := by
  obtain ⟨v1, r1, e1, w1, hr1, -⟩ := read8_write8 24 b hb
  obtain ⟨v2, r2, e2, w2, hr2⟩ := read160_write160 4 r1 (by simpa using hr1)
  obtain ⟨v3, r3, e3, -, w3, hr3⟩ := readBe_writeBe 0 r2 (by simpa using hr2)
  have h0 := byteString_zero r3 hr3
  subst h0
  refine ⟨⟨v1, v2, toInt32 v3⟩, ?_, ?_⟩
  · simp only [CAddressIndexIteratorHeightKey.Unserialize, e1, e2, e3, Option.some_bind]
  · rw [List.append_nil] at w3
    show ser_writedata8 v1 ++ (uint160_Serialize v2 ++ ser_writedata32be (toUint32 (toInt32 v3)))
      = b
    rw [w3, w2, w1]

theorem unspentKey_roundtrip (b : List Nat) (hb : byteString 57 b) :
    ∃ k, CAddressUnspentKey.Unserialize b = some (k, []) ∧ k.Serialize = b := by
  obtain ⟨v1, r1, e1, w1, hr1, -⟩ := read8_write8 56 b hb
  obtain ⟨v2, r2, e2, w2, hr2⟩ := read160_write160 36 r1 (by simpa using hr1)
  obtain ⟨v3, r3, e3, w3, hr3⟩ := read256_write256 4 r2 (by simpa using hr2)
  obtain ⟨v4, r4, e4, w4, hr4⟩ := read32_write32 0 r3 (by simpa using hr3)
  have h0 := byteString_zero r4 hr4
  subst h0
  refine ⟨⟨v1, v2, v3, v4⟩, ?_, ?_⟩
  · simp only [CAddressUnspentKey.Unserialize, e1, e2, e3, e4, Option.some_bind]
  · rw [List.append_nil] at w4
    show ser_writedata8 v1 ++ (uint160_Serialize v2 ++ (uint256_Serialize v3 ++
      ser_writedata32 v4)) = b
    rw [w4, w3, w2, w1]

theorem indexKey_roundtrip (b : List Nat) (hb : byteString 66 b) :
    ∃ k, CAddressIndexKey.Unserialize b = some (k, []) ∧
      k.Serialize = b.take 65 ++ [if b.drop 65 = [0] then 0 else 1] ∧
      (k.Serialize = b ↔ (b.drop 65 = [0] ∨ b.drop 65 = [1])) := by
  obtain ⟨v1, r1, e1, w1, hr1, -⟩ := read8_write8 65 b hb
  obtain ⟨v2, r2, e2, w2, hr2⟩ := read160_write160 45 r1 (by simpa using hr1)
  obtain ⟨v3, r3, e3, -, w3, hr3⟩ := readBe_writeBe 41 r2 (by simpa using hr2)
  obtain ⟨v4, r4, e4, w4, -, hr4⟩ := readBe_writeBe 37 r3 (by simpa using hr3)
  obtain ⟨v5, r5, e5, w5, hr5⟩ := read256_write256 5 r4 (by simpa using hr4)
  obtain ⟨v6, r6, e6, w6, hr6⟩ := read32_write32 1 r5 (by simpa using hr5)
  obtain ⟨v7, r7, e7, w7, hr7, hv7⟩ := read8_write8 0 r6 (by simpa using hr6)
  have h0 := byteString_zero r7 hr7
  subst h0
  refine ⟨⟨v1, v2, toInt32 v3, v4, v5, v6, decide (v7 ≠ 0)⟩, ?_, ?_⟩
  · simp only [CAddressIndexKey.Unserialize, e1, e2, e3, e4, e5, e6, e7, Option.some_bind]
  · have h6 : r6 = [v7] := by
      rw [← w7, List.append_nil]
      show [v7 % 256] = [v7]
      rw [Nat.mod_eq_of_lt hv7]
    have hbP : b = (ser_writedata8 v1 ++ (uint160_Serialize v2 ++
        (ser_writedata32be (toUint32 (toInt32 v3)) ++ (ser_writedata32be v4 ++
          (uint256_Serialize v5 ++ ser_writedata32 v6))))) ++ [v7] := by
      rw [← h6]
      simp only [List.append_assoc]
      rw [w6, w5, w4, w3, w2, w1]
    have hP : (ser_writedata8 v1 ++ (uint160_Serialize v2 ++
        (ser_writedata32be (toUint32 (toInt32 v3)) ++ (ser_writedata32be v4 ++
          (uint256_Serialize v5 ++ ser_writedata32 v6))))).length = 65 := by
      have hl := congrArg List.length hbP
      rw [List.length_append, hb.1] at hl
      simp only [List.length_singleton] at hl
      omega
    have hS : CAddressIndexKey.Serialize ⟨v1, v2, toInt32 v3, v4, v5, v6, decide (v7 ≠ 0)⟩
        = (ser_writedata8 v1 ++ (uint160_Serialize v2 ++
        (ser_writedata32be (toUint32 (toInt32 v3)) ++ (ser_writedata32be v4 ++
          (uint256_Serialize v5 ++ ser_writedata32 v6))))) ++
          [(if decide (v7 ≠ 0) = true then 1 else 0) % 256] := by
      simp only [CAddressIndexKey.Serialize, ser_writedata8, List.append_assoc]
    rw [hS]
    exact spending_tail _ b v7 hbP hP

/-! ## Serialize after Unserialize -/

/-- C18, as stated: the 66 bytes `00 … 00 02` are read by
`CAddressIndexKey::Unserialize` as a key whose `spending` is `true`, and
`Serialize` writes that key back with a last byte of `01`, not `02`: serialize
after deserialize is not the identity on every 66-byte string. -/
theorem serialize_after_deserialize_changes_flag :
    byteString 66 bytesLastTwo ∧
      (CAddressIndexKey.Unserialize bytesLastTwo).map (fun p => (p.1.Serialize, p.2))
        = some (List.replicate 65 0 ++ [1], []) ∧
      List.replicate 65 0 ++ [1] ≠ bytesLastTwo := by
  decide

/-- C18, amended: for the three shapes without a flag byte, every byte string of
exactly 21, 25 or 57 bytes is read completely and written back unchanged.  A
string of exactly 66 bytes is read completely as a `CAddressIndexKey`, whose
serialization is the first 65 bytes followed by `00` when the last byte is `00`
and by `01` otherwise; it equals the input exactly when the last byte is `00` or
`01`. -/
theorem serialize_after_deserialize (b : List Nat) :
    (byteString 21 b →
      ∃ k, CAddressIndexIteratorKey.Unserialize b = some (k, []) ∧ k.Serialize = b) ∧
    (byteString 25 b →
      ∃ k, CAddressIndexIteratorHeightKey.Unserialize b = some (k, []) ∧ k.Serialize = b) ∧
    (byteString 57 b →
      ∃ k, CAddressUnspentKey.Unserialize b = some (k, []) ∧ k.Serialize = b) ∧
    (byteString 66 b →
      ∃ k, CAddressIndexKey.Unserialize b = some (k, []) ∧
        k.Serialize = b.take 65 ++ [if b.drop 65 = [0] then 0 else 1] ∧
        (k.Serialize = b ↔ (b.drop 65 = [0] ∨ b.drop 65 = [1]))) :=
  ⟨iteratorKey_roundtrip b, heightKey_roundtrip b, unspentKey_roundtrip b,
    indexKey_roundtrip b⟩

/-- The amended C18 at the 66 bytes `07 … 07 01` and at prefixes of them of 21, 25
and 57 bytes: each is read completely and written back unchanged. -/
theorem serialize_after_deserialize_witness :
    (byteString 21 (bytesLastOne.take 21) ∧
      ∃ k, CAddressIndexIteratorKey.Unserialize (bytesLastOne.take 21) = some (k, []) ∧
        k.Serialize = bytesLastOne.take 21) ∧
    (byteString 25 (bytesLastOne.take 25) ∧
      ∃ k, CAddressIndexIteratorHeightKey.Unserialize (bytesLastOne.take 25) = some (k, []) ∧
        k.Serialize = bytesLastOne.take 25) ∧
    (byteString 57 (bytesLastOne.take 57) ∧
      ∃ k, CAddressUnspentKey.Unserialize (bytesLastOne.take 57) = some (k, []) ∧
        k.Serialize = bytesLastOne.take 57) ∧
    (byteString 66 bytesLastOne ∧
      ∃ k, CAddressIndexKey.Unserialize bytesLastOne = some (k, []) ∧
        k.Serialize = bytesLastOne) :=
  ⟨⟨by decide, (serialize_after_deserialize _).1 (by decide)⟩,
    ⟨by decide, (serialize_after_deserialize _).2.1 (by decide)⟩,
    ⟨by decide, (serialize_after_deserialize _).2.2.1 (by decide)⟩,
    ⟨by decide,
      (((serialize_after_deserialize bytesLastOne).2.2.2 (by decide)).imp
        fun _ h => ⟨h.1, h.2.2.2 (Or.inr (by decide))⟩)⟩⟩

/-! ## Reading what was written -/

theorem readBytes_append (n : Nat) (a r : List Nat) (h : a.length = n) :
    readBytes n (a ++ r) = some (a, r) := by
  unfold readBytes
  rw [if_pos (by rw [List.length_append]; omega), List.take_left' h, List.drop_left' h]

theorem read8_after_write8 (x : Nat) (r : List Nat) :
    ser_readdata8 (ser_writedata8 x ++ r) = some (x % 256, r) := by
  unfold ser_readdata8 ser_writedata8
  rw [readBytes_append 1 [x % 256] r rfl]
  simp [leValue]

theorem read32_after_write32 (x : Nat) (r : List Nat) :
    ser_readdata32 (ser_writedata32 x ++ r) = some (x % 2 ^ 32, r) := by
  unfold ser_readdata32 ser_writedata32
  rw [readBytes_append 4 _ r (length_leBytes 4 x)]
  simp only [Option.map_some', leValue_leBytes]
  norm_num

theorem read32be_after_write32be (x : Nat) (r : List Nat) :
    ser_readdata32be (ser_writedata32be x ++ r) = some (x % 2 ^ 32, r) := by
  unfold ser_readdata32be ser_writedata32be
  rw [readBytes_append 4 _ r (by rw [List.length_reverse, length_leBytes])]
  simp only [Option.map_some', List.reverse_reverse, leValue_leBytes]
  norm_num

theorem read160_after_write160 (x : uint160) (r : List Nat) :
    uint160_Unserialize (uint160_Serialize x ++ r) = some (x % 2 ^ 160, r) := by
  unfold uint160_Unserialize uint160_Serialize
  rw [readBytes_append 20 _ r (length_leBytes 20 x)]
  simp only [Option.map_some', leValue_leBytes]
  norm_num

theorem read256_after_write256 (x : uint256) (r : List Nat) :
    uint256_Unserialize (uint256_Serialize x ++ r) = some (x % 2 ^ 256, r) := by
  unfold uint256_Unserialize uint256_Serialize
  rw [readBytes_append 32 _ r (length_leBytes 32 x)]
  simp only [Option.map_some', leValue_leBytes]
  norm_num

theorem toInt32_toUint32 (h : Int) (h0 : -(2 ^ 31) ≤ h) (h1 : h < 2 ^ 31) :
    toInt32 (toUint32 h % 2 ^ 32) = h := by
  have hl := toUint32_lt h
  rw [Nat.mod_eq_of_lt hl]
  unfold toInt32
  rw [Nat.mod_eq_of_lt hl]
  unfold toUint32 at hl ⊢
  split_ifs with h2 <;> omega

theorem iteratorKey_read_written (k : CAddressIndexIteratorKey) (hk : k.inRange) :
    CAddressIndexIteratorKey.Unserialize k.Serialize = some (k, []) := by
  obtain ⟨h1, h2⟩ := hk
  have e : k.Serialize = ser_writedata8 k.type ++ (uint160_Serialize k.hashBytes ++ []) := by
    rw [List.append_nil]
    rfl
  rw [e]
  simp only [CAddressIndexIteratorKey.Unserialize, read8_after_write8, read160_after_write160,
    Option.some_bind, Nat.mod_eq_of_lt h1, Nat.mod_eq_of_lt h2]

theorem heightKey_read_written (k : CAddressIndexIteratorHeightKey) (hk : k.inRange) :
    CAddressIndexIteratorHeightKey.Unserialize k.Serialize = some (k, []) := by
  obtain ⟨h1, h2, h3, h4⟩ := hk
  have e : k.Serialize = ser_writedata8 k.type ++ (uint160_Serialize k.hashBytes ++
      (ser_writedata32be (toUint32 k.blockHeight) ++ [])) := by
    rw [List.append_nil]
    rfl
  rw [e]
  simp only [CAddressIndexIteratorHeightKey.Unserialize, read8_after_write8,
    read160_after_write160, read32be_after_write32be, Option.some_bind, Nat.mod_eq_of_lt h1,
    Nat.mod_eq_of_lt h2, toInt32_toUint32 _ h3 h4]

theorem unspentKey_read_written (k : CAddressUnspentKey) (hk : k.inRange) :
    CAddressUnspentKey.Unserialize k.Serialize = some (k, []) := by
  obtain ⟨h1, h2, h3, h4⟩ := hk
  have e : k.Serialize = ser_writedata8 k.type ++ (uint160_Serialize k.hashBytes ++
      (uint256_Serialize k.txhash ++ (ser_writedata32 k.index ++ []))) := by
    rw [List.append_nil]
    rfl
  rw [e]
  simp only [CAddressUnspentKey.Unserialize, read8_after_write8, read160_after_write160,
    read256_after_write256, read32_after_write32, Option.some_bind, Nat.mod_eq_of_lt h1,
    Nat.mod_eq_of_lt h2, Nat.mod_eq_of_lt h3, Nat.mod_eq_of_lt h4]

theorem indexKey_read_written (k : CAddressIndexKey) (hk : k.inRange) :
    CAddressIndexKey.Unserialize k.Serialize = some (k, []) := by
  obtain ⟨h1, h2, h3, h4, h5, h6, h7⟩ := hk
  have e : k.Serialize = ser_writedata8 k.type ++ (uint160_Serialize k.hashBytes ++
      (ser_writedata32be (toUint32 k.blockHeight) ++ (ser_writedata32be k.txindex ++
        (uint256_Serialize k.txhash ++ (ser_writedata32 k.index ++
          (ser_writedata8 (if k.spending then 1 else 0) ++ [])))))) := by
    rw [List.append_nil]
    rfl
  rw [e]
  simp only [CAddressIndexKey.Unserialize, read8_after_write8, read160_after_write160,
    read256_after_write256, read32_after_write32, read32be_after_write32be, Option.some_bind,
    Nat.mod_eq_of_lt h1, Nat.mod_eq_of_lt h2, Nat.mod_eq_of_lt h5, Nat.mod_eq_of_lt h6,
    Nat.mod_eq_of_lt h7, toInt32_toUint32 _ h3 h4]
  cases k with
  | mk type hashBytes blockHeight txindex txhash index spending =>
    cases spending <;> simp

theorem eq_of_read_written {α : Type} (read : List Nat → Option (α × List Nat))
    (write : α → List Nat) (a b : α) (ha : read (write a) = some (a, []))
    (hb : read (write b) = some (b, [])) (h : write a = write b) : a = b := by
  rw [h, hb] at ha
  exact (congrArg Prod.fst (Option.some.inj ha)).symm

/-- C21: for each of the four persistent key shapes and every key whose fields
are in range (type below 256, index below `2 ^ 32`, the height an `int`, the
transaction index an `unsigned int`, the hashes 160 and 256 bits wide),
`Unserialize` reads the bytes written by `Serialize` completely and yields the
same key; consequently `Serialize` is injective on such keys. -/
theorem unserialize_serialize :
    (∀ k : CAddressIndexIteratorKey, k.inRange →
      CAddressIndexIteratorKey.Unserialize k.Serialize = some (k, [])) ∧
    (∀ k : CAddressIndexIteratorHeightKey, k.inRange →
      CAddressIndexIteratorHeightKey.Unserialize k.Serialize = some (k, [])) ∧
    (∀ k : CAddressUnspentKey, k.inRange →
      CAddressUnspentKey.Unserialize k.Serialize = some (k, [])) ∧
    (∀ k : CAddressIndexKey, k.inRange →
      CAddressIndexKey.Unserialize k.Serialize = some (k, [])) ∧
    (∀ a b : CAddressIndexIteratorKey, a.inRange → b.inRange →
      a.Serialize = b.Serialize → a = b) ∧
    (∀ a b : CAddressIndexIteratorHeightKey, a.inRange → b.inRange →
      a.Serialize = b.Serialize → a = b) ∧
    (∀ a b : CAddressUnspentKey, a.inRange → b.inRange →
      a.Serialize = b.Serialize → a = b) ∧
    (∀ a b : CAddressIndexKey, a.inRange → b.inRange →
      a.Serialize = b.Serialize → a = b) :=
  ⟨iteratorKey_read_written, heightKey_read_written, unspentKey_read_written,
    indexKey_read_written,
    fun a b ha hb => eq_of_read_written _ _ a b (iteratorKey_read_written a ha)
      (iteratorKey_read_written b hb),
    fun a b ha hb => eq_of_read_written _ _ a b (heightKey_read_written a ha)
      (heightKey_read_written b hb),
    fun a b ha hb => eq_of_read_written _ _ a b (unspentKey_read_written a ha)
      (unspentKey_read_written b hb),
    fun a b ha hb => eq_of_read_written _ _ a b (indexKey_read_written a ha)
      (indexKey_read_written b hb)⟩

/-- C21 at sample keys with every field at the top of its range, a height of -1
and the spending flag set: each is in range and is read back from its bytes; two
in-range keys that differ in the height have different bytes. -/
theorem unserialize_serialize_witness :
    ((⟨255, 2 ^ 160 - 1⟩ : CAddressIndexIteratorKey).inRange ∧
      CAddressIndexIteratorKey.Unserialize
          (⟨255, 2 ^ 160 - 1⟩ : CAddressIndexIteratorKey).Serialize
        = some (⟨255, 2 ^ 160 - 1⟩, [])) ∧
    ((⟨255, 2 ^ 160 - 1, -1⟩ : CAddressIndexIteratorHeightKey).inRange ∧
      CAddressIndexIteratorHeightKey.Unserialize
          (⟨255, 2 ^ 160 - 1, -1⟩ : CAddressIndexIteratorHeightKey).Serialize
        = some (⟨255, 2 ^ 160 - 1, -1⟩, [])) ∧
    ((⟨255, 2 ^ 160 - 1, 2 ^ 256 - 1, 2 ^ 32 - 1⟩ : CAddressUnspentKey).inRange ∧
      CAddressUnspentKey.Unserialize
          (⟨255, 2 ^ 160 - 1, 2 ^ 256 - 1, 2 ^ 32 - 1⟩ : CAddressUnspentKey).Serialize
        = some (⟨255, 2 ^ 160 - 1, 2 ^ 256 - 1, 2 ^ 32 - 1⟩, [])) ∧
    (sampleSpendKey.inRange ∧
      CAddressIndexKey.Unserialize sampleSpendKey.Serialize = some (sampleSpendKey, [])) ∧
    ((sampleKey 7 255 0 0).inRange ∧ (sampleKey 7 256 0 0).inRange ∧
      (sampleKey 7 255 0 0).Serialize ≠ (sampleKey 7 256 0 0).Serialize) :=
  ⟨⟨by decide, unserialize_serialize.1 _ (by decide)⟩,
    ⟨by decide, unserialize_serialize.2.1 _ (by decide)⟩,
    ⟨by decide, unserialize_serialize.2.2.1 _ (by decide)⟩,
    ⟨by decide, unserialize_serialize.2.2.2.1 _ (by decide)⟩,
    ⟨by decide, by decide, fun h =>
      absurd (unserialize_serialize.2.2.2.2.2.2.2 _ _ (by decide) (by decide) h) (by decide)⟩⟩

/-! ## The spent index -/

theorem spentInputs_readable (env : Env) (nullTx : CTransaction) (txhash : uint256)
    (vin : List CTxIn) (j : Nat) (m : SMap CSpentIndexKey CSpentIndexValue)
    (inserted : List CSpentIndexKey) (h : ∀ input ∈ vin, readable env input) :
    spentInputs env nullTx txhash vin j m inserted = (none, m, inserted) := by
  induction vin generalizing j with
  | nil => rfl
  | cons input r ih =>
    have h1 : readable env input := h input (List.mem_cons_self _ _)
    unfold readable at h1
    obtain ⟨t, ht⟩ := Option.isSome_iff_exists.1 h1
    simp only [spentInputs, ht]
    exact ih (j + 1) (fun i hi => h i (List.mem_cons_of_mem _ hi))

theorem spentInputs_unreadable (env : Env) (nullTx : CTransaction) (txhash : uint256)
    (h0 : nullTx.vout = []) (pre : List CTxIn) (input : CTxIn) (post : List CTxIn) (j : Nat)
    (m : SMap CSpentIndexKey CSpentIndexValue) (inserted : List CSpentIndexKey)
    (hpre : ∀ i ∈ pre, readable env i) (hin : ¬ readable env input) :
    spentInputs env nullTx txhash (pre ++ input :: post) j m inserted
      = (some "addSpentIndex() : n out of range", m, inserted) := by
  induction pre generalizing j with
  | nil =>
    have hn : env.ReadDiskTx input.prevout = none := by
      unfold readable at hin
      cases hr : env.ReadDiskTx input.prevout with
      | none => rfl
      | some t => rw [hr] at hin; exact absurd rfl hin
    simp only [List.nil_append, spentInputs, hn, h0, List.getElem?_nil]
  | cons i r ih =>
    have h1 : readable env i := hpre i (List.mem_cons_self _ _)
    unfold readable at h1
    obtain ⟨t, ht⟩ := Option.isSome_iff_exists.1 h1
    simp only [List.cons_append, spentInputs, ht]
    exact ih (j + 1) (fun x hx => hpre x (List.mem_cons_of_mem _ hx))

theorem first_unreadable (env : Env) (vin : List CTxIn) :
    (∀ input ∈ vin, readable env input) ∨
      ∃ pre input post, vin = pre ++ input :: post ∧ (∀ i ∈ pre, readable env i) ∧
        ¬ readable env input := by
  induction vin with
  | nil => exact Or.inl (fun _ h => absurd h (List.not_mem_nil _))
  | cons a r ih =>
    by_cases ha : readable env a
    · rcases ih with h | ⟨pre, input, post, e, hp, hi⟩
      · left
        intro i hi
        rcases List.mem_cons.1 hi with rfl | h2
        · exact ha
        · exact h i h2
      · right
        refine ⟨a :: pre, input, post, by rw [e]; rfl, ?_, hi⟩
        intro i hi2
        rcases List.mem_cons.1 hi2 with rfl | h2
        · exact ha
        · exact hp i h2
    · exact Or.inr ⟨[], a, r, rfl, fun _ h => absurd h (List.not_mem_nil _), ha⟩

theorem addSpentIndex_readable (env : Env) (nullTx : CTransaction) (pool : CTxMemPool)
    (tx : CTransaction) (h : ∀ input ∈ tx.vin, readable env input) :
    addSpentIndex env nullTx pool tx
      = (none, { pool with
          mapSpentInserted := pool.mapSpentInserted.insert (env.GetHash tx) [] }) := by
  unfold addSpentIndex
  rw [spentInputs_readable env nullTx _ tx.vin 0 pool.mapSpent [] h]

theorem addSpentIndex_unreadable (env : Env) (nullTx : CTransaction) (pool : CTxMemPool)
    (tx : CTransaction) (h0 : nullTx.vout = []) (pre : List CTxIn) (input : CTxIn)
    (post : List CTxIn) (hv : tx.vin = pre ++ input :: post)
    (hpre : ∀ i ∈ pre, readable env i) (hin : ¬ readable env input) :
    addSpentIndex env nullTx pool tx = (some "addSpentIndex() : n out of range", pool) := by
  unfold addSpentIndex
  rw [hv, spentInputs_unreadable env nullTx _ h0 pre input post 0 pool.mapSpent [] hpre hin]

theorem addSpentIndex_cases (env : Env) (nullTx : CTransaction) (pool : CTxMemPool)
    (tx : CTransaction) (h0 : nullTx.vout = []) :
    (((∀ input ∈ tx.vin, readable env input) ∧
        addSpentIndex env nullTx pool tx
          = (none, { pool with
              mapSpentInserted := pool.mapSpentInserted.insert (env.GetHash tx) [] }) ∧
        (pool.mapSpentInserted.find? (env.GetHash tx) = none →
          (addSpentIndex env nullTx pool tx).2.mapSpentInserted.find? (env.GetHash tx)
            = some []) ∧
        (∀ old, pool.mapSpentInserted.find? (env.GetHash tx) = some old →
          (addSpentIndex env nullTx pool tx).2.mapSpentInserted.find? (env.GetHash tx)
            = some old) ∧
        (∀ h, h ≠ env.GetHash tx →
          (addSpentIndex env nullTx pool tx).2.mapSpentInserted.find? h
            = pool.mapSpentInserted.find? h)) ∨
      (∃ pre input post, tx.vin = pre ++ input :: post ∧ (∀ i ∈ pre, readable env i) ∧
        ¬ readable env input ∧
        addSpentIndex env nullTx pool tx
          = (some "addSpentIndex() : n out of range", pool))) ∧
    (addSpentIndex env nullTx pool tx).2.mapSpent = pool.mapSpent ∧
    (∀ key, getSpentIndex (addSpentIndex env nullTx pool tx).2 key = getSpentIndex pool key) := by
  have key : (addSpentIndex env nullTx pool tx).2.mapSpent = pool.mapSpent := by
    rcases first_unreadable env tx.vin with h | ⟨pre, input, post, e, hp, hi⟩
    · rw [addSpentIndex_readable env nullTx pool tx h]
    · rw [addSpentIndex_unreadable env nullTx pool tx h0 pre input post e hp hi]
  refine ⟨?_, key, fun k => by unfold getSpentIndex; rw [key]⟩
  rcases first_unreadable env tx.vin with h | ⟨pre, input, post, e, hp, hi⟩
  · left
    have e := addSpentIndex_readable env nullTx pool tx h
    refine ⟨h, e, ?_, ?_, ?_⟩
    · intro hn
      rw [e]
      show (pool.mapSpentInserted.insert (env.GetHash tx) []).find? (env.GetHash tx) = some []
      rw [SMap.find?_insert, if_pos rfl, (SMap.contains_eq_false _ _).2 hn]
      rfl
    · intro old ho
      rw [e]
      show (pool.mapSpentInserted.insert (env.GetHash tx) []).find? (env.GetHash tx) = some old
      rw [SMap.find?_insert, if_pos rfl, (SMap.contains_iff _ _).2 ⟨old, ho⟩, if_pos rfl, ho]
    · intro h2 hne
      rw [e]
      show (pool.mapSpentInserted.insert (env.GetHash tx) []).find? h2 = _
      rw [SMap.find?_insert, if_neg (fun x => hne x.symm)]
  · right
    exact ⟨pre, input, post, e, hp, hi,
      addSpentIndex_unreadable env nullTx pool tx h0 pre input post e hp hi⟩

/-- C22, as stated: in a pool that already lists the key `(50, 0)` under the
hash 9, `addSpentIndex` of a transaction of hash 9 whose one input is readable
completes, and the list under the hash 9 is still `[(50, 0)]`, not empty:
`mapSpentInserted.insert` keeps the list that is there. -/
theorem addSpentIndex_keeps_recorded_list :
    txNull.vout = [] ∧ diskEnv.GetHash txSpend = 9 ∧
      (∀ input ∈ txSpend.vin, readable diskEnv input) ∧
      (addSpentIndex diskEnv txNull poolSpentListed txSpend).1 = none ∧
      (addSpentIndex diskEnv txNull poolSpentListed txSpend).2.mapSpentInserted.find? 9
        = some [⟨50, 0⟩] ∧
      (addSpentIndex diskEnv txNull poolSpentListed txSpend).2.mapSpentInserted.find? 9
        ≠ some [] := by
  decide

/-- C22, amended: with the local previous transaction of a failed read holding
no outputs, for every pool and every transaction `tx`, `addSpentIndex(tx)` leaves
`mapSpent`, and so every answer of `getSpentIndex`, unchanged, and either every
input is readable, the call completes, changes nothing but `mapSpentInserted`,
and there records an empty list under the hash of `tx` when no list is recorded
under it, keeps the list already recorded otherwise and leaves the lists of other
hashes alone; or some input is not readable and the call throws "n out of range"
at the first such input, leaving the whole pool as it was. -/
theorem addSpentIndex_spec (env : Env) (nullTx : CTransaction) (pool : CTxMemPool)
    (tx : CTransaction) (h0 : nullTx.vout = []) :
    (((∀ input ∈ tx.vin, readable env input) ∧
        addSpentIndex env nullTx pool tx
          = (none, { pool with
              mapSpentInserted := pool.mapSpentInserted.insert (env.GetHash tx) [] }) ∧
        (pool.mapSpentInserted.find? (env.GetHash tx) = none →
          (addSpentIndex env nullTx pool tx).2.mapSpentInserted.find? (env.GetHash tx)
            = some []) ∧
        (∀ old, pool.mapSpentInserted.find? (env.GetHash tx) = some old →
          (addSpentIndex env nullTx pool tx).2.mapSpentInserted.find? (env.GetHash tx)
            = some old) ∧
        (∀ h, h ≠ env.GetHash tx →
          (addSpentIndex env nullTx pool tx).2.mapSpentInserted.find? h
            = pool.mapSpentInserted.find? h)) ∨
      (∃ pre input post, tx.vin = pre ++ input :: post ∧ (∀ i ∈ pre, readable env i) ∧
        ¬ readable env input ∧
        addSpentIndex env nullTx pool tx
          = (some "addSpentIndex() : n out of range", pool))) ∧
    (addSpentIndex env nullTx pool tx).2.mapSpent = pool.mapSpent ∧
    (∀ key, getSpentIndex (addSpentIndex env nullTx pool tx).2 key = getSpentIndex pool key) :=
  addSpentIndex_cases env nullTx pool tx h0

/-- C22, witness: on the empty pool, the transaction of hash 12, whose input 1 is
the first that is not readable, throws and leaves `mapSpent` as it was; the
transaction of hash 9, whose one input is readable, completes and records an
empty list under 9. -/
theorem addSpentIndex_spec_witness :
    txNull.vout = [] ∧
      ((addSpentIndex diskEnv txNull CTxMemPool.init txUnreadable).2.mapSpent
          = CTxMemPool.init.mapSpent ∧
        ∀ key, getSpentIndex (addSpentIndex diskEnv txNull CTxMemPool.init txUnreadable).2 key
          = getSpentIndex CTxMemPool.init key) ∧
      (addSpentIndex diskEnv txNull CTxMemPool.init txUnreadable).1
        = some "addSpentIndex() : n out of range" ∧
      (addSpentIndex diskEnv txNull CTxMemPool.init txSpend).1 = none ∧
      (addSpentIndex diskEnv txNull CTxMemPool.init txSpend).2.mapSpentInserted.find? 9
        = some [] :=
  ⟨rfl, (addSpentIndex_spec diskEnv txNull CTxMemPool.init txUnreadable rfl).2,
    by decide, by decide, by decide⟩

end TokenPay
